import Mathlib

/-!
Formal model of the AI Wargame rules engine and search subsystem, translated
from the Python sources: utils.py, units.py, game.py and ai_logic.py.

Modelling conventions:
- Python ints are modelled as Lean Int (or Nat for counters that are never
  negative in the source, such as turns_played).
- Mutation is modelled by explicit state passing: methods that mutate a Game
  return the updated Game.
- Lazy generators (move_candidates, next_state_candidates, player_units,
  iter_adjacent, iter_rectangle) are modelled as Lists in iteration order.
- Randomness (random.shuffle followed by taking the first element) is modelled
  by an explicit index parameter k choosing one of the candidates.
- Wall-clock time is modelled by an abstract Clock consumed one tick per call
  to out_of_time_check; elapsed time is monotone, so every real timing
  corresponds to some Clock value.
- Log output is modelled by returning the logged message where a claim talks
  about logging; purely cosmetic message formatting is simplified to plain
  string constants.
-/

namespace Wargame

/-- Translation of utils.PlayerTeam: the 2 player teams. -/
inductive PlayerTeam where
  | Attacker
  | Defender
deriving DecidableEq, Repr

/-- Translation of PlayerTeam.next: the next (other) player. -/
def PlayerTeam.next : PlayerTeam → PlayerTeam
  | PlayerTeam.Attacker => PlayerTeam.Defender
  | PlayerTeam.Defender => PlayerTeam.Attacker

/-- Translation of units.UnitType: every unit type. -/
inductive UnitType where
  | AI
  | Tech
  | Virus
  | Program
  | Firewall
deriving DecidableEq, Repr

/-- Translation of the Enum integer value of a UnitType (AI = 0 .. Firewall = 4),
used to index the damage and repair tables. -/
def UnitType.value : UnitType → Nat
  | UnitType.AI => 0
  | UnitType.Tech => 1
  | UnitType.Virus => 2
  | UnitType.Program => 3
  | UnitType.Firewall => 4

/-- Translation of units.UnitAction: actions that units can take during play.
The source file units.py defines the InvalidNo* variants; the member Invalid,
which game.py references throughout (UnitAction.Invalid), is missing from the
provided units.py. Modelled from the spec: the Action kind set is
Move, Attack, Repair, SelfDestruct (Kaboom) and Invalid. -/
inductive UnitAction where
  | InvalidNoExist
  | InvalidNoUnderstand
  | InvalidNoDiagonal
  | InvalidNoOwn
  | InvalidNoReturnVirus
  | InvalidNoReturnTech
  | InvalidNoDisengage
  | InvalidNoUnit
  | Move
  | Attack
  | Repair
  | Kaboom
  | Invalid
deriving DecidableEq, Repr

/-- Translation of units.Unit: player, type and health (health is a Python int,
modelled as Int since destroy temporarily sets it to -1). -/
structure Unit where
  player : PlayerTeam := PlayerTeam.Attacker
  type : UnitType := UnitType.Program
  health : Int := 9
deriving DecidableEq, Repr

/-- Translation of Unit.damage_table: damage amounts indexed by
(actor type value, target type value). -/
def damage_table : List (List Int) :=
  [ [3,3,3,3,1],
    [1,1,6,1,1],
    [9,6,1,6,1],
    [3,3,3,3,1],
    [1,1,1,1,1] ]

/-- Translation of Unit.repair_table: repair amounts indexed by
(actor type value, target type value). -/
def repair_table : List (List Int) :=
  [ [0,1,1,0,0],
    [3,0,0,3,3],
    [0,0,0,0,0],
    [0,0,0,0,0],
    [0,0,0,0,0] ]

/-- Translation of Unit.is_alive: health strictly positive. -/
def Unit.is_alive (u : Unit) : Bool :=
  u.health > 0

/-- Translation of Unit.can_move_freely: only Tech and Virus may disengage or
move towards their base. -/
def Unit.can_move_freely (u : Unit) : Bool :=
  u.type = UnitType.Tech ∨ u.type = UnitType.Virus

/-- Translation of Unit.mod_health: add the delta and clamp health into [0, 9]. -/
def Unit.mod_health (u : Unit) (health_delta : Int) : Unit :=
  let h := u.health + health_delta
  if h < 0 then { u with health := 0 }
  else if h > 9 then { u with health := 9 }
  else { u with health := h }

/-- Translation of Unit.damage_amount: table lookup, returning the target
health instead when the full amount would push the target below 0. -/
def Unit.damage_amount (self target : Unit) : Int :=
  let amount := (damage_table.getD self.type.value []).getD target.type.value 0
  if target.health - amount < 0 then target.health
  else amount

/-- Translation of Unit.repair_amount: table lookup, capped so the target
cannot exceed 9 health. -/
def Unit.repair_amount (self target : Unit) : Int :=
  let amount := (repair_table.getD self.type.value []).getD target.type.value 0
  if target.health + amount > 9 then 9 - target.health
  else amount

/-- Translation of utils.Coord: an integer (row, col) pair. -/
structure Coord where
  row : Int := 0
  col : Int := 0
deriving DecidableEq, Repr

/-- Translation of Coord.iter_adjacent: the four orthogonal neighbours in
source order (up, left, down, right). -/
def Coord.iter_adjacent (c : Coord) : List Coord :=
  [ Coord.mk (c.row - 1) c.col,
    Coord.mk c.row (c.col - 1),
    Coord.mk (c.row + 1) c.col,
    Coord.mk c.row (c.col + 1) ]

/-- Translation of Coord.are_equal. -/
def Coord.are_equal (c1 c2 : Coord) : Bool :=
  c1.row = c2.row ∧ c1.col = c2.col

/-- Translation of Coord.are_adjacent_cross: orthogonally adjacent, diagonals
excluded. -/
def Coord.are_adjacent_cross (c1 c2 : Coord) : Bool :=
  let deltaX := (c1.row - c2.row).natAbs
  if deltaX > 1 then false
  else
    let deltaY := (c1.col - c2.col).natAbs
    if deltaY > 1 then false
    else deltaX ≠ deltaY

/-- Modelled from the spec: Coord.get_manhattan_distance is called by
ai_logic.heuristic_e1 but is missing from the provided utils.py; the spec
describes the term as the Manhattan distance between the two coordinates. -/
def Coord.get_manhattan_distance (c1 c2 : Coord) : Int :=
  ((c1.row - c2.row).natAbs : Int) + ((c1.col - c2.col).natAbs : Int)

/-- Translation of the Python range(a, b) over integers, as a list. -/
def intRange (a b : Int) : List Int :=
  (List.range (b - a).toNat).map (fun i => a + (i : Int))

/-- Translation of utils.CoordPair: a game move or rectangular area. -/
structure CoordPair where
  src : Coord := {}
  dst : Coord := {}
deriving DecidableEq, Repr

/-- Translation of CoordPair.iter_rectangle: all cells of the rectangle,
row-major. -/
def CoordPair.iter_rectangle (p : CoordPair) : List Coord :=
  (intRange p.src.row (p.dst.row + 1)).flatMap (fun row =>
    (intRange p.src.col (p.dst.col + 1)).map (fun col => Coord.mk row col))

/-- Translation of CoordPair.from_dim: the full board rectangle. -/
def CoordPair.from_dim (dim : Int) : CoordPair :=
  CoordPair.mk (Coord.mk 0 0) (Coord.mk (dim - 1) (dim - 1))

/-- Translation of CoordPair.delta: destination minus source, per component. -/
def CoordPair.delta (p : CoordPair) : Int × Int :=
  (p.dst.row - p.src.row, p.dst.col - p.src.col)

/-- Translation of CoordPair.are_equal. -/
def CoordPair.are_equal (p : CoordPair) : Bool :=
  Coord.are_equal p.src p.dst

/-- Translation of CoordPair.are_adjacent_cross. -/
def CoordPair.are_adjacent_cross (p : CoordPair) : Bool :=
  Coord.are_adjacent_cross p.src p.dst

/-- Translation of game.GameType. -/
inductive GameType where
  | AttackerVsDefender
  | AttackerVsComp
  | CompVsDefender
  | CompVsComp
deriving DecidableEq, Repr

/-- Translation of game.Options (the broker endpoint and the float max_time
are not part of the modelled state: wall-clock time is abstracted by Clock). -/
structure Options where
  dim : Int := 5
  max_depth : Nat := 4
  game_type : GameType := GameType.AttackerVsDefender
  alpha_beta : Bool := true
  max_turns : Option Nat := some 100
  heuristic_choice : Nat := 1
deriving DecidableEq, Repr

/-- Translation of the board: a grid of cells each holding at most one Unit. -/
abbrev Board := List (List (Option Unit))

/-- Translation of game.Game: the game state. The statistics fields
(cumulative_evals, average_branch_factor, stats) are diagnostics that never
feed back into any modelled operation and are omitted. -/
structure Game where
  board : Board := []
  next_player : PlayerTeam := PlayerTeam.Attacker
  turns_played : Nat := 0
  options : Options := {}
  attacker_has_ai : Bool := true
  defender_has_ai : Bool := true
deriving DecidableEq, Repr

/-- Translation of Game.clone: in this value-level model a copy of the game is
the value itself (the Python deep copy of the board is modelled separately in
the heap model below, where aliasing is observable). -/
def Game.clone (g : Game) : Game := g

/-- Translation of Game.is_coord_valid: bounds check against the configured
dimension. -/
def Game.is_coord_valid (g : Game) (c : Coord) : Bool :=
  if c.row < 0 ∨ c.row ≥ g.options.dim ∨ c.col < 0 ∨ c.col ≥ g.options.dim then false
  else true

/-- Translation of Game.get: contents of a cell, empty for invalid coords. -/
def Game.get (g : Game) (c : Coord) : Option Unit :=
  if g.is_coord_valid c then (g.board.getD c.row.toNat []).getD c.col.toNat none
  else none

/-- Translation of Game.set: replace the contents of a valid cell. -/
def Game.set (g : Game) (c : Coord) (u : Option Unit) : Game :=
  if g.is_coord_valid c then
    { g with board := g.board.set c.row.toNat ((g.board.getD c.row.toNat []).set c.col.toNat u) }
  else g

/-- Translation of Game.remove_dead: remove the unit at the coord if dead,
flipping the per-team has-AI flag when an AI unit dies. -/
def Game.remove_dead (g : Game) (c : Coord) : Game :=
  match g.get c with
  | none => g
  | some u =>
    if u.is_alive = false then
      let g1 := g.set c none
      if u.type = UnitType.AI then
        if u.player = PlayerTeam.Attacker then { g1 with attacker_has_ai := false }
        else { g1 with defender_has_ai := false }
      else g1
    else g

/-- Translation of Game.mod_health: modify the health of the unit at the coord
and remove it if it died. -/
def Game.mod_health (g : Game) (c : Coord) (health_delta : Int) : Game :=
  match g.get c with
  | none => g
  | some u => (g.set c (some (u.mod_health health_delta))).remove_dead c

/-- Translation of Game.destroy: kill the unit at the coord outright by
forcing health to -1, then remove it. -/
def Game.destroy (g : Game) (c : Coord) : Game :=
  match g.get c with
  | none => g
  | some u => (g.set c (some { u with health := -1 })).remove_dead c

/-- Translation of Game.explode: -2 health to every cell of the 3x3
neighbourhood centred on the blast point, in source loop order. -/
def Game.explode (g : Game) (blast_point : Coord) : Game :=
  (List.range 3).foldl (fun gx (x : Nat) =>
    (List.range 3).foldl (fun gy (y : Nat) =>
      gy.mod_health (Coord.mk (blast_point.row - 1 + (x : Int)) (blast_point.col - 1 + (y : Int))) (-2)) gx) g

/-- The nine blast coordinates of Game.explode, in loop order (used to reason
about the explode fold). -/
def explodeList (blast_point : Coord) : List Coord :=
  [ Coord.mk (blast_point.row - 1) (blast_point.col - 1),
    Coord.mk (blast_point.row - 1) blast_point.col,
    Coord.mk (blast_point.row - 1) (blast_point.col + 1),
    Coord.mk blast_point.row (blast_point.col - 1),
    Coord.mk blast_point.row blast_point.col,
    Coord.mk blast_point.row (blast_point.col + 1),
    Coord.mk (blast_point.row + 1) (blast_point.col - 1),
    Coord.mk (blast_point.row + 1) blast_point.col,
    Coord.mk (blast_point.row + 1) (blast_point.col + 1) ]

/-- Translation of Game.has_winner: Defender on reaching the turn limit, else
decided by the two has-AI flags. -/
def Game.has_winner (g : Game) : Option PlayerTeam :=
  if (match g.options.max_turns with
      | some mt => decide (g.turns_played ≥ mt)
      | none => false) then
    some PlayerTeam.Defender
  else if g.attacker_has_ai then
    if g.defender_has_ai then none
    else some PlayerTeam.Attacker
  else some PlayerTeam.Defender

/-- Translation of Game.next_turn: swap the mover and count the turn. -/
def Game.next_turn (g : Game) : Game :=
  { g with next_player := g.next_player.next, turns_played := g.turns_played + 1 }

/-- Translation of Game.player_units: all units of one player, in board scan
order (row-major over the full board rectangle). -/
def Game.player_units (g : Game) (player : PlayerTeam) : List (Coord × Unit) :=
  ((CoordPair.from_dim g.options.dim).iter_rectangle).filterMap (fun c =>
    match g.get c with
    | some u => if u.player = player then some (c, u) else none
    | none => none)

/-- Translation of Game.determine_action: classify a coordinate pair into an
action plus a reason string, in source evaluation order. -/
def Game.determine_action (g : Game) (coords : CoordPair) : UnitAction × String :=
  if ¬ g.is_coord_valid coords.src ∨ ¬ g.is_coord_valid coords.dst then
    (UnitAction.Invalid, "Specified coordinate does not exist!")
  else
    match g.get coords.src with
    | none => (UnitAction.Invalid, "Coordinate does not contain a unit!")
    | some actingUnit =>
      if actingUnit.player ≠ g.next_player then
        (UnitAction.Invalid, "Unit does not belong to this player!")
      else if coords.are_equal then
        (UnitAction.Kaboom, "Detonate")
      else if ¬ coords.are_adjacent_cross then
        (UnitAction.Invalid, "Units can only move in cardinal directions!")
      else
        match g.get coords.dst with
        | none =>
          if ¬ actingUnit.can_move_freely then
            let d := coords.delta
            if actingUnit.player = PlayerTeam.Defender ∧ (d.1 < 0 ∨ d.2 < 0) then
              (UnitAction.Invalid, "Non-tech defender unit cannot move towards its base.")
            else if actingUnit.player = PlayerTeam.Attacker ∧ (d.1 > 0 ∨ d.2 > 0) then
              (UnitAction.Invalid, "Non-virus attacker unit cannot move towards its base.")
            else if coords.src.iter_adjacent.any (fun t =>
                match g.get t with
                | some adjacentUnit => decide (actingUnit.player ≠ adjacentUnit.player)
                | none => false) then
              (UnitAction.Invalid, "Unit cannot move; it is engaged with another unit.")
            else (UnitAction.Move, "Move")
          else (UnitAction.Move, "Move")
        | some otherUnit =>
          if otherUnit.player ≠ g.next_player then
            (UnitAction.Attack, "Attack")
          else if otherUnit.player = g.next_player ∧ Unit.repair_amount actingUnit otherUnit > 0 then
            (UnitAction.Repair, "Repair")
          else (UnitAction.Invalid, "Action was not recognized.")

/-- Translation of Game.perform_move: execute a previously classified action,
returning the new state, a success flag and a message (message formatting is
simplified to constants; on the Attack and Repair branches the source assumes
both cells are occupied and would raise otherwise, a case no classified action
produces). -/
def Game.perform_move (g : Game) (coords : CoordPair) (action : UnitAction) :
    Game × Bool × String :=
  let actingUnit := g.get coords.src
  if action = UnitAction.Move then
    (((g.set coords.dst actingUnit).set coords.src none), true, "moves")
  else if action = UnitAction.Kaboom then
    (((g.destroy coords.dst).explode coords.dst), true, "explodes in a fiery blast")
  else if action = UnitAction.Attack then
    match actingUnit, g.get coords.dst with
    | some au, some otherUnit =>
      let g1 := g.mod_health coords.dst (-(Unit.damage_amount au otherUnit))
      let g2 := g1.mod_health coords.src (-(Unit.damage_amount otherUnit au))
      (g2, true, "attacks")
    | _, _ => (g, false, "invalid move")
  else if action = UnitAction.Repair then
    match actingUnit, g.get coords.dst with
    | some au, some otherUnit =>
      let health_value := Unit.repair_amount au otherUnit
      (g.set coords.dst (some (otherUnit.mod_health health_value)), true, "repairs")
    | _, _ => (g, false, "invalid move")
  else (g, false, "invalid move")

/-- Translation of Game.move_candidates: all non-Invalid actions of the
player, per unit the four orthogonal destinations then the self-destruct. -/
def Game.move_candidates (g : Game) (player : PlayerTeam) : List (CoordPair × UnitAction) :=
  (g.player_units player).flatMap (fun su =>
    (su.1.iter_adjacent.filterMap (fun dst =>
      let move := CoordPair.mk su.1 dst
      let a := (g.determine_action move).1
      if a ≠ UnitAction.Invalid then some (move, a) else none))
    ++
    (let move := CoordPair.mk su.1 su.1
     let a := (g.determine_action move).1
     if a ≠ UnitAction.Invalid then [(move, a)] else []))

/-- Translation of Game.next_state_candidates: one cloned successor state per
legal move, with the mover swapped before the move is applied. -/
def Game.next_state_candidates (g : Game) : List (Game × CoordPair) :=
  let other_player := g.next_player.next
  (g.move_candidates g.next_player).map (fun ma =>
    let state := { g.clone with next_player := other_player }
    ((state.perform_move ma.1 ma.2).1, ma.1))

/-- Translation of Game.random_next_state: a random successor state, or none
when there is no legal move. The source shuffles the candidate list and takes
its head; choosing the element at an arbitrary index k models every possible
shuffle outcome. -/
def Game.random_next_state (g : Game) (k : Nat) : Option (Game × CoordPair × UnitAction) :=
  let mc := g.move_candidates g.next_player
  if mc.length = 0 then none
  else
    match mc.get? (k % mc.length) with
    | some ma => some ((g.clone.perform_move ma.1 ma.2).1, ma.1, ma.2)
    | none => none

/-- Translation of ai_logic.heuristic_e1: weighted health and threat score
from the Defender (MAX) perspective, with the 9999 sentinel when the Defender
has no AI unit left. The Defender fold tracks the last AI coordinate seen,
exactly as the source loop does. -/
def heuristic_e1 (g : Game) : Int :=
  let r := (g.player_units PlayerTeam.Defender).foldl
    (fun (acc : Int × Option Coord) cu =>
      if cu.2.type = UnitType.AI then (acc.1 - cu.2.health * 10, some cu.1)
      else (acc.1 - cu.2.health, acc.2))
    (0, none)
  match r.2 with
  | none => 9999
  | some my_ai_coord =>
    (g.player_units PlayerTeam.Attacker).foldl
      (fun acc cu =>
        if cu.2.type = UnitType.Virus then
          acc + cu.2.health * (10 - Coord.get_manhattan_distance cu.1 my_ai_coord)
        else if cu.2.type = UnitType.AI then
          acc + cu.2.health * 5
        else acc + cu.2.health * 2)
      r.1

/-- Translation of ai_logic.heuristic_e2: heuristic_e1 plus a weighted move
count difference. The source computes the difference between the move counts
of the Defender and the Defender itself, exactly as written there (its own
comment says it should be between the two players). -/
def heuristic_e2 (g : Game) : Int :=
  let moves_weight : Int := 1
  heuristic_e1 g + moves_weight *
    (((g.move_candidates PlayerTeam.Defender).length : Int) -
     ((g.move_candidates PlayerTeam.Defender).length : Int))

/-- Abstraction of wall-clock time for out_of_time_check. Elapsed time is
monotone, so a run of checks is: some number of checks strictly below the
iterative-deepening cutoff fraction (fine), then some number at or above the
cutoff but below the max search time (cutoff), then only checks at or past the
max search time (expired, the OutOfTimeException case). fine and grace count
the checks remaining in the first two phases. -/
structure Clock where
  fine : Nat
  grace : Nat
deriving DecidableEq, Repr

/-- Result of one out_of_time_check against a Clock. -/
inductive TimeCheck where
  | fine
  | cutoff
  | expired
deriving DecidableEq, Repr

/-- Translation of Node.out_of_time_check: one check against the clock. The
none clock is the start_time None case, which returns immediately without
ever signalling. -/
def tick : Option Clock → TimeCheck × Option Clock
  | none => (TimeCheck.fine, none)
  | some c =>
    if c.fine > 0 then (TimeCheck.fine, some { c with fine := c.fine - 1 })
    else if c.grace > 0 then (TimeCheck.cutoff, some { c with grace := c.grace - 1 })
    else (TimeCheck.expired, some c)

/-- Translation of ai_logic.Node: a search tree node wrapping a game state, a
cached value, the action that produced it from its parent, and its children.
The parent back-reference of the source is bookkeeping only and is dropped;
a children field of None is collapsed to the empty list (is_leaf treats both
the same). -/
inductive Node where
  | mk (state : Game) (value : Option Int) (action : Option CoordPair) (children : List Node)
deriving Repr

/-- Projection of the wrapped game state. -/
def Node.state : Node → Game
  | Node.mk s _ _ _ => s

/-- Projection of the cached value. -/
def Node.value : Node → Option Int
  | Node.mk _ v _ _ => v

/-- Projection of the action that produced this node from its parent. -/
def Node.action : Node → Option CoordPair
  | Node.mk _ _ a _ => a

/-- Projection of the children list. -/
def Node.children : Node → List Node
  | Node.mk _ _ _ c => c

/-- Translation of Node.is_leaf. -/
def Node.is_leaf (n : Node) : Bool :=
  n.children.isEmpty

/-- Translation of Node.generate_node_tree: give the node one child per
next-state candidate of its state, returning the updated node and the new
children list. -/
def Node.generate_node_tree (root : Node) : Node × List Node :=
  let cs := (root.state.next_state_candidates).map (fun sc => Node.mk sc.1 none (some sc.2) [])
  (Node.mk root.state root.value root.action cs, cs)

/-- Modelled from the spec: Node.generate_successors is called by
Game.search_for_best_move but is missing from the provided sources; the spec
says expansion gives a node the children built from the nextStateCandidates of
its wrapped state, each paired with the producing action, which is exactly
what ai_logic.generate_node_tree computes. -/
def Node.generate_successors (root : Node) : Node × List Node :=
  Node.generate_node_tree root

/-- One step of the get_max_node fold: keep the accumulator when the node has
no value, else keep whichever of the two carries the strictly larger value
(ties keep the earlier one). -/
def gmaxStep (acc : Option (Int × Node)) (node : Node) : Option (Int × Node) :=
  match node.value with
  | none => acc
  | some v =>
    match acc with
    | none => some (v, node)
    | some mv => if v > mv.1 then some (v, node) else some mv

/-- One step of the get_min_node fold. -/
def gminStep (acc : Option (Int × Node)) (node : Node) : Option (Int × Node) :=
  match node.value with
  | none => acc
  | some v =>
    match acc with
    | none => some (v, node)
    | some mv => if v < mv.1 then some (v, node) else some mv

/-- Translation of Node.get_max_node: the first node carrying the strictly
largest value, skipping nodes without a value; none when no node has a
value. -/
def Node.get_max_node (list : List Node) : Option Node :=
  (list.foldl gmaxStep none).map Prod.snd

/-- Translation of Node.get_min_node: the first node carrying the strictly
smallest value. -/
def Node.get_min_node (list : List Node) : Option Node :=
  (list.foldl gminStep none).map Prod.snd

/-- Failure modes of the search: the OutOfTimeException signal, and the
TypeError the source raises when take_best_next_state unpacks the None that
random_next_state returns for a state without legal moves. -/
inductive SearchErr where
  | outOfTime
  | crash
deriving DecidableEq, Repr

/-- Translation of Node.take_best_next_state: the best-valued child, else the
logged warning plus a random successor, else the unpacking TypeError. The
returned Option String is the warning written to the log (none when no
fallback fired). -/
def Node.take_best_next_state (root : Node) (is_maximizing : Bool) (k : Nat) (error_str : String) :
    Except SearchErr (Node × Option String) :=
  let best := if is_maximizing then Node.get_max_node root.children else Node.get_min_node root.children
  match best with
  | some b => Except.ok (b, none)
  | none =>
    match root.state.random_next_state k with
    | some nsm => Except.ok (Node.mk nsm.1 none (some nsm.2.1) [], some error_str)
    | none => Except.error SearchErr.crash

/-- Python max over a nonempty int list (the empty case never arises: it is
only applied to the values of a nonempty children list). -/
def listMax : List Int → Int
  | [] => 0
  | x :: xs => xs.foldl max x

/-- Python min over a nonempty int list. -/
def listMin : List Int → Int
  | [] => 0
  | x :: xs => xs.foldl min x

mutual

/-- Translation of Node.minimax_propagate_values_up: check the clock first (an
expired clock raises before anything else is looked at), compute or reuse a
leaf value, otherwise recurse over the children and fold max or min. Returns
the updated tree (partially updated when the clock expires), the value or the
timeout signal, and the advanced clock. -/
def Node.minimax_propagate_values_up : Node → Bool → Option Clock →
    Node × Except SearchErr Int × Option Clock
  | Node.mk s v a [], _, clk =>
    match tick clk with
    | (TimeCheck.expired, clk2) => (Node.mk s v a [], Except.error SearchErr.outOfTime, clk2)
    | (_, clk2) =>
      match v with
      | none => (Node.mk s (some (heuristic_e1 s)) a [], Except.ok (heuristic_e1 s), clk2)
      | some v0 => (Node.mk s (some v0) a [], Except.ok v0, clk2)
  | Node.mk s v a (c :: cs), is_maximizing, clk =>
    match tick clk with
    | (TimeCheck.expired, clk2) =>
      (Node.mk s v a (c :: cs), Except.error SearchErr.outOfTime, clk2)
    | (_, clk2) =>
      match Node.minimax_list (c :: cs) (!is_maximizing) clk2 with
      | (cs2, Except.error e, clk3) => (Node.mk s v a cs2, Except.error e, clk3)
      | (cs2, Except.ok vals, clk3) =>
        (Node.mk s (some (if is_maximizing then listMax vals else listMin vals)) a cs2,
          Except.ok (if is_maximizing then listMax vals else listMin vals), clk3)

/-- Helper for minimax_propagate_values_up: propagate over a children list in
order, aborting on the timeout signal (children after the abort keep their old
contents, as the source exception unwinds past them). -/
def Node.minimax_list : List Node → Bool → Option Clock →
    List Node × Except SearchErr (List Int) × Option Clock
  | [], _, clk => ([], Except.ok [], clk)
  | c :: cs, is_maximizing, clk =>
    match Node.minimax_propagate_values_up c is_maximizing clk with
    | (c2, Except.error e, clk2) => (c2 :: cs, Except.error e, clk2)
    | (c2, Except.ok v, clk2) =>
      match Node.minimax_list cs is_maximizing clk2 with
      | (cs2, Except.error e, clk3) => (c2 :: cs2, Except.error e, clk3)
      | (cs2, Except.ok vs, clk3) => (c2 :: cs2, Except.ok (v :: vs), clk3)

end

/-- Extended integers for the alpha and beta bounds (the source uses float
infinities as initial bounds around integer scores). -/
abbrev EInt := WithBot (WithTop Int)

/-- Embedding of an integer score into the extended integers. -/
def EInt.ofInt (v : Int) : EInt :=
  ((v : WithTop Int) : EInt)

/-- Folding the running best of the alpha-beta loop with a new child score:
max when maximizing, min when minimizing; the none start stands for the float
infinity seed of the source. -/
def abBest (best : Option Int) (score : Int) (is_maximizing : Bool) : Int :=
  match best with
  | none => score
  | some b => if is_maximizing then max b score else min b score

mutual

/-- Translation of Node.alphabeta_propagate_values_up: check the clock first,
compute or reuse a leaf value, otherwise fold the children under the running
(alpha, beta) bounds with the prune break. -/
def Node.alphabeta_propagate_values_up : Node → EInt → EInt → Bool → Option Clock →
    Node × Except SearchErr Int × Option Clock
  | Node.mk s v a [], _, _, _, clk =>
    (match tick clk with
     | (TimeCheck.expired, clk2) => (Node.mk s v a [], Except.error SearchErr.outOfTime, clk2)
     | (_, clk2) =>
       match v with
       | none => (Node.mk s (some (heuristic_e1 s)) a [], Except.ok (heuristic_e1 s), clk2)
       | some v0 => (Node.mk s (some v0) a [], Except.ok v0, clk2))
  | Node.mk s v a (c :: cs), alpha, beta, is_maximizing, clk =>
    (match tick clk with
     | (TimeCheck.expired, clk2) =>
       (Node.mk s v a (c :: cs), Except.error SearchErr.outOfTime, clk2)
     | (_, clk2) =>
       if is_maximizing then
         match Node.alphabeta_fold_max (c :: cs) alpha beta (!is_maximizing) clk2 none with
         | (cs2, Except.error e, clk3) => (Node.mk s v a cs2, Except.error e, clk3)
         | (cs2, Except.ok best, clk3) => (Node.mk s (some best) a cs2, Except.ok best, clk3)
       else
         match Node.alphabeta_fold_min (c :: cs) alpha beta (!is_maximizing) clk2 none with
         | (cs2, Except.error e, clk3) => (Node.mk s v a cs2, Except.error e, clk3)
         | (cs2, Except.ok best, clk3) => (Node.mk s (some best) a cs2, Except.ok best, clk3))

/-- Helper for the maximizing loop of alphabeta_propagate_values_up: best is
the running best (none for the float minus infinity start), alpha is raised to
the best after each child, and the loop breaks as soon as beta is at most
alpha, leaving the remaining children untouched. -/
def Node.alphabeta_fold_max : List Node → EInt → EInt → Bool → Option Clock → Option Int →
    List Node × Except SearchErr Int × Option Clock
  | [], _, _, _, clk, best => ([], Except.ok (best.getD 0), clk)
  | c :: cs, alpha, beta, is_maximizing, clk, best =>
    match Node.alphabeta_propagate_values_up c alpha beta is_maximizing clk with
    | (c2, Except.error e, clk2) => (c2 :: cs, Except.error e, clk2)
    | (c2, Except.ok score, clk2) =>
      if beta ≤ max alpha (EInt.ofInt (abBest best score true)) then
        (c2 :: cs, Except.ok (abBest best score true), clk2)
      else
        match Node.alphabeta_fold_max cs (max alpha (EInt.ofInt (abBest best score true))) beta
            is_maximizing clk2 (some (abBest best score true)) with
        | (cs2, r, clk3) => (c2 :: cs2, r, clk3)

/-- Helper for the minimizing loop of alphabeta_propagate_values_up: beta is
lowered to the running best after each child, with the same prune break. -/
def Node.alphabeta_fold_min : List Node → EInt → EInt → Bool → Option Clock → Option Int →
    List Node × Except SearchErr Int × Option Clock
  | [], _, _, _, clk, best => ([], Except.ok (best.getD 0), clk)
  | c :: cs, alpha, beta, is_maximizing, clk, best =>
    match Node.alphabeta_propagate_values_up c alpha beta is_maximizing clk with
    | (c2, Except.error e, clk2) => (c2 :: cs, Except.error e, clk2)
    | (c2, Except.ok score, clk2) =>
      if min beta (EInt.ofInt (abBest best score false)) ≤ alpha then
        (c2 :: cs, Except.ok (abBest best score false), clk2)
      else
        match Node.alphabeta_fold_min cs alpha (min beta (EInt.ofInt (abBest best score false)))
            is_maximizing clk2 (some (abBest best score false)) with
        | (cs2, r, clk3) => (c2 :: cs2, r, clk3)

end

/-- Translation of Node.run_minimax: propagate values with a fresh clock, then
pick the best next state, with the warning text distinguishing the ran-out-of-
time fallback from the no-successors fallback. Returns the updated tree and
the outcome. -/
def Node.run_minimax (root : Node) (is_maximizing : Bool) (c : Clock) (k : Nat) :
    Node × Except SearchErr (Node × Option String) :=
  match Node.minimax_propagate_values_up root is_maximizing (some c) with
  | (root2, Except.error _, _) =>
    (root2, Node.take_best_next_state root2 is_maximizing k
      "Minimax did not have time to evaluate any of the next actions. Returned a random move instead.")
  | (root2, Except.ok _, _) =>
    (root2, Node.take_best_next_state root2 is_maximizing k
      "The game state does not seem to have any possible successors. Attempting to return a random move...")

/-- Translation of Node.run_alphabeta: propagation with infinite initial
bounds, then the same best-next-state selection. -/
def Node.run_alphabeta (root : Node) (is_maximizing : Bool) (c : Clock) (k : Nat) :
    Node × Except SearchErr (Node × Option String) :=
  match Node.alphabeta_propagate_values_up root ⊥ ⊤ is_maximizing (some c) with
  | (root2, Except.error _, _) =>
    (root2, Node.take_best_next_state root2 is_maximizing k
      "Alpha-Beta did not have time to evaluate any of the next actions. Returned a random move instead.")
  | (root2, Except.ok _, _) =>
    (root2, Node.take_best_next_state root2 is_maximizing k
      "The game state does not seem to have any possible successors. Attempting to return a random move...")

mutual

/-- Mathematical minimax value of a node tree (leaf values as the source
computes them: the cached value if present, else heuristic_e1 of the state).
Used to state the alpha-beta versus minimax equivalence. -/
def Node.minimaxValue : Node → Bool → Int
  | Node.mk s v _ [], _ =>
    (match v with
     | none => heuristic_e1 s
     | some v0 => v0)
  | Node.mk _ _ _ (c :: cs), is_maximizing =>
    if is_maximizing then listMax (Node.minimaxValueList (c :: cs) (!is_maximizing))
    else listMin (Node.minimaxValueList (c :: cs) (!is_maximizing))

/-- Minimax values of a list of sibling nodes. -/
def Node.minimaxValueList : List Node → Bool → List Int
  | [], _ => []
  | c :: cs, is_maximizing =>
    Node.minimaxValue c is_maximizing :: Node.minimaxValueList cs is_maximizing

end

mutual

/-- Depths of all leaves of a node tree (a childless node is a leaf at depth
0). Used to state the equal-leaf-depth hypothesis of the alpha-beta versus
minimax equivalence. -/
def Node.leafDepths : Node → List Nat
  | Node.mk _ _ _ [] => [0]
  | Node.mk _ _ _ (c :: cs) => (Node.leafDepthsList (c :: cs)).map (· + 1)

/-- Leaf depths of a sibling list. -/
def Node.leafDepthsList : List Node → List Nat
  | [] => []
  | c :: cs => c.leafDepths ++ Node.leafDepthsList cs

end

/-- All leaves of the tree sit at one common depth. -/
def Node.uniformDepth (t : Node) : Prop :=
  ∃ d, ∀ x ∈ t.leafDepths, x = d

/-- Fold of max over a list with an explicit seed (the running best of the
maximizing loop). -/
def maxSeed (b : Int) (l : List Int) : Int :=
  l.foldl max b

/-- Fold of min over a list with an explicit seed. -/
def minSeed (b : Int) (l : List Int) : Int :=
  l.foldl min b

/-- Value the maximizing alpha-beta loop is meant to compute: the max of the
seed (none for the minus-infinity start) and the nonempty list. -/
def mmaxOf (best : Option Int) (l : List Int) : Int :=
  match best with
  | none => listMax l
  | some b => maxSeed b l

/-- Value the minimizing alpha-beta loop is meant to compute. -/
def mminOf (best : Option Int) (l : List Int) : Int :=
  match best with
  | none => listMin l
  | some b => minSeed b l

mutual

/-- Size of a node tree, the measure for induction over the nested Node
inductive. -/
def Node.size : Node → Nat
  | Node.mk _ _ _ cs => 1 + Node.sizeList cs

/-- Size of a sibling list. -/
def Node.sizeList : List Node → Nat
  | [] => 0
  | c :: cs => Node.size c + Node.sizeList cs

end

/-- Outcome of one frontier-expansion pass of the iterative deepening loop:
ran to completion, stopped early on the time cutoff (for-loop break), or hit
the max search time (OutOfTimeException). -/
inductive ExpandSignal where
  | done
  | stopped
  | raised
deriving DecidableEq, Repr

mutual

/-- Translation of the frontier-expansion for-loop of
Game.search_for_best_move: one iterative-deepening round gives children to
every childless node of the current frontier depth, in tree order, with one
clock check after each expansion; the cutoff breaks out of the loop and the
expired clock raises. Nodes above the frontier depth that already have
children are passed through, matching the source frontier bookkeeping. -/
def Node.expandAtDepth (root : Node) (depth : Nat) (clk : Option Clock) :
    Node × Option Clock × ExpandSignal :=
  match depth, root with
  | 0, Node.mk s v a cs =>
    if cs.isEmpty then
      let r := Node.generate_successors (Node.mk s v a cs)
      let t := tick clk
      (r.1, t.2,
        match t.1 with
        | TimeCheck.fine => ExpandSignal.done
        | TimeCheck.cutoff => ExpandSignal.stopped
        | TimeCheck.expired => ExpandSignal.raised)
    else (Node.mk s v a cs, clk, ExpandSignal.done)
  | d + 1, Node.mk s v a cs =>
    match Node.expandAtDepthList cs d clk with
    | (cs2, clk2, sig) => (Node.mk s v a cs2, clk2, sig)

/-- Helper for expandAtDepth: expand siblings left to right, stopping at the
first break or raise (later siblings stay untouched, as in the source). -/
def Node.expandAtDepthList (list : List Node) (depth : Nat) (clk : Option Clock) :
    List Node × Option Clock × ExpandSignal :=
  match list with
  | [] => ([], clk, ExpandSignal.done)
  | c :: cs =>
    match Node.expandAtDepth c depth clk with
    | (c2, clk2, ExpandSignal.done) =>
      match Node.expandAtDepthList cs depth clk2 with
      | (cs2, clk3, sig) => (c2 :: cs2, clk3, sig)
    | (c2, clk2, sig) => (c2 :: cs, clk2, sig)

end

/-- Translation of the tail of Game.search_for_best_move after the while loop:
with a best move in hand return its value and action, otherwise fall back to a
random move (whose node has no value), raising the unpacking TypeError when
the state has no legal move at all. -/
def Node.searchFallback (root : Node) (k : Nat) (best : Option Node) :
    Except SearchErr (Option Int × Option CoordPair) :=
  match best with
  | some bm => Except.ok (bm.value, bm.action)
  | none =>
    match root.state.random_next_state k with
    | some nsm => Except.ok (none, some nsm.2.1)
    | none => Except.error SearchErr.crash

/-- Translation of the while loop of Game.search_for_best_move. depth is
current_max_depth; the frontier of round r is the childless nodes at tree
depth r - 1. fuel is the remaining depth budget (the loop increments depth up
to max_depth then breaks, so max_depth + 1 - depth iterations bound it);
propClocks gives the fresh propagation clock each run of minimax or alpha-beta
starts. The crash signal from take_best_next_state is a TypeError the source
does not catch, so it escapes the search. -/
def Node.searchIter (opts : Options) (is_maximizing : Bool) : Node → Nat → Nat → Option Clock →
    (Nat → Clock) → Nat → Option Node → Except SearchErr (Option Int × Option CoordPair)
  | root, _, 0, _, _, k, best => Node.searchFallback root k best
  | root, depth, fuel' + 1, clk, propClocks, k, best =>
    match tick clk with
    | (TimeCheck.cutoff, _) => Node.searchFallback root k best
    | (TimeCheck.expired, _) => Node.searchFallback root k best
    | (TimeCheck.fine, clk1) =>
      match Node.expandAtDepth root (depth - 1) clk1 with
      | (root2, _, ExpandSignal.raised) => Node.searchFallback root2 k best
      | (root2, clk2, _) =>
        match (if opts.alpha_beta then Node.run_alphabeta root2 is_maximizing (propClocks depth) k
               else Node.run_minimax root2 is_maximizing (propClocks depth) k) with
        | (_, Except.error e) => Except.error e
        | (root3, Except.ok bm) =>
          if depth < opts.max_depth then
            Node.searchIter opts is_maximizing root3 (depth + 1) fuel' clk2 propClocks k (some bm.1)
          else Except.ok (bm.1.value, bm.1.action)

/-- Translation of Game.search_for_best_move: iterative deepening from depth 1
over a tree rooted at a clone of the state, returning the value and action of
the best move found. -/
def Game.search_for_best_move (g : Game) (searchClock : Clock) (propClocks : Nat → Clock) (k : Nat) :
    Except SearchErr (Option Int × Option CoordPair) :=
  let root := Node.mk g.clone none none []
  let is_maximizing := g.next_player = PlayerTeam.Defender
  Node.searchIter g.options is_maximizing root 1 (g.options.max_depth + 1) (some searchClock)
    propClocks k none

/-!
Heap model. Python Unit instances are mutable objects: the board holds
references to them, Game.clone deep-copies the board (fresh objects), and
mod_health mutates an object in place. To make aliasing observable, this
second translation of the board operations threads an explicit object store
(a list of Units addressed by index); a board cell holds an object id. The
value-level Game above is recovered by GameH.toGame.
-/

/-- Heap variant of the game state: cells hold object ids into a store. -/
structure GameH where
  board : List (List (Option Nat)) := []
  next_player : PlayerTeam := PlayerTeam.Attacker
  turns_played : Nat := 0
  options : Options := {}
  attacker_has_ai : Bool := true
  defender_has_ai : Bool := true
deriving DecidableEq, Repr

/-- Heap variant of Game.is_coord_valid. -/
def GameH.is_coord_valid (g : GameH) (c : Coord) : Bool :=
  if c.row < 0 ∨ c.row ≥ g.options.dim ∨ c.col < 0 ∨ c.col ≥ g.options.dim then false
  else true

/-- Object id stored in a cell (none for an empty or invalid cell). -/
def GameH.cell (g : GameH) (c : Coord) : Option Nat :=
  if g.is_coord_valid c then (g.board.getD c.row.toNat []).getD c.col.toNat none
  else none

/-- Heap variant of Game.set on the cell level. -/
def GameH.setCell (g : GameH) (c : Coord) (v : Option Nat) : GameH :=
  if g.is_coord_valid c then
    { g with board := g.board.set c.row.toNat ((g.board.getD c.row.toNat []).set c.col.toNat v) }
  else g

/-- Heap variant of Game.get: dereference the cell through the store. -/
def GameH.getU (store : List Unit) (g : GameH) (c : Coord) : Option Unit :=
  (g.cell c).bind (fun i => store.get? i)

/-- Observable value-level state of a heap game: every cell dereferenced. -/
def GameH.toGame (store : List Unit) (g : GameH) : Game :=
  { board := g.board.map (fun row => row.map (fun oc => oc.bind (fun i => store.get? i))),
    next_player := g.next_player,
    turns_played := g.turns_played,
    options := g.options,
    attacker_has_ai := g.attacker_has_ai,
    defender_has_ai := g.defender_has_ai }

/-- Heap variant of Game.remove_dead: clear the cell reference and update the
flags; the store is untouched (the object merely becomes unreferenced). -/
def GameH.remove_dead (store : List Unit) (g : GameH) (c : Coord) : GameH :=
  match GameH.getU store g c with
  | none => g
  | some u =>
    if u.is_alive = false then
      let g1 := g.setCell c none
      if u.type = UnitType.AI then
        if u.player = PlayerTeam.Attacker then { g1 with attacker_has_ai := false }
        else { g1 with defender_has_ai := false }
      else g1
    else g

/-- Heap variant of Game.mod_health: mutate the referenced object in place,
then remove it if dead. -/
def GameH.mod_health (store : List Unit) (g : GameH) (c : Coord) (health_delta : Int) :
    List Unit × GameH :=
  match g.cell c with
  | none => (store, g)
  | some i =>
    match store.get? i with
    | none => (store, g)
    | some u =>
      let store2 := store.set i (u.mod_health health_delta)
      (store2, GameH.remove_dead store2 g c)

/-- Heap variant of Game.destroy. -/
def GameH.destroy (store : List Unit) (g : GameH) (c : Coord) : List Unit × GameH :=
  match g.cell c with
  | none => (store, g)
  | some i =>
    match store.get? i with
    | none => (store, g)
    | some u =>
      let store2 := store.set i { u with health := -1 }
      (store2, GameH.remove_dead store2 g c)

/-- Heap variant of Game.explode. -/
def GameH.explode (store : List Unit) (g : GameH) (blast_point : Coord) : List Unit × GameH :=
  (List.range 3).foldl (fun acc (x : Nat) =>
    (List.range 3).foldl (fun acc2 (y : Nat) =>
      GameH.mod_health acc2.1 acc2.2
        (Coord.mk (blast_point.row - 1 + (x : Int)) (blast_point.col - 1 + (y : Int))) (-2)) acc)
    (store, g)

/-- Heap variant of Game.perform_move (success flag and message dropped; they
do not touch the heap). -/
def GameH.perform_move (store : List Unit) (g : GameH) (coords : CoordPair) (action : UnitAction) :
    List Unit × GameH :=
  if action = UnitAction.Move then
    let acting := g.cell coords.src
    (store, (g.setCell coords.dst acting).setCell coords.src none)
  else if action = UnitAction.Kaboom then
    let r := GameH.destroy store g coords.dst
    GameH.explode r.1 r.2 coords.dst
  else if action = UnitAction.Attack then
    match GameH.getU store g coords.src, GameH.getU store g coords.dst with
    | some au, some otherUnit =>
      let r1 := GameH.mod_health store g coords.dst (-(Unit.damage_amount au otherUnit))
      GameH.mod_health r1.1 r1.2 coords.src (-(Unit.damage_amount otherUnit au))
    | _, _ => (store, g)
  else if action = UnitAction.Repair then
    match GameH.getU store g coords.src, g.cell coords.dst with
    | some au, some i =>
      match store.get? i with
      | some otherUnit => (store.set i (otherUnit.mod_health (Unit.repair_amount au otherUnit)), g)
      | none => (store, g)
    | _, _ => (store, g)
  else (store, g)

/-- Deep copy of one board row: every referenced object is reallocated at the
end of the store, left to right. -/
def deep_copy_row (store : List Unit) : List (Option Nat) → List Unit × List (Option Nat)
  | [] => (store, [])
  | oc :: rest =>
    match oc with
    | none =>
      let r := deep_copy_row store rest
      (r.1, none :: r.2)
    | some i =>
      match store.get? i with
      | none =>
        let r := deep_copy_row store rest
        (r.1, none :: r.2)
      | some u =>
        let r := deep_copy_row (store ++ [u]) rest
        (r.1, some store.length :: r.2)

/-- Deep copy of a whole board, row-major. -/
def deep_copy_rows (store : List Unit) : List (List (Option Nat)) → List Unit × List (List (Option Nat))
  | [] => (store, [])
  | row :: rest =>
    let r := deep_copy_row store row
    let rr := deep_copy_rows r.1 rest
    (rr.1, r.2 :: rr.2)

/-- Heap variant of Game.clone: shallow copy of the record with a
deep-copied board (copy.deepcopy allocates a fresh object per unit). -/
def GameH.clone (store : List Unit) (g : GameH) : List Unit × GameH :=
  let r := deep_copy_rows store g.board
  (r.1, { g with board := r.2 })

/-- Heap variant of the body of Game.next_state_candidates over a fixed move
list: clone, swap the mover, apply the move, threading the store. -/
def GameH.candList (store : List Unit) (g : GameH) :
    List (CoordPair × UnitAction) → List Unit × List (GameH × CoordPair)
  | [] => (store, [])
  | ma :: rest =>
    let cl := GameH.clone store g
    let st := { cl.2 with next_player := g.next_player.next }
    let pm := GameH.perform_move cl.1 st ma.1 ma.2
    let r := GameH.candList pm.1 g rest
    (r.1, (pm.2, ma.1) :: r.2)

/-- Heap variant of Game.next_state_candidates: the candidate moves are read
from the (unchanged) current state, then each is applied to its own clone. -/
def GameH.next_state_candidates (store : List Unit) (g : GameH) :
    List Unit × List (GameH × CoordPair) :=
  GameH.candList store g ((GameH.toGame store g).move_candidates g.next_player)

/-- Object ids referenced by a board. -/
def boardIdsOf (b : List (List (Option Nat))) : List Nat :=
  b.flatMap (fun row => row.filterMap id)

/-- Object ids referenced by a heap game state. -/
def GameH.boardIds (g : GameH) : List Nat :=
  boardIdsOf g.board

/-!
Predicates used to state the claims, and concrete fixture states used by the
witnesses and counterexamples.
-/

/-- The Attacker has no AI unit left on the board. -/
def attackerAIDead (g : Game) : Bool :=
  (g.player_units PlayerTeam.Attacker).all (fun cu => cu.2.type ≠ UnitType.AI)

/-- The Defender has no AI unit left on the board. -/
def defenderAIDead (g : Game) : Bool :=
  (g.player_units PlayerTeam.Defender).all (fun cu => cu.2.type ≠ UnitType.AI)

/-- Fixture: a lone Defender AI at full health on a 1x1 board. -/
def fixtureDefAI9 : Game :=
  { board := [[some { player := PlayerTeam.Defender, type := UnitType.AI, health := 9 }]],
    options := { dim := 1 } }

/-- Fixture: a lone Defender AI at 5 health on a 1x1 board. -/
def fixtureDefAI5 : Game :=
  { board := [[some { player := PlayerTeam.Defender, type := UnitType.AI, health := 5 }]],
    options := { dim := 1 } }

/-- Fixture: an empty 1x1 board. -/
def fixtureEmpty : Game :=
  { board := [[none]], options := { dim := 1 } }

/-- Fixture: a lone Defender Program in the centre of a 3x3 board, Defender to
move (three legal moves: two away-from-base steps and the self-destruct; the
Attacker has no unit, hence no move). -/
def fixtureMobility : Game :=
  { board := [[none, none, none],
              [none, some { player := PlayerTeam.Defender, type := UnitType.Program, health := 9 }, none],
              [none, none, none]],
    next_player := PlayerTeam.Defender,
    options := { dim := 3 } }

/-- Fixture: Attacker Virus and Defender Tech side by side on a 2x2 board. -/
def fixtureAttack : Game :=
  { board := [[some { player := PlayerTeam.Attacker, type := UnitType.Virus, health := 9 },
               some { player := PlayerTeam.Defender, type := UnitType.Tech, health := 9 }],
              [none, none]],
    options := { dim := 2 } }

/-- Fixture: an Attacker Program in the centre of a 3x3 board with a frail
Defender Tech above it. -/
def fixtureKaboom : Game :=
  { board := [[none, some { player := PlayerTeam.Defender, type := UnitType.Tech, health := 1 }, none],
              [none, some { player := PlayerTeam.Attacker, type := UnitType.Program, health := 9 }, none],
              [none, none, none]],
    options := { dim := 3 } }

/-- Fixture: heap store and state with a Defender Tech (object 0) and a
Defender AI (object 1) on a 2x2 board, Defender to move. -/
def fixtureStoreH : List Unit :=
  [ { player := PlayerTeam.Defender, type := UnitType.Tech, health := 9 },
    { player := PlayerTeam.Defender, type := UnitType.AI, health := 9 } ]

/-- Fixture heap game for the candidate-independence witness. -/
def fixtureGameH : GameH :=
  { board := [[some 0, some 1], [none, none]],
    next_player := PlayerTeam.Defender,
    options := { dim := 2 } }

/-- Fixture: the store and candidate list built from the heap fixture, for
the candidate-independence witness. -/
def w9NSC : List Unit × List (GameH × CoordPair) :=
  GameH.next_state_candidates fixtureStoreH fixtureGameH

/-- Fixture: the first candidate. -/
def w9CandA : GameH × CoordPair :=
  (w9NSC.2.get? 0).getD ⟨{}, {}⟩

/-- Fixture: the second candidate. -/
def w9CandB : GameH × CoordPair :=
  (w9NSC.2.get? 1).getD ⟨{}, {}⟩

/-- Fixture: candidate 0 after a self-destruct at its own corner. -/
def w9Apply : List Unit × GameH :=
  GameH.perform_move w9NSC.1 w9CandA.1
    (CoordPair.mk (Coord.mk 0 0) (Coord.mk 0 0)) UnitAction.Kaboom

/-- Fixture: a lone Attacker Program on a 1x1 board with the Defender to
move, so the mover has no legal move at all. -/
def fixtureNoMoves : Game :=
  { board := [[some { player := PlayerTeam.Attacker, type := UnitType.Program, health := 9 }]],
    next_player := PlayerTeam.Defender,
    options := { dim := 1 } }

/-- Fixture: a leaf node with cached value 7, for the alpha-beta versus
minimax agreement witness. -/
def wLeafA : Node :=
  Node.mk fixtureEmpty (some 7) none []

/-- Fixture: a leaf node with cached value 3. -/
def wLeafB : Node :=
  Node.mk fixtureEmpty (some 3) none []

/-- Fixture: a two-leaf root tree, all leaves at depth 1. -/
def wRoot : Node :=
  Node.mk fixtureEmpty none none [wLeafA, wLeafB]

/-- Fixture: the tree wRoot after value propagation (root value 7, leaves
unchanged). -/
def wT1 : Node :=
  Node.mk fixtureEmpty (some 7) none [wLeafA, wLeafB]

/-- Search invariant: every child of the node carries an action that is a
legal move candidate of the node's own state. -/
def childActionsLegal (n : Node) : Prop :=
  ∀ ch ∈ n.children, ∃ a, ch.action = some a ∧
    a ∈ (n.state.move_candidates n.state.next_player).map Prod.fst

/-!
Theorems. One theorem per claim (plus witnesses and counterexamples where the
claim status requires them), preceded by the shared helper lemmas.
-/

/-- C2: has_winner returns Defender whenever the turn counter has reached or
exceeded the configured maximum number of turns, regardless of the AI flags;
below the limit it returns Defender when only the Defender still has its AI,
Attacker when only the Attacker still has its AI, and no winner when both
flags are true. -/
theorem c2_has_winner_cases (g : Game) (m : Nat) (hmt : g.options.max_turns = some m) :
    (g.turns_played ≥ m → g.has_winner = some PlayerTeam.Defender) ∧
    (g.turns_played < m →
      ((g.attacker_has_ai = false → g.defender_has_ai = true →
          g.has_winner = some PlayerTeam.Defender) ∧
       (g.defender_has_ai = false → g.attacker_has_ai = true →
          g.has_winner = some PlayerTeam.Attacker) ∧
       (g.attacker_has_ai = true → g.defender_has_ai = true →
          g.has_winner = none))) := by
  constructor
  · intro h
    simp [Game.has_winner, hmt, h]
  · intro h
    have hd : ¬ (g.turns_played ≥ m) := by omega
    refine ⟨?_, ?_, ?_⟩ <;> intro h1 h2 <;> simp [Game.has_winner, hmt, hd, h1, h2]

/-- Witness for C2 at concrete states covering the four cases. -/
theorem c2_has_winner_cases_witness :
    (Game.has_winner { turns_played := 100 } = some PlayerTeam.Defender) ∧
    (Game.has_winner { attacker_has_ai := false } = some PlayerTeam.Defender) ∧
    (Game.has_winner { defender_has_ai := false } = some PlayerTeam.Attacker) ∧
    (Game.has_winner {} = none) :=
  ⟨(c2_has_winner_cases { turns_played := 100 } 100 rfl).1 (by decide),
   ((c2_has_winner_cases { attacker_has_ai := false } 100 rfl).2 (by decide)).1 rfl rfl,
   ((c2_has_winner_cases { defender_has_ai := false } 100 rfl).2 (by decide)).2.1 rfl rfl,
   ((c2_has_winner_cases {} 100 rfl).2 (by decide)).2.2 rfl rfl⟩

/-- C10: below the turn limit, with both has-AI flags false (both AIs
destroyed), has_winner resolves the case in favour of the Defender. -/
theorem c10_both_flags_false (g : Game) (m : Nat) (hmt : g.options.max_turns = some m)
    (hlt : g.turns_played < m) (ha : g.attacker_has_ai = false)
    (_hd : g.defender_has_ai = false) : g.has_winner = some PlayerTeam.Defender := by
  have hge : ¬ (g.turns_played ≥ m) := by omega
  simp [Game.has_winner, hmt, hge, ha]

/-- Witness for C10. -/
theorem c10_both_flags_false_witness :
    Game.has_winner { attacker_has_ai := false, defender_has_ai := false } =
      some PlayerTeam.Defender :=
  c10_both_flags_false { attacker_has_ai := false, defender_has_ai := false } 100 rfl
    (by decide) rfl rfl

/-- Helper: the Defender fold of heuristic_e1 never records an AI coordinate
when the unit list contains no AI unit. -/
theorem e1_fold_no_ai (l : List (Coord × Unit)) (acc : Int × Option Coord)
    (h : l.all (fun cu => cu.2.type ≠ UnitType.AI) = true) :
    (l.foldl (fun (acc : Int × Option Coord) cu =>
      if cu.2.type = UnitType.AI then (acc.1 - cu.2.health * 10, some cu.1)
      else (acc.1 - cu.2.health, acc.2)) acc).2 = acc.2 := by
  induction l generalizing acc with
  | nil => rfl
  | cons x xs ih =>
    simp only [List.all_cons, Bool.and_eq_true, decide_eq_true_eq] at h
    rw [List.foldl_cons, if_neg h.1]
    exact ih _ h.2

/-- C3 counterexample: heuristic_e1 does not return a fixed sentinel extreme
value on states where the Attacker AI is dead; two such states evaluate to
-90 and -50 (the ordinary weighted sum), so no single sentinel exists. -/
theorem c3_no_attacker_sentinel :
    ¬ ∃ s : Int, ∀ g : Game, attackerAIDead g = true → heuristic_e1 g = s := by
  rintro ⟨s, hs⟩
  have h1 := hs fixtureDefAI9 (by decide)
  have h2 := hs fixtureDefAI5 (by decide)
  have e1 : heuristic_e1 fixtureDefAI9 = -90 := by decide
  have e2 : heuristic_e1 fixtureDefAI5 = -50 := by decide
  rw [e1] at h1
  rw [e2] at h2
  omega

/-- C3 amended: heuristic_e1 returns the sentinel 9999 on every state in
which the Defender AI is dead; no sentinel is produced on Attacker AI death
(the ordinary weighted sum is returned, as the counterexample shows). -/
theorem c3_defender_sentinel (g : Game) (h : defenderAIDead g = true) :
    heuristic_e1 g = 9999 := by
  have hfold := e1_fold_no_ai (g.player_units PlayerTeam.Defender) (0, none)
    (by simpa [defenderAIDead] using h)
  simp only [heuristic_e1]
  rw [hfold]

/-- Witness for the amended C3. -/
theorem c3_defender_sentinel_witness :
    defenderAIDead fixtureEmpty = true ∧ heuristic_e1 fixtureEmpty = 9999 :=
  ⟨by decide, c3_defender_sentinel fixtureEmpty (by decide)⟩

/-- C4: heuristic_e2 as coded differs from the claimed weighted-health score
plus weighted Defender-minus-Attacker move count difference: on a state with
three Defender moves and zero Attacker moves it returns the bare heuristic_e1
value (its move-count difference is Defender minus Defender, identically
zero), not the claimed value. -/
theorem c4_mobility_diff :
    heuristic_e2 fixtureMobility = 9999 ∧
    heuristic_e1 fixtureMobility = 9999 ∧
    ((fixtureMobility.move_candidates PlayerTeam.Defender).length : Int) = 3 ∧
    ((fixtureMobility.move_candidates PlayerTeam.Attacker).length : Int) = 0 ∧
    heuristic_e1 fixtureMobility + 1 *
      (((fixtureMobility.move_candidates PlayerTeam.Defender).length : Int) -
       ((fixtureMobility.move_candidates PlayerTeam.Attacker).length : Int)) = 10002 := by
  refine ⟨by decide, by decide, by decide, by decide, by decide⟩

/-- Helper: setting a cell never changes the options. -/
theorem Game.options_set (g : Game) (c : Coord) (u : Option Unit) :
    (g.set c u).options = g.options := by
  unfold Game.set
  split <;> rfl

/-- Helper: setting a cell never changes coordinate validity. -/
theorem Game.is_coord_valid_set (g : Game) (c d : Coord) (u : Option Unit) :
    (g.set c u).is_coord_valid d = g.is_coord_valid d := by
  unfold Game.is_coord_valid
  rw [Game.options_set]

/-- Helper: a cell holding a unit is a valid coordinate. -/
theorem Game.get_some_valid {g : Game} {c : Coord} {u : Unit} (h : g.get c = some u) :
    g.is_coord_valid c = true := by
  by_cases hv : g.is_coord_valid c
  · exact hv
  · simp [Game.get, hv] at h

/-- Helper: a valid coordinate has components inside [0, dim). -/
theorem Game.valid_bounds {g : Game} {c : Coord} (h : g.is_coord_valid c = true) :
    0 ≤ c.row ∧ c.row < g.options.dim ∧ 0 ≤ c.col ∧ c.col < g.options.dim := by
  by_cases hc : (c.row < 0 ∨ c.row ≥ g.options.dim ∨ c.col < 0 ∨ c.col ≥ g.options.dim)
  · simp [Game.is_coord_valid, hc] at h
  · push_neg at hc
    omega

/-- Helper: a cell holding a unit lies inside the board lists. -/
theorem Game.get_some_bounds {g : Game} {c : Coord} {u : Unit} (h : g.get c = some u) :
    c.row.toNat < g.board.length ∧
    c.col.toNat < (g.board.getD c.row.toNat []).length := by
  have hv := Game.get_some_valid h
  simp only [Game.get, hv, if_true] at h
  have hrow : c.row.toNat < g.board.length := by
    by_contra hlen
    push_neg at hlen
    have hempty : g.board.getD c.row.toNat [] = [] := by
      rw [List.getD_eq_getElem?_getD, List.getElem?_eq_none hlen]
      rfl
    rw [hempty] at h
    simp [List.getD] at h
  refine ⟨hrow, ?_⟩
  by_contra hlen
  push_neg at hlen
  rw [List.getD_eq_getElem?_getD (g.board.getD c.row.toNat []),
    List.getElem?_eq_none hlen] at h
  simp at h

/-- Helper: List.getD after a set at the same in-range index. -/
theorem listGetD_set_self {α : Type} {l : List α} {i : Nat} (a dflt : α)
    (hi : i < l.length) : (l.set i a).getD i dflt = a := by
  rw [List.getD_eq_getElem?_getD, List.getElem?_set_self hi]
  rfl

/-- Helper: List.getD after a set at a different index. -/
theorem listGetD_set_ne {α : Type} {l : List α} {i j : Nat} (a dflt : α)
    (hij : i ≠ j) : (l.set i a).getD j dflt = l.getD j dflt := by
  rw [List.getD_eq_getElem?_getD, List.getElem?_set_ne hij, List.getD_eq_getElem?_getD]

/-- Helper: the board written by a valid set. -/
theorem Game.set_board_of_valid {g : Game} {c : Coord} (v : Option Unit)
    (hv : g.is_coord_valid c = true) :
    (g.set c v).board = g.board.set c.row.toNat ((g.board.getD c.row.toNat []).set c.col.toNat v) := by
  simp [Game.set, hv]

/-- Helper: unfolding of Game.get. -/
theorem Game.get_def (g : Game) (c : Coord) :
    g.get c = if g.is_coord_valid c then (g.board.getD c.row.toNat []).getD c.col.toNat none
      else none := rfl

/-- Helper: reading back the cell just written. -/
theorem Game.get_set_self {g : Game} {c : Coord} {u0 : Unit} (v : Option Unit)
    (h : g.get c = some u0) : (g.set c v).get c = v := by
  have hv := Game.get_some_valid h
  have hb := Game.get_some_bounds h
  rw [Game.get_def, Game.is_coord_valid_set, if_pos hv, Game.set_board_of_valid v hv,
    listGetD_set_self _ _ hb.1, listGetD_set_self _ _ hb.2]

/-- Helper: writing one cell leaves every other cell unchanged. -/
theorem Game.get_set_ne {g : Game} {c d : Coord} (v : Option Unit) (hne : c ≠ d) :
    (g.set c v).get d = g.get d := by
  by_cases hvc : g.is_coord_valid c
  · rw [Game.get_def, Game.get_def, Game.is_coord_valid_set, Game.set_board_of_valid v hvc]
    by_cases hvd : g.is_coord_valid d
    · rw [if_pos hvd, if_pos hvd]
      have bc := Game.valid_bounds hvc
      have bd := Game.valid_bounds hvd
      have hcomp : c.row ≠ d.row ∨ c.col ≠ d.col := by
        by_contra hcc
        push_neg at hcc
        exact hne (by cases c; cases d; simp_all)
      by_cases hrow : c.row.toNat = d.row.toNat
      · have hcol : c.col.toNat ≠ d.col.toNat := by
          rcases hcomp with h | h <;> omega
        rw [hrow]
        by_cases hlen : d.row.toNat < g.board.length
        · rw [listGetD_set_self _ _ hlen, listGetD_set_ne _ _ hcol]
        · rw [List.set_eq_of_length_le (by omega)]
      · rw [listGetD_set_ne _ _ hrow]
    · rw [if_neg hvd, if_neg hvd]
  · simp [Game.set, hvc]

/-- Helper: flag updates do not change cell reads. -/
theorem Game.get_flag_attacker (g : Game) (b : Bool) (d : Coord) :
    ({ g with attacker_has_ai := b } : Game).get d = g.get d := rfl

/-- Helper: flag updates do not change cell reads (defender side). -/
theorem Game.get_flag_defender (g : Game) (b : Bool) (d : Coord) :
    ({ g with defender_has_ai := b } : Game).get d = g.get d := rfl

/-- Helper: remove_dead leaves every other cell unchanged. -/
theorem Game.get_remove_dead_ne {g : Game} {c d : Coord} (hne : c ≠ d) :
    (g.remove_dead c).get d = g.get d := by
  cases hg : g.get c with
  | none => simp only [Game.remove_dead, hg]
  | some u =>
    simp only [Game.remove_dead, hg]
    by_cases halive : u.is_alive = false
    · rw [if_pos halive]
      by_cases hai : u.type = UnitType.AI
      · rw [if_pos hai]
        by_cases hp : u.player = PlayerTeam.Attacker
        · rw [if_pos hp, Game.get_flag_attacker (g.set c none), Game.get_set_ne _ hne]
        · rw [if_neg hp, Game.get_flag_defender (g.set c none), Game.get_set_ne _ hne]
      · rw [if_neg hai, Game.get_set_ne _ hne]
    · rw [if_neg halive]

/-- Helper: the cell remove_dead targets afterwards: cleared when the unit is
dead, untouched otherwise. -/
theorem Game.get_remove_dead_self {g : Game} {c : Coord} {u : Unit} (h : g.get c = some u) :
    (g.remove_dead c).get c = (if u.is_alive then some u else none) := by
  simp only [Game.remove_dead, h]
  have hget : (g.set c none).get c = none := Game.get_set_self none h
  by_cases halive : u.is_alive = false
  · rw [if_pos halive]
    have hcond : ¬ (u.is_alive = true) := by
      rw [halive]
      exact Bool.false_ne_true
    rw [if_neg hcond]
    by_cases hai : u.type = UnitType.AI
    · rw [if_pos hai]
      by_cases hp : u.player = PlayerTeam.Attacker
      · rw [if_pos hp, Game.get_flag_attacker (g.set c none), hget]
      · rw [if_neg hp, Game.get_flag_defender (g.set c none), hget]
    · rw [if_neg hai, hget]
  · rw [if_neg halive]
    have hcond : u.is_alive = true := by
      cases hb : u.is_alive
      · exact absurd hb halive
      · rfl
    rw [if_pos hcond, h]

/-- Helper: mod_health leaves every other cell unchanged. -/
theorem Game.get_mod_health_ne {g : Game} {c d : Coord} (delta : Int) (hne : c ≠ d) :
    (g.mod_health c delta).get d = g.get d := by
  cases hg : g.get c with
  | none => simp only [Game.mod_health, hg]
  | some u =>
    simp only [Game.mod_health, hg]
    rw [Game.get_remove_dead_ne hne, Game.get_set_ne _ hne]

/-- Helper: the cell a mod_health call targets afterwards holds the updated
unit, or nothing if the update killed it. -/
theorem Game.get_mod_health_self {g : Game} {c : Coord} {u : Unit} (delta : Int)
    (h : g.get c = some u) :
    (g.mod_health c delta).get c =
      (if (u.mod_health delta).is_alive then some (u.mod_health delta) else none) := by
  simp only [Game.mod_health, h]
  exact Game.get_remove_dead_self (Game.get_set_self _ h)

/-- Helper: Unit.mod_health in closed clamped form. -/
theorem Unit.mod_health_eq (u : Unit) (delta : Int) :
    u.mod_health delta = { u with health := max 0 (min 9 (u.health + delta)) } := by
  simp only [Unit.mod_health]
  by_cases h1 : u.health + delta < 0
  · rw [if_pos h1]
    congr 1
    omega
  · rw [if_neg h1]
    by_cases h2 : u.health + delta > 9
    · rw [if_pos h2]
      congr 1
      omega
    · rw [if_neg h2]
      congr 1
      omega

/-- Helper: every damage table entry is nonnegative. -/
theorem damage_table_nonneg (x y : UnitType) :
    0 ≤ (damage_table.getD x.value []).getD y.value 0 := by
  cases x <;> cases y <;> decide

/-- Helper: the cell a mod_health by minus the damage amount targets. -/
theorem Game.get_after_damage {g : Game} {c : Coord} {atk tgt : Unit}
    (h : g.get c = some tgt) (hpos : 0 < tgt.health) (hmax : tgt.health ≤ 9) :
    (g.mod_health c (-(Unit.damage_amount atk tgt))).get c =
      (if tgt.health - (damage_table.getD atk.type.value []).getD tgt.type.value 0 ≤ 0 then none
       else some { tgt with health :=
         tgt.health - (damage_table.getD atk.type.value []).getD tgt.type.value 0 }) := by
  have hnn := damage_table_nonneg atk.type tgt.type
  have hdmg : Unit.damage_amount atk tgt =
      if tgt.health - (damage_table.getD atk.type.value []).getD tgt.type.value 0 < 0
      then tgt.health
      else (damage_table.getD atk.type.value []).getD tgt.type.value 0 := rfl
  rw [Game.get_mod_health_self _ h, Unit.mod_health_eq, hdmg]
  generalize hD : (damage_table.getD atk.type.value []).getD tgt.type.value 0 = D at hnn ⊢
  by_cases hlt : tgt.health - D < 0
  · rw [if_pos hlt]
    have hx : max 0 (min 9 (tgt.health + -tgt.health)) = 0 := by omega
    rw [hx]
    have hdead : ¬ (({ tgt with health := 0 } : Unit).is_alive = true) := by
      simp [Unit.is_alive]
    rw [if_neg hdead, if_pos (by omega : tgt.health - D ≤ 0)]
  · rw [if_neg hlt]
    by_cases hz : tgt.health - D ≤ 0
    · have hx : max 0 (min 9 (tgt.health + -D)) = 0 := by omega
      rw [hx, if_pos hz]
      have hdead : ¬ (({ tgt with health := 0 } : Unit).is_alive = true) := by
        simp [Unit.is_alive]
      rw [if_neg hdead]
    · have hx : max 0 (min 9 (tgt.health + -D)) = tgt.health - D := by omega
      rw [hx, if_neg hz]
      have halive : ({ tgt with health := tgt.health - D } : Unit).is_alive = true := by
        simp only [Unit.is_alive, decide_eq_true_eq]
        omega
      rw [if_pos halive]

/-- C5: an Attack performed by perform_move damages both sides from the single
action: each unit loses the damage-table amount for (attacker type, target
type), clamped at the health floor of 0, with a unit reaching 0 removed from
its cell. -/
theorem c5_attack_symmetric (g : Game) (coords : CoordPair) (A B : Unit)
    (hsrc : g.get coords.src = some A) (hdst : g.get coords.dst = some B)
    (hne : coords.src ≠ coords.dst)
    (hApos : 0 < A.health) (hAmax : A.health ≤ 9)
    (hBpos : 0 < B.health) (hBmax : B.health ≤ 9) :
    ((g.perform_move coords UnitAction.Attack).1).get coords.dst =
      (if B.health - (damage_table.getD A.type.value []).getD B.type.value 0 ≤ 0 then none
       else some { B with health :=
         B.health - (damage_table.getD A.type.value []).getD B.type.value 0 }) ∧
    ((g.perform_move coords UnitAction.Attack).1).get coords.src =
      (if A.health - (damage_table.getD B.type.value []).getD A.type.value 0 ≤ 0 then none
       else some { A with health :=
         A.health - (damage_table.getD B.type.value []).getD A.type.value 0 }) := by
  have hpm : (g.perform_move coords UnitAction.Attack).1
      = (g.mod_health coords.dst (-(Unit.damage_amount A B))).mod_health coords.src
          (-(Unit.damage_amount B A)) := by
    simp only [Game.perform_move, hsrc, hdst]
    rfl
  have hsrc1 : (g.mod_health coords.dst (-(Unit.damage_amount A B))).get coords.src = some A := by
    rw [Game.get_mod_health_ne _ (Ne.symm hne)]
    exact hsrc
  constructor
  · rw [hpm, Game.get_mod_health_ne _ hne]
    exact Game.get_after_damage hdst hBpos hBmax
  · rw [hpm]
    exact Game.get_after_damage hsrc1 hApos hAmax

/-- Helper: mod_health on an empty cell is a no-op. -/
theorem Game.mod_health_of_none {g : Game} {c : Coord} (delta : Int) (h : g.get c = none) :
    g.mod_health c delta = g := by
  simp only [Game.mod_health, h]

/-- Helper: destroy leaves every other cell unchanged. -/
theorem Game.get_destroy_ne {g : Game} {c d : Coord} (hne : c ≠ d) :
    (g.destroy c).get d = g.get d := by
  cases hg : g.get c with
  | none => simp only [Game.destroy, hg]
  | some u =>
    simp only [Game.destroy, hg]
    rw [Game.get_remove_dead_ne hne, Game.get_set_ne _ hne]

/-- Helper: destroy always clears the targeted occupied cell. -/
theorem Game.get_destroy_self {g : Game} {c : Coord} {u : Unit} (h : g.get c = some u) :
    (g.destroy c).get c = none := by
  simp only [Game.destroy, h]
  have hset := Game.get_set_self (some { u with health := -1 }) h
  rw [Game.get_remove_dead_self hset]
  have hdead : ¬ (({ u with health := -1 } : Unit).is_alive = true) := by
    simp [Unit.is_alive]
  rw [if_neg hdead]

/-- Helper: explode is the fold of nine mod_health calls over the blast
coordinates in loop order. -/
theorem Game.explode_eq_foldl (g : Game) (c : Coord) :
    g.explode c = (explodeList c).foldl (fun a e => a.mod_health e (-2)) g := by
  have hr : List.range 3 = [0, 1, 2] := rfl
  have e0 : ∀ x : Int, x - 1 + ((0 : Nat) : Int) = x - 1 := by
    intro x
    simp
  have e1 : ∀ x : Int, x - 1 + ((1 : Nat) : Int) = x := by
    intro x
    simp
  have e2 : ∀ x : Int, x - 1 + ((2 : Nat) : Int) = x + 1 := by
    intro x
    push_cast
    ring
  simp only [Game.explode, explodeList, hr, List.foldl_cons, List.foldl_nil, e0, e1, e2]

/-- Helper: a fold of mod_health calls that never touches d leaves d alone. -/
theorem Game.get_foldl_mod_ne (L : List Coord) (g : Game) (d : Coord)
    (h : ∀ e ∈ L, e ≠ d) :
    (L.foldl (fun a e => Game.mod_health a e (-2)) g).get d = g.get d := by
  induction L generalizing g with
  | nil => rfl
  | cons e L ih =>
    rw [List.foldl_cons, ih _ (fun x hx => h x (List.mem_cons_of_mem _ hx)),
      Game.get_mod_health_ne _ (h e (List.mem_cons_self _ _))]

/-- Helper: a fold of mod_health calls over a list containing d exactly once
applies exactly one health change to d. -/
theorem Game.get_foldl_mod_eq (s t : List Coord) (g : Game) (d : Coord) (u : Unit)
    (hs : ∀ e ∈ s, e ≠ d) (ht : ∀ e ∈ t, e ≠ d) (hu : g.get d = some u) :
    ((s ++ d :: t).foldl (fun a e => Game.mod_health a e (-2)) g).get d =
      (if (u.mod_health (-2)).is_alive then some (u.mod_health (-2)) else none) := by
  rw [List.foldl_append, List.foldl_cons, Game.get_foldl_mod_ne t _ _ ht]
  have hpre : (s.foldl (fun a e => Game.mod_health a e (-2)) g).get d = some u := by
    rw [Game.get_foldl_mod_ne s _ _ hs]
    exact hu
  exact Game.get_mod_health_self _ hpre

/-- Helper: a fold of mod_health calls never fills an empty cell. -/
theorem Game.get_foldl_mod_none (L : List Coord) (g : Game) (d : Coord)
    (hd : g.get d = none) :
    (L.foldl (fun a e => Game.mod_health a e (-2)) g).get d = none := by
  induction L generalizing g with
  | nil => exact hd
  | cons e L ih =>
    rw [List.foldl_cons]
    by_cases he : e = d
    · subst he
      rw [Game.mod_health_of_none _ hd]
      exact ih g hd
    · refine ih _ ?_
      rw [Game.get_mod_health_ne _ he]
      exact hd

/-- Helper: the blast coordinate list has no duplicates. -/
theorem explodeList_nodup (c : Coord) : (explodeList c).Nodup := by
  simp [explodeList, List.nodup_cons, Coord.mk.injEq]
  omega

/-- Helper: every cell at Chebyshev distance at most 1 is a blast coordinate. -/
theorem mem_explodeList {c d : Coord} (hrow : (d.row - c.row).natAbs ≤ 1)
    (hcol : (d.col - c.col).natAbs ≤ 1) : d ∈ explodeList c := by
  obtain ⟨dr, dc⟩ := d
  dsimp only at hrow hcol
  have hr3 : dr = c.row - 1 ∨ dr = c.row ∨ dr = c.row + 1 := by omega
  have hc3 : dc = c.col - 1 ∨ dc = c.col ∨ dc = c.col + 1 := by omega
  rcases hr3 with h | h | h <;> rcases hc3 with h2 | h2 | h2 <;> subst h <;> subst h2 <;>
    simp [explodeList]

/-- Helper: explode applies exactly one minus-2 health change, clamped and
with removal on death, to every occupied cell of the 3x3 neighbourhood other
than the centre. -/
theorem Game.get_explode_of_neighbor {g : Game} {c d : Coord} {u : Unit}
    (hu : g.get d = some u) (hrow : (d.row - c.row).natAbs ≤ 1)
    (hcol : (d.col - c.col).natAbs ≤ 1) :
    (g.explode c).get d =
      (if (u.mod_health (-2)).is_alive then some (u.mod_health (-2)) else none) := by
  rw [Game.explode_eq_foldl]
  have hmem : d ∈ explodeList c := mem_explodeList hrow hcol
  have hnodup := explodeList_nodup c
  obtain ⟨s, t, hst⟩ := List.append_of_mem hmem
  rw [hst] at hnodup ⊢
  rw [List.nodup_append] at hnodup
  have hs : ∀ e ∈ s, e ≠ d := fun e he heq =>
    (hnodup.2.2 he) (heq ▸ List.mem_cons_self d t)
  have ht : ∀ e ∈ t, e ≠ d := fun e he heq => by
    have := hnodup.2.1
    rw [List.nodup_cons] at this
    exact this.1 (heq ▸ he)
  exact Game.get_foldl_mod_eq s t g d u hs ht hu

/-- C6: a SelfDestruct performed by perform_move removes the exploding unit
and reduces the health of every occupied cell within Chebyshev distance 1 of
the blast point by exactly 2, clamped at the health floor of 0, removing any
unit that reaches 0 health. -/
theorem c6_selfdestruct (g : Game) (c : Coord) (u0 : Unit) (hc : g.get c = some u0) :
    ((g.perform_move (CoordPair.mk c c) UnitAction.Kaboom).1).get c = none ∧
    (∀ d u, (d.row - c.row).natAbs ≤ 1 → (d.col - c.col).natAbs ≤ 1 → d ≠ c →
      g.get d = some u → 0 < u.health → u.health ≤ 9 →
      ((g.perform_move (CoordPair.mk c c) UnitAction.Kaboom).1).get d =
        (if u.health ≤ 2 then none else some { u with health := u.health - 2 })) := by
  have hpk : (g.perform_move (CoordPair.mk c c) UnitAction.Kaboom).1 =
      (g.destroy c).explode c := by
    simp only [Game.perform_move]
    rw [if_pos trivial, if_neg (by decide : ¬ (UnitAction.Kaboom = UnitAction.Move))]
  constructor
  · rw [hpk, Game.explode_eq_foldl]
    exact Game.get_foldl_mod_none _ _ _ (Game.get_destroy_self hc)
  · intro d u hrow hcol hne hd hpos hmax
    have hd1 : (g.destroy c).get d = some u := by
      rw [Game.get_destroy_ne (Ne.symm hne)]
      exact hd
    rw [hpk, Game.get_explode_of_neighbor hd1 hrow hcol, Unit.mod_health_eq]
    by_cases hz : u.health ≤ 2
    · have hx : max 0 (min 9 (u.health + -2)) = 0 := by omega
      rw [hx, if_pos hz]
      have hdead : ¬ (({ u with health := 0 } : Unit).is_alive = true) := by
        simp [Unit.is_alive]
      rw [if_neg hdead]
    · have hx : max 0 (min 9 (u.health + -2)) = u.health - 2 := by omega
      rw [hx, if_neg hz]
      have halive : ({ u with health := u.health - 2 } : Unit).is_alive = true := by
        simp only [Unit.is_alive, decide_eq_true_eq]
        omega
      rw [if_pos halive]

/-- Witness for C6: the Program at the centre explodes; the frail Tech above
dies and is removed, and the centre is cleared. -/
theorem c6_selfdestruct_witness :
    ((fixtureKaboom.perform_move (CoordPair.mk (Coord.mk 1 1) (Coord.mk 1 1))
        UnitAction.Kaboom).1).get (Coord.mk 1 1) = none ∧
    ((fixtureKaboom.perform_move (CoordPair.mk (Coord.mk 1 1) (Coord.mk 1 1))
        UnitAction.Kaboom).1).get (Coord.mk 0 1) = none := by
  have h := c6_selfdestruct fixtureKaboom (Coord.mk 1 1)
    { player := PlayerTeam.Attacker, type := UnitType.Program, health := 9 } (by decide)
  refine ⟨h.1, ?_⟩
  have h2 := h.2 (Coord.mk 0 1)
    { player := PlayerTeam.Defender, type := UnitType.Tech, health := 1 }
    (by decide) (by decide) (by decide) (by decide) (by decide) (by decide)
  exact h2.trans (by decide)

/-- Witness for C5: the Virus against the Tech, both at full health, deal 6
damage each way. -/
theorem c5_attack_symmetric_witness :
    ((fixtureAttack.perform_move (CoordPair.mk (Coord.mk 0 0) (Coord.mk 0 1))
        UnitAction.Attack).1).get (Coord.mk 0 1) =
      some { player := PlayerTeam.Defender, type := UnitType.Tech, health := 3 } ∧
    ((fixtureAttack.perform_move (CoordPair.mk (Coord.mk 0 0) (Coord.mk 0 1))
        UnitAction.Attack).1).get (Coord.mk 0 0) =
      some { player := PlayerTeam.Attacker, type := UnitType.Virus, health := 3 } := by
  have h := c5_attack_symmetric fixtureAttack (CoordPair.mk (Coord.mk 0 0) (Coord.mk 0 1))
    { player := PlayerTeam.Attacker, type := UnitType.Virus, health := 9 }
    { player := PlayerTeam.Defender, type := UnitType.Tech, health := 9 }
    (by decide) (by decide) (by decide) (by decide) (by decide) (by decide) (by decide)
  exact ⟨h.1.trans (by decide), h.2.trans (by decide)⟩

/-- C8: on a root with no scored children, take_best_next_state does log the
distinguishing warning and fall back to a random legal move when one exists
(second conjunct), but when the state has no legal move at all it fails with
the unpacking TypeError (first conjunct) instead of not failing as claimed:
random_next_state returns None and the source unpacks it unconditionally. -/
theorem c8_no_moves_crash :
    Node.take_best_next_state (Node.mk fixtureNoMoves none none []) true 0
      "The game state does not seem to have any possible successors. Attempting to return a random move..."
      = Except.error SearchErr.crash ∧
    (Node.take_best_next_state (Node.mk fixtureMobility none none []) true 0
      "Minimax did not have time to evaluate any of the next actions. Returned a random move instead.").map
        (fun r => (r.1.action, r.2))
      = Except.ok (some (CoordPair.mk (Coord.mk 1 1) (Coord.mk 2 1)),
          some "Minimax did not have time to evaluate any of the next actions. Returned a random move instead.") :=
  ⟨rfl, rfl⟩

/-- Helper: generated children carry exactly the legal move candidates of the
node's state as actions. -/
theorem Node.generate_children_legal (n : Node) :
    childActionsLegal (Node.generate_node_tree n).1 := by
  cases n with
  | mk s v a cs =>
    intro ch hch
    simp only [Node.generate_node_tree, Node.state, Node.action, Node.children,
      Game.next_state_candidates, List.map_map] at hch
    obtain ⟨ma, hma, rfl⟩ := List.mem_map.1 hch
    exact ⟨ma.1, rfl, List.mem_map_of_mem _ hma⟩

/-- Helper: frontier expansion keeps a node's state and action. -/
theorem Node.expandAtDepth_sa (n : Node) (d : Nat) (clk : Option Clock) :
    (Node.expandAtDepth n d clk).1.state = n.state ∧
    (Node.expandAtDepth n d clk).1.action = n.action := by
  match d, n with
  | 0, Node.mk s v a cs =>
    by_cases hcs : cs.isEmpty
    · simp [Node.expandAtDepth, hcs, Node.generate_successors, Node.generate_node_tree,
        Node.state, Node.action]
    · simp [Node.expandAtDepth, hcs, Node.state, Node.action]
  | d + 1, Node.mk s v a cs =>
    exact ⟨rfl, rfl⟩

/-- Helper: frontier expansion keeps the actions of a sibling list. -/
theorem Node.expandAtDepthList_actions (L : List Node) (d : Nat) (clk : Option Clock) :
    (Node.expandAtDepthList L d clk).1.map Node.action = L.map Node.action := by
  induction L generalizing clk with
  | nil => rfl
  | cons c cs ih =>
    rcases hres : Node.expandAtDepth c d clk with ⟨c2, clk2, sig⟩
    have hact : c2.action = c.action := by
      have := (Node.expandAtDepth_sa c d clk).2
      rw [hres] at this
      exact this
    cases sig with
    | done =>
      rcases hrec : Node.expandAtDepthList cs d clk2 with ⟨cs2, clk3, sig2⟩
      have hmap : cs2.map Node.action = cs.map Node.action := by
        have := ih clk2
        rw [hrec] at this
        exact this
      simp only [Node.expandAtDepthList, hres, hrec, List.map_cons, hact, hmap]
    | stopped => simp only [Node.expandAtDepthList, hres, List.map_cons, hact]
    | raised => simp only [Node.expandAtDepthList, hres, List.map_cons, hact]

/-- Helper: an action-preserving children replacement preserves the legality
invariant. -/
theorem childActionsLegal_of_actions_eq {s : Game} {v v' : Option Int} {a a' : Option CoordPair}
    {cs cs' : List Node} (hact : cs'.map Node.action = cs.map Node.action)
    (h : childActionsLegal (Node.mk s v a cs)) :
    childActionsLegal (Node.mk s v' a' cs') := by
  intro ch hch
  have hmem : ch.action ∈ cs.map Node.action := by
    rw [← hact]
    exact List.mem_map_of_mem _ hch
  obtain ⟨ch0, hch0, heq⟩ := List.mem_map.1 hmem
  obtain ⟨a0, ha0, hm⟩ := h ch0 hch0
  exact ⟨a0, by rw [← heq, ha0], hm⟩

/-- Helper: frontier expansion preserves the legality invariant. -/
theorem Node.expandAtDepth_legal (n : Node) (d : Nat) (clk : Option Clock)
    (h : childActionsLegal n) : childActionsLegal (Node.expandAtDepth n d clk).1 := by
  match d, n with
  | 0, Node.mk s v a cs =>
    by_cases hcs : cs.isEmpty
    · have heq : (Node.expandAtDepth (Node.mk s v a cs) 0 clk).1 =
          (Node.generate_node_tree (Node.mk s v a cs)).1 := by
        simp [Node.expandAtDepth, hcs, Node.generate_successors]
      rw [heq]
      exact Node.generate_children_legal _
    · have heq : (Node.expandAtDepth (Node.mk s v a cs) 0 clk).1 = Node.mk s v a cs := by
        simp [Node.expandAtDepth, hcs]
      rw [heq]
      exact h
  | d + 1, Node.mk s v a cs =>
    have heq : (Node.expandAtDepth (Node.mk s v a cs) (d + 1) clk).1 =
        Node.mk s v a (Node.expandAtDepthList cs d clk).1 := rfl
    rw [heq]
    exact childActionsLegal_of_actions_eq (Node.expandAtDepthList_actions cs d clk) h

/-- Helper: minimax propagation keeps a node's state and action. -/
theorem Node.mm_sa (root : Node) (maxi : Bool) (clk : Option Clock) :
    (Node.minimax_propagate_values_up root maxi clk).1.state = root.state ∧
    (Node.minimax_propagate_values_up root maxi clk).1.action = root.action := by
  cases root with
  | mk s v a cs =>
    rcases htick : tick clk with ⟨tc, clk'⟩
    cases cs with
    | nil =>
      cases tc <;> cases v <;>
        simp [Node.minimax_propagate_values_up, htick, Node.state, Node.action]
    | cons c cs' =>
      cases tc with
      | expired => simp [Node.minimax_propagate_values_up, htick, Node.state, Node.action]
      | fine =>
        rcases hres : Node.minimax_list (c :: cs') (!maxi) clk' with ⟨cs2, res, clk2⟩
        cases res <;>
          simp [Node.minimax_propagate_values_up, htick, hres, Node.state, Node.action]
      | cutoff =>
        rcases hres : Node.minimax_list (c :: cs') (!maxi) clk' with ⟨cs2, res, clk2⟩
        cases res <;>
          simp [Node.minimax_propagate_values_up, htick, hres, Node.state, Node.action]

/-- Helper: minimax propagation keeps the actions of a sibling list. -/
theorem Node.mm_list_actions (L : List Node) (maxi : Bool) (clk : Option Clock) :
    (Node.minimax_list L maxi clk).1.map Node.action = L.map Node.action := by
  induction L generalizing clk with
  | nil => rfl
  | cons c cs ih =>
    rcases hres : Node.minimax_propagate_values_up c maxi clk with ⟨c2, res, clk2⟩
    have hact : c2.action = c.action := by
      have := (Node.mm_sa c maxi clk).2
      rw [hres] at this
      exact this
    cases res with
    | error e => simp only [Node.minimax_list, hres, List.map_cons, hact]
    | ok v =>
      rcases hrec : Node.minimax_list cs maxi clk2 with ⟨cs2, res2, clk3⟩
      have hmap : cs2.map Node.action = cs.map Node.action := by
        have := ih clk2
        rw [hrec] at this
        exact this
      cases res2 with
      | error e => simp only [Node.minimax_list, hres, hrec, List.map_cons, hact, hmap]
      | ok vs => simp only [Node.minimax_list, hres, hrec, List.map_cons, hact, hmap]

/-- Helper: minimax propagation preserves the legality invariant. -/
theorem Node.mm_legal (root : Node) (maxi : Bool) (clk : Option Clock)
    (h : childActionsLegal root) :
    childActionsLegal (Node.minimax_propagate_values_up root maxi clk).1 := by
  cases root with
  | mk s v a cs =>
    rcases htick : tick clk with ⟨tc, clk'⟩
    cases cs with
    | nil =>
      intro ch hch
      cases tc <;> cases v <;>
        simp_all [Node.minimax_propagate_values_up, htick, Node.children]
    | cons c cs' =>
      cases tc with
      | expired =>
        have heq : (Node.minimax_propagate_values_up (Node.mk s v a (c :: cs')) maxi clk).1 =
            Node.mk s v a (c :: cs') := by
          simp [Node.minimax_propagate_values_up, htick]
        rw [heq]
        exact h
      | fine =>
        rcases hres : Node.minimax_list (c :: cs') (!maxi) clk' with ⟨cs2, res, clk2⟩
        have hmap : cs2.map Node.action = (c :: cs').map Node.action := by
          have := Node.mm_list_actions (c :: cs') (!maxi) clk'
          rw [hres] at this
          exact this
        cases res with
        | error e =>
          have heq : (Node.minimax_propagate_values_up (Node.mk s v a (c :: cs')) maxi clk).1 =
              Node.mk s v a cs2 := by
            simp [Node.minimax_propagate_values_up, htick, hres]
          rw [heq]
          exact childActionsLegal_of_actions_eq hmap h
        | ok vals =>
          have heq : (Node.minimax_propagate_values_up (Node.mk s v a (c :: cs')) maxi clk).1 =
              Node.mk s (some (if maxi then listMax vals else listMin vals)) a cs2 := by
            simp [Node.minimax_propagate_values_up, htick, hres]
          rw [heq]
          exact childActionsLegal_of_actions_eq hmap h
      | cutoff =>
        rcases hres : Node.minimax_list (c :: cs') (!maxi) clk' with ⟨cs2, res, clk2⟩
        have hmap : cs2.map Node.action = (c :: cs').map Node.action := by
          have := Node.mm_list_actions (c :: cs') (!maxi) clk'
          rw [hres] at this
          exact this
        cases res with
        | error e =>
          have heq : (Node.minimax_propagate_values_up (Node.mk s v a (c :: cs')) maxi clk).1 =
              Node.mk s v a cs2 := by
            simp [Node.minimax_propagate_values_up, htick, hres]
          rw [heq]
          exact childActionsLegal_of_actions_eq hmap h
        | ok vals =>
          have heq : (Node.minimax_propagate_values_up (Node.mk s v a (c :: cs')) maxi clk).1 =
              Node.mk s (some (if maxi then listMax vals else listMin vals)) a cs2 := by
            simp [Node.minimax_propagate_values_up, htick, hres]
          rw [heq]
          exact childActionsLegal_of_actions_eq hmap h

/-- Helper: alpha-beta propagation keeps a node's state and action. -/
theorem Node.ab_sa (root : Node) (alpha beta : EInt) (maxi : Bool) (clk : Option Clock) :
    (Node.alphabeta_propagate_values_up root alpha beta maxi clk).1.state = root.state ∧
    (Node.alphabeta_propagate_values_up root alpha beta maxi clk).1.action = root.action := by
  cases root with
  | mk s v a cs =>
    rcases htick : tick clk with ⟨tc, clk'⟩
    cases cs with
    | nil =>
      cases tc <;> cases v <;>
        simp [Node.alphabeta_propagate_values_up, htick, Node.state, Node.action]
    | cons c cs' =>
      cases tc with
      | expired => simp [Node.alphabeta_propagate_values_up, htick, Node.state, Node.action]
      | fine =>
        cases maxi with
        | true =>
          rcases hres : Node.alphabeta_fold_max (c :: cs') alpha beta false clk' none
            with ⟨cs2, res, clk2⟩
          cases res <;>
            simp [Node.alphabeta_propagate_values_up, htick, hres, Node.state, Node.action]
        | false =>
          rcases hres : Node.alphabeta_fold_min (c :: cs') alpha beta true clk' none
            with ⟨cs2, res, clk2⟩
          cases res <;>
            simp [Node.alphabeta_propagate_values_up, htick, hres, Node.state, Node.action]
      | cutoff =>
        cases maxi with
        | true =>
          rcases hres : Node.alphabeta_fold_max (c :: cs') alpha beta false clk' none
            with ⟨cs2, res, clk2⟩
          cases res <;>
            simp [Node.alphabeta_propagate_values_up, htick, hres, Node.state, Node.action]
        | false =>
          rcases hres : Node.alphabeta_fold_min (c :: cs') alpha beta true clk' none
            with ⟨cs2, res, clk2⟩
          cases res <;>
            simp [Node.alphabeta_propagate_values_up, htick, hres, Node.state, Node.action]

/-- Helper: the maximizing alpha-beta fold keeps the actions of the sibling
list. -/
theorem Node.ab_fold_max_actions (L : List Node) (alpha beta : EInt) (maxi : Bool)
    (clk : Option Clock) (best : Option Int) :
    (Node.alphabeta_fold_max L alpha beta maxi clk best).1.map Node.action = L.map Node.action := by
  induction L generalizing alpha beta clk best with
  | nil => rfl
  | cons c cs ih =>
    rcases hres : Node.alphabeta_propagate_values_up c alpha beta maxi clk with ⟨c2, res, clk2⟩
    have hact : c2.action = c.action := by
      have := (Node.ab_sa c alpha beta maxi clk).2
      rw [hres] at this
      exact this
    cases res with
    | error e => simp only [Node.alphabeta_fold_max, hres, List.map_cons, hact]
    | ok score =>
      by_cases hcut : beta ≤ max alpha (EInt.ofInt (abBest best score true))
      · simp only [Node.alphabeta_fold_max, hres, if_pos hcut, List.map_cons, hact]
      · rcases hrec : Node.alphabeta_fold_max cs (max alpha (EInt.ofInt (abBest best score true)))
            beta maxi clk2 (some (abBest best score true)) with ⟨cs2, res2, clk3⟩
        have hmap : cs2.map Node.action = cs.map Node.action := by
          have := ih (max alpha (EInt.ofInt (abBest best score true))) beta clk2
            (some (abBest best score true))
          rw [hrec] at this
          exact this
        simp only [Node.alphabeta_fold_max, hres, if_neg hcut, hrec, List.map_cons, hact, hmap]

/-- Helper: the minimizing alpha-beta fold keeps the actions of the sibling
list. -/
theorem Node.ab_fold_min_actions (L : List Node) (alpha beta : EInt) (maxi : Bool)
    (clk : Option Clock) (best : Option Int) :
    (Node.alphabeta_fold_min L alpha beta maxi clk best).1.map Node.action = L.map Node.action := by
  induction L generalizing alpha beta clk best with
  | nil => rfl
  | cons c cs ih =>
    rcases hres : Node.alphabeta_propagate_values_up c alpha beta maxi clk with ⟨c2, res, clk2⟩
    have hact : c2.action = c.action := by
      have := (Node.ab_sa c alpha beta maxi clk).2
      rw [hres] at this
      exact this
    cases res with
    | error e => simp only [Node.alphabeta_fold_min, hres, List.map_cons, hact]
    | ok score =>
      by_cases hcut : min beta (EInt.ofInt (abBest best score false)) ≤ alpha
      · simp only [Node.alphabeta_fold_min, hres, if_pos hcut, List.map_cons, hact]
      · rcases hrec : Node.alphabeta_fold_min cs alpha
            (min beta (EInt.ofInt (abBest best score false))) maxi clk2
            (some (abBest best score false)) with ⟨cs2, res2, clk3⟩
        have hmap : cs2.map Node.action = cs.map Node.action := by
          have := ih alpha (min beta (EInt.ofInt (abBest best score false))) clk2
            (some (abBest best score false))
          rw [hrec] at this
          exact this
        simp only [Node.alphabeta_fold_min, hres, if_neg hcut, hrec, List.map_cons, hact, hmap]

/-- Helper: the children list produced by alpha-beta propagation on an
internal node, when the clock has not expired. -/
theorem Node.ab_children_eq {s : Game} {v : Option Int} {a : Option CoordPair} {c : Node}
    {cs' : List Node} {alpha beta : EInt} {maxi : Bool} {clk : Option Clock} {tc : TimeCheck}
    {clk' : Option Clock} (htick : tick clk = (tc, clk')) (hne : tc ≠ TimeCheck.expired) :
    ∃ cs2, (Node.alphabeta_propagate_values_up (Node.mk s v a (c :: cs')) alpha beta maxi clk).1
        = Node.mk s
          (Node.alphabeta_propagate_values_up (Node.mk s v a (c :: cs')) alpha beta maxi clk).1.value
          a cs2 ∧
      cs2.map Node.action = (c :: cs').map Node.action := by
  cases maxi with
  | true =>
    rcases hres : Node.alphabeta_fold_max (c :: cs') alpha beta false clk' none
      with ⟨cs2, res, clk2⟩
    have hmap : cs2.map Node.action = (c :: cs').map Node.action := by
      have := Node.ab_fold_max_actions (c :: cs') alpha beta false clk' none
      rw [hres] at this
      exact this
    refine ⟨cs2, ?_, hmap⟩
    cases tc with
    | expired => exact absurd rfl hne
    | fine =>
      cases res <;>
        simp [Node.alphabeta_propagate_values_up, htick, hres, Node.value]
    | cutoff =>
      cases res <;>
        simp [Node.alphabeta_propagate_values_up, htick, hres, Node.value]
  | false =>
    rcases hres : Node.alphabeta_fold_min (c :: cs') alpha beta true clk' none
      with ⟨cs2, res, clk2⟩
    have hmap : cs2.map Node.action = (c :: cs').map Node.action := by
      have := Node.ab_fold_min_actions (c :: cs') alpha beta true clk' none
      rw [hres] at this
      exact this
    refine ⟨cs2, ?_, hmap⟩
    cases tc with
    | expired => exact absurd rfl hne
    | fine =>
      cases res <;>
        simp [Node.alphabeta_propagate_values_up, htick, hres, Node.value]
    | cutoff =>
      cases res <;>
        simp [Node.alphabeta_propagate_values_up, htick, hres, Node.value]

/-- Helper: alpha-beta propagation preserves the legality invariant. -/
theorem Node.ab_legal (root : Node) (alpha beta : EInt) (maxi : Bool) (clk : Option Clock)
    (h : childActionsLegal root) :
    childActionsLegal (Node.alphabeta_propagate_values_up root alpha beta maxi clk).1 := by
  cases root with
  | mk s v a cs =>
    rcases htick : tick clk with ⟨tc, clk'⟩
    cases cs with
    | nil =>
      intro ch hch
      cases tc <;> cases v <;>
        simp_all [Node.alphabeta_propagate_values_up, htick, Node.children]
    | cons c cs' =>
      cases htc : tc with
      | expired =>
        have heq : (Node.alphabeta_propagate_values_up (Node.mk s v a (c :: cs')) alpha beta maxi
            clk).1 = Node.mk s v a (c :: cs') := by
          simp [Node.alphabeta_propagate_values_up, htick, htc]
        rw [heq]
        exact h
      | fine =>
        obtain ⟨cs2, heq, hmap⟩ := Node.ab_children_eq (htc ▸ htick)
          (by simp : TimeCheck.fine ≠ TimeCheck.expired)
        rw [heq]
        exact childActionsLegal_of_actions_eq hmap h
      | cutoff =>
        obtain ⟨cs2, heq, hmap⟩ := Node.ab_children_eq (htc ▸ htick)
          (by simp : TimeCheck.cutoff ≠ TimeCheck.expired)
        rw [heq]
        exact childActionsLegal_of_actions_eq hmap h

/-- Helper: the node picked by get_max_node is one of the candidates. -/
theorem Node.get_max_node_mem {L : List Node} {n : Node}
    (h : Node.get_max_node L = some n) : n ∈ L := by
  have aux : ∀ (M : List Node) (acc : Option (Int × Node)),
      (∀ vm, acc = some vm → vm.2 ∈ L) → (∀ x ∈ M, x ∈ L) →
      ∀ vm, M.foldl gmaxStep acc = some vm →
        vm.2 ∈ L := by
    intro M
    induction M with
    | nil => intro acc hacc _ vm hv; exact hacc vm hv
    | cons x xs ih =>
      intro acc hacc hsub vm hv
      rw [List.foldl_cons] at hv
      refine ih _ ?_ (fun y hy => hsub y (List.mem_cons_of_mem _ hy)) vm hv
      intro vm' hvm'
      cases hxv : x.value with
      | none =>
        simp only [gmaxStep, hxv] at hvm'
        exact hacc vm' hvm'
      | some v =>
        cases hca : acc with
        | none =>
          simp only [gmaxStep, hxv, hca] at hvm'
          have hvm2 := Option.some.inj hvm'
          subst hvm2
          exact hsub x (List.mem_cons_self _ _)
        | some mv =>
          simp only [gmaxStep, hxv, hca] at hvm'
          by_cases hgt : v > mv.1
          · rw [if_pos hgt] at hvm'
            have hvm2 := Option.some.inj hvm'
            subst hvm2
            exact hsub x (List.mem_cons_self _ _)
          · rw [if_neg hgt] at hvm'
            have hvm2 := Option.some.inj hvm'
            subst hvm2
            exact hacc mv hca
  unfold Node.get_max_node at h
  cases hfold : L.foldl gmaxStep none with
  | none => rw [hfold] at h; cases h
  | some vm =>
    rw [hfold] at h
    cases h
    exact aux L none (fun _ hc => by cases hc) (fun x hx => hx) vm hfold

/-- Helper: the node picked by get_min_node is one of the candidates. -/
theorem Node.get_min_node_mem {L : List Node} {n : Node}
    (h : Node.get_min_node L = some n) : n ∈ L := by
  have aux : ∀ (M : List Node) (acc : Option (Int × Node)),
      (∀ vm, acc = some vm → vm.2 ∈ L) → (∀ x ∈ M, x ∈ L) →
      ∀ vm, M.foldl gminStep acc = some vm →
        vm.2 ∈ L := by
    intro M
    induction M with
    | nil => intro acc hacc _ vm hv; exact hacc vm hv
    | cons x xs ih =>
      intro acc hacc hsub vm hv
      rw [List.foldl_cons] at hv
      refine ih _ ?_ (fun y hy => hsub y (List.mem_cons_of_mem _ hy)) vm hv
      intro vm' hvm'
      cases hxv : x.value with
      | none =>
        simp only [gminStep, hxv] at hvm'
        exact hacc vm' hvm'
      | some v =>
        cases hca : acc with
        | none =>
          simp only [gminStep, hxv, hca] at hvm'
          have hvm2 := Option.some.inj hvm'
          subst hvm2
          exact hsub x (List.mem_cons_self _ _)
        | some mv =>
          simp only [gminStep, hxv, hca] at hvm'
          by_cases hlt : v < mv.1
          · rw [if_pos hlt] at hvm'
            have hvm2 := Option.some.inj hvm'
            subst hvm2
            exact hsub x (List.mem_cons_self _ _)
          · rw [if_neg hlt] at hvm'
            have hvm2 := Option.some.inj hvm'
            subst hvm2
            exact hacc mv hca
  unfold Node.get_min_node at h
  cases hfold : L.foldl gminStep none with
  | none => rw [hfold] at h; cases h
  | some vm =>
    rw [hfold] at h
    cases h
    exact aux L none (fun _ hc => by cases hc) (fun x hx => hx) vm hfold

/-- Helper: the move of a random successor is a legal move candidate. -/
theorem Game.random_next_state_mem {g : Game} {k : Nat} {s : Game} {m : CoordPair}
    {act : UnitAction} (h : g.random_next_state k = some (s, m, act)) :
    m ∈ (g.move_candidates g.next_player).map Prod.fst := by
  unfold Game.random_next_state at h
  by_cases hlen : (g.move_candidates g.next_player).length = 0
  · rw [if_pos hlen] at h
    cases h
  · rw [if_neg hlen] at h
    cases hget : (g.move_candidates g.next_player).get? (k % (g.move_candidates g.next_player).length) with
    | none =>
      rw [hget] at h
      cases h
    | some ma =>
      rw [hget] at h
      have hmem : ma ∈ g.move_candidates g.next_player := List.get?_mem hget
      cases h
      exact List.mem_map_of_mem Prod.fst hmem

/-- Helper: a best next state returned by take_best_next_state is either a
child of the root or carries a legal random move of the root state. -/
theorem Node.take_best_mem {root : Node} {maxi : Bool} {k : Nat} {es : String}
    {bm : Node} {lg : Option String}
    (h : Node.take_best_next_state root maxi k es = Except.ok (bm, lg)) :
    bm ∈ root.children ∨ ∃ m, bm.action = some m ∧
      m ∈ (root.state.move_candidates root.state.next_player).map Prod.fst := by
  unfold Node.take_best_next_state at h
  cases hbest : (if maxi then Node.get_max_node root.children else Node.get_min_node root.children) with
  | some b =>
    rw [hbest] at h
    cases h
    left
    cases maxi with
    | true => exact Node.get_max_node_mem (by simpa using hbest)
    | false => exact Node.get_min_node_mem (by simpa using hbest)
  | none =>
    rw [hbest] at h
    cases hrand : root.state.random_next_state k with
    | none =>
      rw [hrand] at h
      cases h
    | some nsm =>
      rcases nsm with ⟨s2, m2, a2⟩
      rw [hrand] at h
      cases h
      right
      exact ⟨m2, rfl, Game.random_next_state_mem hrand⟩

/-- Helper: run_minimax preserves the tree state and the legality invariant,
and an ok best move carries a legal action of the root state. -/
theorem Node.run_minimax_props {root : Node} {maxi : Bool} {c : Clock} {k : Nat}
    {root3 : Node} {res : Except SearchErr (Node × Option String)}
    (hJ : childActionsLegal root)
    (hrun : Node.run_minimax root maxi c k = (root3, res)) :
    root3.state = root.state ∧ childActionsLegal root3 ∧
      ∀ bm lg, res = Except.ok (bm, lg) →
        ∃ m, bm.action = some m ∧
          m ∈ (root.state.move_candidates root.state.next_player).map Prod.fst := by
  rcases hprop : Node.minimax_propagate_values_up root maxi (some c) with ⟨root2, pres, clk2⟩
  have hsa := Node.mm_sa root maxi (some c)
  rw [hprop] at hsa
  have hJ2 := Node.mm_legal root maxi (some c) hJ
  rw [hprop] at hJ2
  have hfinish : ∀ (es : String), (root2, Node.take_best_next_state root2 maxi k es) = (root3, res) →
      root3.state = root.state ∧ childActionsLegal root3 ∧
        ∀ bm lg, res = Except.ok (bm, lg) →
          ∃ m, bm.action = some m ∧
            m ∈ (root.state.move_candidates root.state.next_player).map Prod.fst := by
    intro es heq
    cases heq
    refine ⟨hsa.1, hJ2, ?_⟩
    intro bm lg hok
    rcases Node.take_best_mem hok with hchild | ⟨m, hm, hmem⟩
    · obtain ⟨m, hm, hmem⟩ := hJ2 bm hchild
      rw [hsa.1] at hmem
      exact ⟨m, hm, hmem⟩
    · rw [hsa.1] at hmem
      exact ⟨m, hm, hmem⟩
  unfold Node.run_minimax at hrun
  rw [hprop] at hrun
  cases pres with
  | error e => exact hfinish _ hrun
  | ok v => exact hfinish _ hrun

/-- Helper: run_alphabeta preserves the tree state and the legality invariant,
and an ok best move carries a legal action of the root state. -/
theorem Node.run_alphabeta_props {root : Node} {maxi : Bool} {c : Clock} {k : Nat}
    {root3 : Node} {res : Except SearchErr (Node × Option String)}
    (hJ : childActionsLegal root)
    (hrun : Node.run_alphabeta root maxi c k = (root3, res)) :
    root3.state = root.state ∧ childActionsLegal root3 ∧
      ∀ bm lg, res = Except.ok (bm, lg) →
        ∃ m, bm.action = some m ∧
          m ∈ (root.state.move_candidates root.state.next_player).map Prod.fst := by
  rcases hprop : Node.alphabeta_propagate_values_up root ⊥ ⊤ maxi (some c) with ⟨root2, pres, clk2⟩
  have hsa := Node.ab_sa root ⊥ ⊤ maxi (some c)
  rw [hprop] at hsa
  have hJ2 := Node.ab_legal root ⊥ ⊤ maxi (some c) hJ
  rw [hprop] at hJ2
  have hfinish : ∀ (es : String), (root2, Node.take_best_next_state root2 maxi k es) = (root3, res) →
      root3.state = root.state ∧ childActionsLegal root3 ∧
        ∀ bm lg, res = Except.ok (bm, lg) →
          ∃ m, bm.action = some m ∧
            m ∈ (root.state.move_candidates root.state.next_player).map Prod.fst := by
    intro es heq
    cases heq
    refine ⟨hsa.1, hJ2, ?_⟩
    intro bm lg hok
    rcases Node.take_best_mem hok with hchild | ⟨m, hm, hmem⟩
    · obtain ⟨m, hm, hmem⟩ := hJ2 bm hchild
      rw [hsa.1] at hmem
      exact ⟨m, hm, hmem⟩
    · rw [hsa.1] at hmem
      exact ⟨m, hm, hmem⟩
  unfold Node.run_alphabeta at hrun
  rw [hprop] at hrun
  cases pres with
  | error e => exact hfinish _ hrun
  | ok v => exact hfinish _ hrun

/-- Helper: an ok result of the final fallback carries a legal action of the
root state. -/
theorem Node.searchFallback_ok {root : Node} {k : Nat} {best : Option Node}
    {r : Option Int × Option CoordPair}
    (hb : ∀ bm, best = some bm → ∃ m, bm.action = some m ∧
      m ∈ (root.state.move_candidates root.state.next_player).map Prod.fst)
    (h : Node.searchFallback root k best = Except.ok r) :
    ∃ a, r.2 = some a ∧
      a ∈ (root.state.move_candidates root.state.next_player).map Prod.fst := by
  unfold Node.searchFallback at h
  cases best with
  | some bm =>
    cases h
    exact hb bm rfl
  | none =>
    cases hrand : root.state.random_next_state k with
    | none =>
      rw [hrand] at h
      cases h
    | some nsm =>
      rcases nsm with ⟨s2, m2, a2⟩
      rw [hrand] at h
      cases h
      exact ⟨m2, rfl, Game.random_next_state_mem hrand⟩

/-- Helper: every ok result of the iterative deepening loop carries a legal
action of the root state. -/
theorem Node.searchIter_mem (opts : Options) (maxi : Bool) (pc : Nat → Clock) (k : Nat)
    (fuel : Nat) :
    ∀ (root : Node) (depth : Nat) (clk : Option Clock) (best : Option Node)
      (r : Option Int × Option CoordPair),
      childActionsLegal root →
      (∀ bm, best = some bm → ∃ m, bm.action = some m ∧
        m ∈ (root.state.move_candidates root.state.next_player).map Prod.fst) →
      Node.searchIter opts maxi root depth fuel clk pc k best = Except.ok r →
      ∃ a, r.2 = some a ∧
        a ∈ (root.state.move_candidates root.state.next_player).map Prod.fst := by
  induction fuel with
  | zero =>
    intro root depth clk best r hJ hb h
    exact Node.searchFallback_ok hb h
  | succ fuel ih =>
    intro root depth clk best r hJ hb h
    rcases htick : tick clk with ⟨tc, clk1⟩
    cases tc with
    | cutoff =>
      rw [Node.searchIter, htick] at h
      dsimp only at h
      exact Node.searchFallback_ok hb h
    | expired =>
      rw [Node.searchIter, htick] at h
      dsimp only at h
      exact Node.searchFallback_ok hb h
    | fine =>
      rw [Node.searchIter, htick] at h
      dsimp only at h
      rcases hexp : Node.expandAtDepth root (depth - 1) clk1 with ⟨root2, clk2, sig⟩
      have hst2 : root2.state = root.state := by
        have := (Node.expandAtDepth_sa root (depth - 1) clk1).1
        rw [hexp] at this
        exact this
      have hJ2 : childActionsLegal root2 := by
        have := Node.expandAtDepth_legal root (depth - 1) clk1 hJ
        rw [hexp] at this
        exact this
      have hb2 : ∀ bm, best = some bm → ∃ m, bm.action = some m ∧
          m ∈ (root2.state.move_candidates root2.state.next_player).map Prod.fst := by
        rw [hst2]
        exact hb
      have hrunCase : ∀ (root3 : Node) (res : Except SearchErr (Node × Option String)),
          (if opts.alpha_beta then Node.run_alphabeta root2 maxi (pc depth) k
           else Node.run_minimax root2 maxi (pc depth) k) = (root3, res) →
          (match (root3, res) with
            | (_, Except.error e) => Except.error e
            | (root3, Except.ok bm) =>
              if depth < opts.max_depth then
                Node.searchIter opts maxi root3 (depth + 1) fuel clk2 pc k (some bm.1)
              else Except.ok (bm.1.value, bm.1.action)) = Except.ok r →
          ∃ a, r.2 = some a ∧
            a ∈ (root.state.move_candidates root.state.next_player).map Prod.fst := by
        intro root3 res hrun hmatch
        have hprops : root3.state = root2.state ∧ childActionsLegal root3 ∧
            ∀ bm lg, res = Except.ok (bm, lg) →
              ∃ m, bm.action = some m ∧
                m ∈ (root2.state.move_candidates root2.state.next_player).map Prod.fst := by
          by_cases hab : opts.alpha_beta
          · rw [if_pos hab] at hrun
            exact Node.run_alphabeta_props hJ2 hrun
          · rw [if_neg hab] at hrun
            exact Node.run_minimax_props hJ2 hrun
        cases res with
        | error e =>
          dsimp only at hmatch
          cases hmatch
        | ok bm =>
          rcases bm with ⟨bmn, lg⟩
          dsimp only at hmatch
          have hbm : ∃ m, bmn.action = some m ∧
              m ∈ (root.state.move_candidates root.state.next_player).map Prod.fst := by
            have := hprops.2.2 bmn lg rfl
            rw [hst2] at this
            exact this
          by_cases hd : depth < opts.max_depth
          · rw [if_pos hd] at hmatch
            have hres := ih root3 (depth + 1) clk2 (some bmn) r hprops.2.1 ?_ hmatch
            · rw [hprops.1, hst2] at hres
              exact hres
            · intro bm' hbm'
              cases Option.some.inj hbm'
              rw [hprops.1, hst2]
              exact hbm
          · rw [if_neg hd] at hmatch
            cases hmatch
            exact hbm
      cases sig with
      | raised =>
        have hb2r : ∀ bm, best = some bm → ∃ m, bm.action = some m ∧
            m ∈ (root2.state.move_candidates root2.state.next_player).map Prod.fst := hb2
        rw [hexp] at h
        dsimp only at h
        have := Node.searchFallback_ok hb2r h
        rw [hst2] at this
        exact this
      | done =>
        rw [hexp] at h
        dsimp only at h
        rcases hrun : (if opts.alpha_beta then Node.run_alphabeta root2 maxi (pc depth) k
            else Node.run_minimax root2 maxi (pc depth) k) with ⟨root3, res⟩
        rw [hrun] at h
        exact hrunCase root3 res hrun h
      | stopped =>
        rw [hexp] at h
        dsimp only at h
        rcases hrun : (if opts.alpha_beta then Node.run_alphabeta root2 maxi (pc depth) k
            else Node.run_minimax root2 maxi (pc depth) k) with ⟨root3, res⟩
        rw [hrun] at h
        exact hrunCase root3 res hrun h

/-- C7: whatever the timing (search clock, per-round propagation clocks) and
the random draws, whenever search_for_best_move returns a result, the
returned action is one of the legal move candidates of the root state's
player to move. -/
theorem c7_search_returns_legal (g : Game) (sc : Clock) (pc : Nat → Clock) (k : Nat)
    (r : Option Int × Option CoordPair)
    (h : g.search_for_best_move sc pc k = Except.ok r) :
    ∃ a, r.2 = some a ∧ a ∈ (g.move_candidates g.next_player).map Prod.fst := by
  have hres := Node.searchIter_mem g.options (g.next_player = PlayerTeam.Defender) pc k
    (g.options.max_depth + 1) (Node.mk g.clone none none []) 1 (some sc) none r
    (by intro ch hch; cases hch) (by intro bm hbm; cases hbm) h
  exact hres

/-- Witness for C7: with a clock that is already past the cutoff the search
takes the random fallback path and still returns a legal move of the lone
Defender Program. -/
theorem c7_search_returns_legal_witness :
    ∃ a, ((none : Option Int), some (CoordPair.mk (Coord.mk 1 1) (Coord.mk 2 1))).2 = some a ∧
      a ∈ (fixtureMobility.move_candidates fixtureMobility.next_player).map Prod.fst :=
  c7_search_returns_legal fixtureMobility (Clock.mk 0 1) (fun _ => Clock.mk 0 0) 0
    ((none : Option Int), some (CoordPair.mk (Coord.mk 1 1) (Coord.mk 2 1))) rfl

/-- A seeded max fold is at most x iff the seed and every element are. -/
theorem maxSeed_le_iff {b x : Int} {l : List Int} :
    maxSeed b l ≤ x ↔ b ≤ x ∧ ∀ y ∈ l, y ≤ x := by
  induction l generalizing b with
  | nil => simp [maxSeed]
  | cons a l ih =>
    show maxSeed (max b a) l ≤ x ↔ _
    rw [ih]
    simp only [max_le_iff, List.mem_cons, forall_eq_or_imp]
    tauto

/-- x is at most a seeded max fold iff it is at most the seed or some element. -/
theorem le_maxSeed_iff {x b : Int} {l : List Int} :
    x ≤ maxSeed b l ↔ x ≤ b ∨ ∃ y ∈ l, x ≤ y := by
  induction l generalizing b with
  | nil => simp [maxSeed]
  | cons a l ih =>
    show x ≤ maxSeed (max b a) l ↔ _
    rw [ih]
    simp only [le_max_iff, List.mem_cons, exists_eq_or_imp]
    tauto

/-- The seed is at most the seeded max fold. -/
theorem le_maxSeed_seed (b : Int) (l : List Int) : b ≤ maxSeed b l :=
  le_maxSeed_iff.mpr (Or.inl le_rfl)

/-- The seeded max fold is monotone in the seed. -/
theorem maxSeed_mono {b b' : Int} (l : List Int) (h : b ≤ b') :
    maxSeed b l ≤ maxSeed b' l :=
  maxSeed_le_iff.mpr ⟨le_trans h (le_maxSeed_seed b' l),
    fun y hy => le_maxSeed_iff.mpr (Or.inr ⟨y, hy, le_rfl⟩)⟩

/-- x is at most a seeded min fold iff it is at most the seed and every element. -/
theorem minSeed_le_iff {b x : Int} {l : List Int} :
    x ≤ minSeed b l ↔ x ≤ b ∧ ∀ y ∈ l, x ≤ y := by
  induction l generalizing b with
  | nil => simp [minSeed]
  | cons a l ih =>
    show x ≤ minSeed (min b a) l ↔ _
    rw [ih]
    simp only [le_min_iff, List.mem_cons, forall_eq_or_imp]
    tauto

/-- A seeded min fold is at most x iff the seed or some element is. -/
theorem le_minSeed_iff {x b : Int} {l : List Int} :
    minSeed b l ≤ x ↔ b ≤ x ∨ ∃ y ∈ l, y ≤ x := by
  induction l generalizing b with
  | nil => simp [minSeed]
  | cons a l ih =>
    show minSeed (min b a) l ≤ x ↔ _
    rw [ih]
    simp only [min_le_iff, List.mem_cons, exists_eq_or_imp]
    tauto

/-- The seeded min fold is at most the seed. -/
theorem minSeed_le_seed (b : Int) (l : List Int) : minSeed b l ≤ b :=
  le_minSeed_iff.mpr (Or.inl le_rfl)

/-- The seeded min fold is monotone in the seed. -/
theorem minSeed_mono {b b' : Int} (l : List Int) (h : b ≤ b') :
    minSeed b l ≤ minSeed b' l :=
  minSeed_le_iff.mpr ⟨le_trans (minSeed_le_seed b l) h,
    fun y hy => le_minSeed_iff.mpr (Or.inr ⟨y, hy, le_rfl⟩)⟩

/-- Unfolding the maximizing loop target over a cons: fold the head into the seed. -/
theorem mmaxOf_cons (best : Option Int) (m : Int) (rest : List Int) :
    mmaxOf best (m :: rest) = maxSeed (abBest best m true) rest := by
  cases best <;> rfl

/-- Unfolding the minimizing loop target over a cons. -/
theorem mminOf_cons (best : Option Int) (m : Int) (rest : List Int) :
    mminOf best (m :: rest) = minSeed (abBest best m false) rest := by
  cases best <;> rfl

/-- The score embedding reflects and preserves order. -/
theorem EInt.ofInt_le_ofInt {a b : Int} : EInt.ofInt a ≤ EInt.ofInt b ↔ a ≤ b := by
  simp [EInt.ofInt]

/-- The score embedding reflects and preserves strict order. -/
theorem EInt.ofInt_lt_ofInt {a b : Int} : EInt.ofInt a < EInt.ofInt b ↔ a < b := by
  simp [EInt.ofInt]

/-- Every embedded score is above the bottom bound (minus infinity). -/
theorem EInt.bot_lt_ofInt (a : Int) : (⊥ : EInt) < EInt.ofInt a :=
  WithBot.bot_lt_coe _

/-- Every embedded score is below the top bound (plus infinity). -/
theorem EInt.ofInt_lt_top (a : Int) : EInt.ofInt a < (⊤ : EInt) := by
  simp only [EInt.ofInt]
  exact WithBot.coe_lt_coe.mpr (WithTop.coe_lt_top a)

/-- The score embedding commutes with max. -/
theorem EInt.ofInt_max (a b : Int) :
    EInt.ofInt (max a b) = max (EInt.ofInt a) (EInt.ofInt b) := by
  rcases le_total a b with h | h
  · rw [max_eq_right h, max_eq_right (EInt.ofInt_le_ofInt.mpr h)]
  · rw [max_eq_left h, max_eq_left (EInt.ofInt_le_ofInt.mpr h)]

/-- The score embedding commutes with min. -/
theorem EInt.ofInt_min (a b : Int) :
    EInt.ofInt (min a b) = min (EInt.ofInt a) (EInt.ofInt b) := by
  rcases le_total a b with h | h
  · rw [min_eq_left h, min_eq_left (EInt.ofInt_le_ofInt.mpr h)]
  · rw [min_eq_right h, min_eq_right (EInt.ofInt_le_ofInt.mpr h)]

/-- If b is at most max a x and a < b, then b is at most x. -/
theorem le_max_cancel {α : Type} [LinearOrder α] {a b x : α}
    (h : b ≤ max a x) (hab : a < b) : b ≤ x :=
  (le_max_iff.mp h).resolve_left fun hba => absurd (lt_of_lt_of_le hab hba) (lt_irrefl a)

/-- If min b x is at most a and a < b, then x is at most a. -/
theorem min_le_cancel {α : Type} [LinearOrder α] {a b x : α}
    (h : min b x ≤ a) (hab : a < b) : x ≤ a :=
  (min_le_iff.mp h).resolve_left fun hba => absurd (lt_of_le_of_lt hba hab) (lt_irrefl b)

/-- The maximizing running best is at least the new score. -/
theorem abBest_score_le_true (best : Option Int) (s : Int) : s ≤ abBest best s true := by
  cases best with
  | none => exact le_rfl
  | some b => exact le_max_right b s

/-- The minimizing running best is at most the new score. -/
theorem abBest_le_score_false (best : Option Int) (s : Int) : abBest best s false ≤ s := by
  cases best with
  | none => exact le_rfl
  | some b => exact min_le_right b s

/-- The maximizing running best is monotone in the score. -/
theorem abBest_mono_true (best : Option Int) {s s' : Int} (h : s ≤ s') :
    abBest best s true ≤ abBest best s' true := by
  cases best with
  | none => exact h
  | some b => exact max_le_max le_rfl h

/-- The minimizing running best is monotone in the score. -/
theorem abBest_mono_false (best : Option Int) {s s' : Int} (h : s ≤ s') :
    abBest best s false ≤ abBest best s' false := by
  cases best with
  | none => exact h
  | some b => exact min_le_min le_rfl h

/-- A member of a sibling list is no larger than the list. -/
theorem sizeList_of_mem {c : Node} {L : List Node} (h : c ∈ L) :
    Node.size c ≤ Node.sizeList L := by
  induction L with
  | nil => cases h
  | cons x xs ih =>
    rcases List.mem_cons.mp h with h1 | h2
    · subst h1
      show Node.size c ≤ Node.size c + Node.sizeList xs
      omega
    · show Node.size c ≤ Node.size x + Node.sizeList xs
      have := ih h2
      omega

/-- A child is strictly smaller than its parent node. -/
theorem size_lt_of_mem {c : Node} {s : Game} {v : Option Int} {a : Option CoordPair}
    {cs : List Node} (h : c ∈ cs) : Node.size c < Node.size (Node.mk s v a cs) := by
  show Node.size c < 1 + Node.sizeList cs
  have := sizeList_of_mem h
  omega

/- ------------------------------------------------------------------ -/
/- Minimax soundness. -/

/-- Soundness of the minimax pass over a sibling list, relative to node-level soundness of its members: when no timeout fires, the returned values are exactly the minimax values, the list keeps its length and minimax values, and every updated sibling stores its own minimax value. -/
theorem mm_list_sound (L : List Node)
    (IH : ∀ c ∈ L, ∀ (m : Bool) (clk : Option Clock) (c' : Node) (w : Int)
        (clk' : Option Clock),
      Node.minimax_propagate_values_up c m clk = (c', Except.ok w, clk') →
      w = Node.minimaxValue c m ∧ c'.value = some w ∧
        (∀ b, Node.minimaxValue c' b = Node.minimaxValue c b)) :
    ∀ (m : Bool) (clk : Option Clock) (L' : List Node) (vs : List Int)
        (clk' : Option Clock),
      Node.minimax_list L m clk = (L', Except.ok vs, clk') →
      vs = Node.minimaxValueList L m ∧ L'.length = L.length ∧
        (∀ b, Node.minimaxValueList L' b = Node.minimaxValueList L b) ∧
        (∀ ch ∈ L', ch.value = some (Node.minimaxValue ch m)) := by
  induction L with
  | nil =>
    intro m clk L' vs clk' h
    simp only [Node.minimax_list, Prod.mk.injEq, Except.ok.injEq] at h
    obtain ⟨hL, hvs, _⟩ := h
    subst hL; subst hvs
    exact ⟨rfl, rfl, fun b => rfl, fun ch hch => absurd hch (List.not_mem_nil ch)⟩
  | cons c cs ihl =>
    intro m clk L' vs clk' h
    rcases hres : Node.minimax_propagate_values_up c m clk with ⟨c2, res, clk2⟩
    cases res with
    | error e =>
      simp only [Node.minimax_list, hres, Prod.mk.injEq] at h
      cases h.2.1
    | ok w =>
      rcases hrec : Node.minimax_list cs m clk2 with ⟨cs2, res2, clk3⟩
      cases res2 with
      | error e =>
        simp only [Node.minimax_list, hres, hrec, Prod.mk.injEq] at h
        cases h.2.1
      | ok ws =>
        simp only [Node.minimax_list, hres, hrec, Prod.mk.injEq, Except.ok.injEq] at h
        obtain ⟨hL, hvs, _⟩ := h
        subst hL; subst hvs
        obtain ⟨hw, hv2, hp2⟩ := IH c (List.mem_cons_self c cs) m clk c2 w clk2 hres
        obtain ⟨hws, hlen, hpres, hstore⟩ :=
          ihl (fun d hd => IH d (List.mem_cons_of_mem c hd)) m clk2 cs2 ws clk3 hrec
        refine ⟨?_, ?_, ?_, ?_⟩
        · show w :: ws = Node.minimaxValue c m :: Node.minimaxValueList cs m
          rw [hw, hws]
        · simpa using hlen
        · intro b
          show Node.minimaxValue c2 b :: Node.minimaxValueList cs2 b =
            Node.minimaxValue c b :: Node.minimaxValueList cs b
          rw [hp2 b, hpres b]
        · intro ch hch
          rcases List.mem_cons.mp hch with h1 | h2
          · subst h1
            rw [hv2, hw, hp2 m]
          · exact hstore ch h2

/-- Node-level minimax soundness, by induction on the tree size: when no timeout fires, the returned value is the minimax value of the tree, it is stored at the root, and the minimax values of the tree are unchanged. -/
theorem mm_sound_all : ∀ (N : Nat) (t : Node), Node.size t ≤ N →
    ∀ (m : Bool) (clk : Option Clock) (t' : Node) (w : Int) (clk' : Option Clock),
      Node.minimax_propagate_values_up t m clk = (t', Except.ok w, clk') →
      w = Node.minimaxValue t m ∧ t'.value = some w ∧
        (∀ b, Node.minimaxValue t' b = Node.minimaxValue t b) := by
  intro N
  induction N with
  | zero =>
    intro t hsz
    cases t with
    | mk s v a cs =>
      exfalso
      have : Node.size (Node.mk s v a cs) = 1 + Node.sizeList cs := rfl
      omega
  | succ n ih =>
    intro t hsz m clk t' w clk' h
    cases t with
    | mk s v a cs =>
      rcases htick : tick clk with ⟨tc, clk2⟩
      cases cs with
      | nil =>
        cases tc with
        | expired =>
          simp only [Node.minimax_propagate_values_up, htick, Prod.mk.injEq] at h
          cases h.2.1
        | fine =>
          cases v with
          | none =>
            simp only [Node.minimax_propagate_values_up, htick, Prod.mk.injEq,
              Except.ok.injEq] at h
            obtain ⟨ht, hw, _⟩ := h
            subst ht; subst hw
            exact ⟨rfl, rfl, fun b => rfl⟩
          | some v0 =>
            simp only [Node.minimax_propagate_values_up, htick, Prod.mk.injEq,
              Except.ok.injEq] at h
            obtain ⟨ht, hw, _⟩ := h
            subst ht; subst hw
            exact ⟨rfl, rfl, fun b => rfl⟩
        | cutoff =>
          cases v with
          | none =>
            simp only [Node.minimax_propagate_values_up, htick, Prod.mk.injEq,
              Except.ok.injEq] at h
            obtain ⟨ht, hw, _⟩ := h
            subst ht; subst hw
            exact ⟨rfl, rfl, fun b => rfl⟩
          | some v0 =>
            simp only [Node.minimax_propagate_values_up, htick, Prod.mk.injEq,
              Except.ok.injEq] at h
            obtain ⟨ht, hw, _⟩ := h
            subst ht; subst hw
            exact ⟨rfl, rfl, fun b => rfl⟩
      | cons c cs' =>
        have hIH : ∀ d ∈ c :: cs', ∀ (m2 : Bool) (clk0 : Option Clock) (d' : Node) (w2 : Int)
            (clk0' : Option Clock),
            Node.minimax_propagate_values_up d m2 clk0 = (d', Except.ok w2, clk0') →
            w2 = Node.minimaxValue d m2 ∧ d'.value = some w2 ∧
              (∀ b, Node.minimaxValue d' b = Node.minimaxValue d b) := by
          intro d hd
          have hlt := @size_lt_of_mem d s v a (c :: cs') hd
          exact ih d (by omega)
        have hmain : ∀ (cs2 : List Node) (vals : List Int) (clk3 : Option Clock),
            Node.minimax_list (c :: cs') (!m) clk2 = (cs2, Except.ok vals, clk3) →
            t' = Node.mk s (some (if m then listMax vals else listMin vals)) a cs2 →
            w = (if m then listMax vals else listMin vals) →
            w = Node.minimaxValue (Node.mk s v a (c :: cs')) m ∧ t'.value = some w ∧
              (∀ b, Node.minimaxValue t' b = Node.minimaxValue (Node.mk s v a (c :: cs')) b) := by
          intro cs2 vals clk3 hlist ht hw
          obtain ⟨hvals, hlen, hpres, _⟩ := mm_list_sound (c :: cs') hIH (!m) clk2 cs2 vals clk3 hlist
          have hwv : w = Node.minimaxValue (Node.mk s v a (c :: cs')) m := by
            rw [hw, hvals]
            cases m <;> simp [Node.minimaxValue]
          refine ⟨hwv, by rw [ht, hw]; rfl, ?_⟩
          intro b
          cases cs2 with
          | nil => simp at hlen
          | cons d ds =>
            rw [ht]
            show (if b then listMax (Node.minimaxValueList (d :: ds) !b)
                else listMin (Node.minimaxValueList (d :: ds) !b)) =
              Node.minimaxValue (Node.mk s v a (c :: cs')) b
            rw [hpres (!b)]
            cases b <;> simp [Node.minimaxValue]
        cases tc with
        | expired =>
          simp only [Node.minimax_propagate_values_up, htick, Prod.mk.injEq] at h
          cases h.2.1
        | fine =>
          rcases hlist : Node.minimax_list (c :: cs') (!m) clk2 with ⟨cs2, res, clk3⟩
          cases res with
          | error e =>
            simp only [Node.minimax_propagate_values_up, htick, hlist, Prod.mk.injEq] at h
            cases h.2.1
          | ok vals =>
            simp only [Node.minimax_propagate_values_up, htick, hlist, Prod.mk.injEq,
              Except.ok.injEq] at h
            exact hmain cs2 vals clk3 hlist h.1.symm h.2.1.symm
        | cutoff =>
          rcases hlist : Node.minimax_list (c :: cs') (!m) clk2 with ⟨cs2, res, clk3⟩
          cases res with
          | error e =>
            simp only [Node.minimax_propagate_values_up, htick, hlist, Prod.mk.injEq] at h
            cases h.2.1
          | ok vals =>
            simp only [Node.minimax_propagate_values_up, htick, hlist, Prod.mk.injEq,
              Except.ok.injEq] at h
            exact hmain cs2 vals clk3 hlist h.1.symm h.2.1.symm

/-- Wrapper for mm_sound_all at the exact size. -/
theorem mm_sound {t : Node} {m : Bool} {clk : Option Clock} {t' : Node} {w : Int}
    {clk' : Option Clock}
    (h : Node.minimax_propagate_values_up t m clk = (t', Except.ok w, clk')) :
    w = Node.minimaxValue t m ∧ t'.value = some w ∧
      (∀ b, Node.minimaxValue t' b = Node.minimaxValue t b) :=
  mm_sound_all (Node.size t) t le_rfl m clk t' w clk' h



/- ------------------------------------------------------------------ -/
/- Alpha-beta fail-soft soundness. -/

/-- The maximizing running best is at least its seed. -/
theorem abBest_seed_le_true {best : Option Int} {b0 : Int} (hb0 : best = some b0) (s : Int) :
    b0 ≤ abBest best s true := by
  subst hb0
  exact le_max_left b0 s

/-- The minimizing running best is at most its seed. -/
theorem abBest_le_seed_false {best : Option Int} {b0 : Int} (hb0 : best = some b0) (s : Int) :
    abBest best s false ≤ b0 := by
  subst hb0
  exact min_le_left b0 s

/-- Fail-soft soundness of the maximizing alpha-beta loop, relative to node-level soundness of its members: the sibling list keeps its length and minimax values, the result is at least the seed, and the result satisfies the fail-soft trichotomy against the max of seed and child minimax values (a fail-low result overstates it, a fail-high result understates it, an in-window result equals it). -/
theorem ab_fold_max_sound (L : List Node)
    (IH : ∀ c ∈ L, ∀ (alpha beta : EInt) (m : Bool) (clk : Option Clock) (c' : Node) (s : Int)
        (clk' : Option Clock), alpha < beta →
      Node.alphabeta_propagate_values_up c alpha beta m clk = (c', Except.ok s, clk') →
      c'.value = some s ∧ (∀ b, Node.minimaxValue c' b = Node.minimaxValue c b) ∧
        (EInt.ofInt s ≤ alpha → Node.minimaxValue c m ≤ s) ∧
        (beta ≤ EInt.ofInt s → s ≤ Node.minimaxValue c m) ∧
        (alpha < EInt.ofInt s → EInt.ofInt s < beta → s = Node.minimaxValue c m)) :
    ∀ (alpha beta : EInt) (m : Bool) (clk : Option Clock) (best : Option Int) (L' : List Node)
        (v : Int) (clk' : Option Clock), alpha < beta → (best = none → L ≠ []) →
      Node.alphabeta_fold_max L alpha beta m clk best = (L', Except.ok v, clk') →
      L'.length = L.length ∧
        (∀ b, Node.minimaxValueList L' b = Node.minimaxValueList L b) ∧
        (∀ b0, best = some b0 → b0 ≤ v) ∧
        (EInt.ofInt v ≤ alpha → mmaxOf best (Node.minimaxValueList L m) ≤ v) ∧
        (beta ≤ EInt.ofInt v → v ≤ mmaxOf best (Node.minimaxValueList L m)) ∧
        (alpha < EInt.ofInt v → EInt.ofInt v < beta →
          v = mmaxOf best (Node.minimaxValueList L m)) := by
  induction L with
  | nil =>
    intro alpha beta m clk best L' v clk' hab hseed h
    cases best with
    | none => exact absurd rfl (hseed rfl)
    | some b0 =>
      simp only [Node.alphabeta_fold_max, Option.getD_some, Prod.mk.injEq, Except.ok.injEq] at h
      obtain ⟨hL, hv, _⟩ := h
      subst hL; subst hv
      refine ⟨rfl, fun b => rfl, ?_, ?_, ?_, ?_⟩
      · intro b1 hb1
        cases hb1
        exact le_rfl
      · intro _; exact le_rfl
      · intro _; exact le_rfl
      · intro _ _; rfl
  | cons c cs ihl =>
    intro alpha beta m clk best L' v clk' hab hseed h
    rcases hres : Node.alphabeta_propagate_values_up c alpha beta m clk with ⟨c2, res, clk2⟩
    cases res with
    | error e =>
      simp only [Node.alphabeta_fold_max, hres, Prod.mk.injEq] at h
      cases h.2.1
    | ok s =>
      obtain ⟨hval, hpres, htriA, htriB, htriC⟩ :=
        IH c (List.mem_cons_self c cs) alpha beta m clk c2 s clk2 hab hres
      have hsle : s ≤ abBest best s true := abBest_score_le_true best s
      have hMcons : mmaxOf best (Node.minimaxValueList (c :: cs) m) =
          maxSeed (abBest best (Node.minimaxValue c m) true) (Node.minimaxValueList cs m) := by
        show mmaxOf best (Node.minimaxValue c m :: Node.minimaxValueList cs m) = _
        exact mmaxOf_cons best _ _
      by_cases hcut : beta ≤ max alpha (EInt.ofInt (abBest best s true))
      · simp only [Node.alphabeta_fold_max, hres, if_pos hcut, Prod.mk.injEq,
          Except.ok.injEq] at h
        obtain ⟨hL, hv, _⟩ := h
        subst hL; subst hv
        have hbv : beta ≤ EInt.ofInt (abBest best s true) := le_max_cancel hcut hab
        refine ⟨by simp, ?_, ?_, ?_, ?_, ?_⟩
        · intro b
          show Node.minimaxValue c2 b :: Node.minimaxValueList cs b = _
          rw [hpres b]
          rfl
        · intro b0 hb0
          exact abBest_seed_le_true hb0 s
        · intro hva
          exact absurd (le_trans hbv hva) (not_le.mpr hab)
        · intro _
          rw [hMcons]
          cases best with
          | none =>
            have hsm : s ≤ Node.minimaxValue c m := htriB hbv
            exact le_maxSeed_iff.mpr (Or.inl hsm)
          | some b1 =>
            rcases le_total s b1 with hsb | hbs
            · rw [show abBest (some b1) s true = max b1 s from rfl, max_eq_left hsb]
              exact le_maxSeed_iff.mpr (Or.inl (le_max_left _ _))
            · have hbeta_s : beta ≤ EInt.ofInt s := by
                have heqs : EInt.ofInt (abBest (some b1) s true) = EInt.ofInt s := by
                  rw [show abBest (some b1) s true = max b1 s from rfl, max_eq_right hbs]
                rw [heqs] at hbv
                exact hbv
              have hsm : s ≤ Node.minimaxValue c m := htriB hbeta_s
              refine le_maxSeed_iff.mpr (Or.inl ?_)
              exact max_le (le_max_left _ _) (le_trans hsm (le_max_right _ _))
        · intro _ hvb
          exact absurd hbv (not_le.mpr hvb)
      · have hlt : max alpha (EInt.ofInt (abBest best s true)) < beta := not_le.mp hcut
        rcases hrec : Node.alphabeta_fold_max cs (max alpha (EInt.ofInt (abBest best s true)))
            beta m clk2 (some (abBest best s true)) with ⟨cs2, res2, clk3⟩
        simp only [Node.alphabeta_fold_max, hres, if_neg hcut, hrec, Prod.mk.injEq,
          Except.ok.injEq] at h
        cases res2 with
        | error e => cases h.2.1
        | ok w =>
          obtain ⟨hL, hv, _⟩ := h
          injection hv with hv
          subst hL; subst hv
          obtain ⟨ihLen, ihPres, ihLb, ihA, ihB, ihC⟩ :=
            ihl (fun d hd => IH d (List.mem_cons_of_mem c hd))
              (max alpha (EInt.ofInt (abBest best s true))) beta m clk2
              (some (abBest best s true)) cs2 w clk3 hlt (fun hc => absurd hc (by simp)) hrec
          have hb2v : abBest best s true ≤ w := ihLb _ rfl
          have hs_lt_beta : EInt.ofInt s < beta :=
            lt_of_le_of_lt (le_trans (EInt.ofInt_le_ofInt.mpr hsle) (le_max_right _ _)) hlt
          have hcase : (Node.minimaxValue c m = s ∧
              mmaxOf best (Node.minimaxValueList (c :: cs) m) =
                mmaxOf (some (abBest best s true)) (Node.minimaxValueList cs m)) ∨
              (EInt.ofInt s ≤ alpha ∧ Node.minimaxValue c m ≤ s) := by
            by_cases hsa : EInt.ofInt s ≤ alpha
            · exact Or.inr ⟨hsa, htriA hsa⟩
            · left
              have hseq := htriC (not_le.mp hsa) hs_lt_beta
              refine ⟨hseq.symm, ?_⟩
              rw [hMcons, ← hseq]
              rfl
          have hMM : mmaxOf best (Node.minimaxValueList (c :: cs) m) ≤
              mmaxOf (some (abBest best s true)) (Node.minimaxValueList cs m) := by
            rcases hcase with ⟨_, heqM⟩ | ⟨_, hms⟩
            · exact le_of_eq heqM
            · rw [hMcons]
              exact maxSeed_mono _ (abBest_mono_true best hms)
          refine ⟨?_, ?_, ?_, ?_, ?_, ?_⟩
          · show (c2 :: cs2).length = (c :: cs).length
            simpa using ihLen
          · intro b
            show Node.minimaxValue c2 b :: Node.minimaxValueList cs2 b = _
            rw [hpres b, ihPres b]
            rfl
          · intro b0 hb0
            exact le_trans (abBest_seed_le_true hb0 s) hb2v
          · intro hva
            have hva2 : EInt.ofInt w ≤ max alpha (EInt.ofInt (abBest best s true)) :=
              le_trans hva (le_max_left _ _)
            exact le_trans hMM (ihA hva2)
          · intro hbv
            have hvM' := ihB hbv
            rcases hcase with ⟨_, heqM⟩ | ⟨hsa, hms⟩
            · rw [heqM]; exact hvM'
            · rw [hMcons]
              rcases le_maxSeed_iff.mp
                  (show w ≤ maxSeed (abBest best s true) (Node.minimaxValueList cs m)
                    from hvM') with hvb2 | ⟨y, hy, hvy⟩
              · have hveq : w = abBest best s true := le_antisymm hvb2 hb2v
                cases best with
                | none =>
                  exfalso
                  rw [hveq] at hbv
                  exact absurd (le_trans hbv hsa) (not_le.mpr hab)
                | some b1 =>
                  have hsv : EInt.ofInt s < EInt.ofInt w :=
                    lt_of_le_of_lt hsa (lt_of_lt_of_le hab hbv)
                  have hsltv : s < w := EInt.ofInt_lt_ofInt.mp hsv
                  have hvb1 : w = b1 := by
                    rcases le_total s b1 with hsb | hbs
                    · rw [hveq]
                      exact max_eq_left hsb
                    · exfalso
                      have hws : w = s := by
                        rw [hveq]
                        exact max_eq_right hbs
                      rw [hws] at hsltv
                      exact lt_irrefl s hsltv
                  refine le_maxSeed_iff.mpr (Or.inl ?_)
                  rw [hvb1]
                  exact le_max_left b1 _
              · exact le_maxSeed_iff.mpr (Or.inr ⟨y, hy, hvy⟩)
          · intro hav hvb
            rcases eq_or_lt_of_le hb2v with heq2 | hlt2
            · have hvA : EInt.ofInt w ≤ max alpha (EInt.ofInt (abBest best s true)) := by
                rw [← heq2]
                exact le_max_right _ _
              have hM'v := ihA hvA
              refine le_antisymm ?_ (le_trans hMM hM'v)
              rcases hcase with ⟨hseq, _⟩ | ⟨hsa, hms⟩
              · rw [hMcons, hseq, ← heq2]
                exact le_maxSeed_seed _ _
              · cases best with
                | none =>
                  exfalso
                  rw [← heq2] at hav
                  exact absurd hsa (not_le.mpr hav)
                | some b1 =>
                  have hsltv : s < w :=
                    EInt.ofInt_lt_ofInt.mp (lt_of_le_of_lt hsa hav)
                  have hvb1 : w = b1 := by
                    rcases le_total s b1 with hsb | hbs
                    · rw [← heq2]
                      exact max_eq_left hsb
                    · exfalso
                      have hws : w = s := by
                        rw [← heq2]
                        exact max_eq_right hbs
                      rw [hws] at hsltv
                      exact lt_irrefl s hsltv
                  rw [hMcons]
                  refine le_maxSeed_iff.mpr (Or.inl ?_)
                  rw [hvb1]
                  exact le_max_left b1 _
            · have hA2v : max alpha (EInt.ofInt (abBest best s true)) < EInt.ofInt w :=
                max_lt hav (EInt.ofInt_lt_ofInt.mpr hlt2)
              have hveqM' := ihC hA2v hvb
              rcases hcase with ⟨_, heqM⟩ | ⟨hsa, hms⟩
              · rw [heqM]
                exact hveqM'
              · refine le_antisymm ?_ (by rw [hveqM']; exact hMM)
                rcases le_maxSeed_iff.mp (le_of_eq hveqM') with hvb2 | ⟨y, hy, hvy⟩
                · exact absurd hvb2 (not_le.mpr hlt2)
                · rw [hMcons]
                  exact le_maxSeed_iff.mpr (Or.inr ⟨y, hy, hvy⟩)

/-- Fail-soft soundness of the minimizing alpha-beta loop, dual to the maximizing one. -/
theorem ab_fold_min_sound (L : List Node)
    (IH : ∀ c ∈ L, ∀ (alpha beta : EInt) (m : Bool) (clk : Option Clock) (c' : Node) (s : Int)
        (clk' : Option Clock), alpha < beta →
      Node.alphabeta_propagate_values_up c alpha beta m clk = (c', Except.ok s, clk') →
      c'.value = some s ∧ (∀ b, Node.minimaxValue c' b = Node.minimaxValue c b) ∧
        (EInt.ofInt s ≤ alpha → Node.minimaxValue c m ≤ s) ∧
        (beta ≤ EInt.ofInt s → s ≤ Node.minimaxValue c m) ∧
        (alpha < EInt.ofInt s → EInt.ofInt s < beta → s = Node.minimaxValue c m)) :
    ∀ (alpha beta : EInt) (m : Bool) (clk : Option Clock) (best : Option Int) (L' : List Node)
        (v : Int) (clk' : Option Clock), alpha < beta → (best = none → L ≠ []) →
      Node.alphabeta_fold_min L alpha beta m clk best = (L', Except.ok v, clk') →
      L'.length = L.length ∧
        (∀ b, Node.minimaxValueList L' b = Node.minimaxValueList L b) ∧
        (∀ b0, best = some b0 → v ≤ b0) ∧
        (EInt.ofInt v ≤ alpha → mminOf best (Node.minimaxValueList L m) ≤ v) ∧
        (beta ≤ EInt.ofInt v → v ≤ mminOf best (Node.minimaxValueList L m)) ∧
        (alpha < EInt.ofInt v → EInt.ofInt v < beta →
          v = mminOf best (Node.minimaxValueList L m)) := by
  induction L with
  | nil =>
    intro alpha beta m clk best L' v clk' hab hseed h
    cases best with
    | none => exact absurd rfl (hseed rfl)
    | some b0 =>
      simp only [Node.alphabeta_fold_min, Option.getD_some, Prod.mk.injEq, Except.ok.injEq] at h
      obtain ⟨hL, hv, _⟩ := h
      subst hL; subst hv
      refine ⟨rfl, fun b => rfl, ?_, ?_, ?_, ?_⟩
      · intro b1 hb1
        cases hb1
        exact le_rfl
      · intro _; exact le_rfl
      · intro _; exact le_rfl
      · intro _ _; rfl
  | cons c cs ihl =>
    intro alpha beta m clk best L' v clk' hab hseed h
    rcases hres : Node.alphabeta_propagate_values_up c alpha beta m clk with ⟨c2, res, clk2⟩
    cases res with
    | error e =>
      simp only [Node.alphabeta_fold_min, hres, Prod.mk.injEq] at h
      cases h.2.1
    | ok s =>
      obtain ⟨hval, hpres, htriA, htriB, htriC⟩ :=
        IH c (List.mem_cons_self c cs) alpha beta m clk c2 s clk2 hab hres
      have hsge : abBest best s false ≤ s := abBest_le_score_false best s
      have hMcons : mminOf best (Node.minimaxValueList (c :: cs) m) =
          minSeed (abBest best (Node.minimaxValue c m) false) (Node.minimaxValueList cs m) := by
        show mminOf best (Node.minimaxValue c m :: Node.minimaxValueList cs m) = _
        exact mminOf_cons best _ _
      by_cases hcut : min beta (EInt.ofInt (abBest best s false)) ≤ alpha
      · simp only [Node.alphabeta_fold_min, hres, if_pos hcut, Prod.mk.injEq,
          Except.ok.injEq] at h
        obtain ⟨hL, hv, _⟩ := h
        subst hL; subst hv
        have hbv : EInt.ofInt (abBest best s false) ≤ alpha := min_le_cancel hcut hab
        refine ⟨by simp, ?_, ?_, ?_, ?_, ?_⟩
        · intro b
          show Node.minimaxValue c2 b :: Node.minimaxValueList cs b = _
          rw [hpres b]
          rfl
        · intro b0 hb0
          exact abBest_le_seed_false hb0 s
        · intro _
          rw [hMcons]
          cases best with
          | none =>
            have hms : Node.minimaxValue c m ≤ s := htriA hbv
            exact le_minSeed_iff.mpr (Or.inl hms)
          | some b1 =>
            rcases le_total b1 s with hbs | hsb
            · rw [show abBest (some b1) s false = min b1 s from rfl, min_eq_left hbs]
              exact le_minSeed_iff.mpr (Or.inl (min_le_left _ _))
            · have halpha_s : EInt.ofInt s ≤ alpha := by
                have heqs : EInt.ofInt (abBest (some b1) s false) = EInt.ofInt s := by
                  rw [show abBest (some b1) s false = min b1 s from rfl, min_eq_right hsb]
                rw [heqs] at hbv
                exact hbv
              have hms : Node.minimaxValue c m ≤ s := htriA halpha_s
              rw [show abBest (some b1) s false = min b1 s from rfl, min_eq_right hsb]
              exact le_minSeed_iff.mpr (Or.inl (le_trans (min_le_right _ _) hms))
        · intro hbv2
          exact absurd (le_trans hbv2 hbv) (not_le.mpr hab)
        · intro hav _
          exact absurd hbv (not_le.mpr hav)
      · have hlt : alpha < min beta (EInt.ofInt (abBest best s false)) := not_le.mp hcut
        rcases hrec : Node.alphabeta_fold_min cs alpha
            (min beta (EInt.ofInt (abBest best s false))) m clk2
            (some (abBest best s false)) with ⟨cs2, res2, clk3⟩
        simp only [Node.alphabeta_fold_min, hres, if_neg hcut, hrec, Prod.mk.injEq,
          Except.ok.injEq] at h
        cases res2 with
        | error e => cases h.2.1
        | ok w =>
          obtain ⟨hL, hv, _⟩ := h
          injection hv with hv
          subst hL; subst hv
          obtain ⟨ihLen, ihPres, ihLb, ihA, ihB, ihC⟩ :=
            ihl (fun d hd => IH d (List.mem_cons_of_mem c hd)) alpha
              (min beta (EInt.ofInt (abBest best s false))) m clk2
              (some (abBest best s false)) cs2 w clk3 hlt (fun hc => absurd hc (by simp)) hrec
          have hb2v : w ≤ abBest best s false := ihLb _ rfl
          have hs_gt_alpha : alpha < EInt.ofInt s :=
            lt_of_lt_of_le hlt (le_trans (min_le_right _ _) (EInt.ofInt_le_ofInt.mpr hsge))
          have hcase : (Node.minimaxValue c m = s ∧
              mminOf best (Node.minimaxValueList (c :: cs) m) =
                mminOf (some (abBest best s false)) (Node.minimaxValueList cs m)) ∨
              (beta ≤ EInt.ofInt s ∧ s ≤ Node.minimaxValue c m) := by
            by_cases hsb : beta ≤ EInt.ofInt s
            · exact Or.inr ⟨hsb, htriB hsb⟩
            · left
              have hseq := htriC hs_gt_alpha (not_le.mp hsb)
              refine ⟨hseq.symm, ?_⟩
              rw [hMcons, ← hseq]
              rfl
          have hMM : mminOf (some (abBest best s false)) (Node.minimaxValueList cs m) ≤
              mminOf best (Node.minimaxValueList (c :: cs) m) := by
            rcases hcase with ⟨_, heqM⟩ | ⟨_, hms⟩
            · exact le_of_eq heqM.symm
            · rw [hMcons]
              exact minSeed_mono _ (abBest_mono_false best hms)
          refine ⟨?_, ?_, ?_, ?_, ?_, ?_⟩
          · show (c2 :: cs2).length = (c :: cs).length
            simpa using ihLen
          · intro b
            show Node.minimaxValue c2 b :: Node.minimaxValueList cs2 b = _
            rw [hpres b, ihPres b]
            rfl
          · intro b0 hb0
            exact le_trans hb2v (abBest_le_seed_false hb0 s)
          · intro hva
            have hvM' := ihA hva
            rcases hcase with ⟨_, heqM⟩ | ⟨hsb, hms⟩
            · rw [heqM]; exact hvM'
            · rw [hMcons]
              rcases le_minSeed_iff.mp
                  (show minSeed (abBest best s false) (Node.minimaxValueList cs m) ≤ w
                    from hvM') with hvb2 | ⟨y, hy, hvy⟩
              · have hveq : w = abBest best s false := le_antisymm hb2v hvb2
                cases best with
                | none =>
                  exfalso
                  rw [hveq] at hva
                  exact absurd (le_trans hsb hva) (not_le.mpr hab)
                | some b1 =>
                  have hsv : EInt.ofInt w < EInt.ofInt s :=
                    lt_of_le_of_lt hva (lt_of_lt_of_le hab hsb)
                  have hvlts : w < s := EInt.ofInt_lt_ofInt.mp hsv
                  have hvb1 : w = b1 := by
                    rcases le_total b1 s with hbs | hsb2
                    · rw [hveq]
                      exact min_eq_left hbs
                    · exfalso
                      have hws : w = s := by
                        rw [hveq]
                        exact min_eq_right hsb2
                      rw [hws] at hvlts
                      exact lt_irrefl s hvlts
                  refine le_minSeed_iff.mpr (Or.inl ?_)
                  rw [hvb1]
                  exact min_le_left b1 _
              · exact le_minSeed_iff.mpr (Or.inr ⟨y, hy, hvy⟩)
          · intro hbv
            have hbv2 : min beta (EInt.ofInt (abBest best s false)) ≤ EInt.ofInt w :=
              le_trans (min_le_left _ _) hbv
            exact le_trans (ihB hbv2) hMM
          · intro hav hvb
            rcases eq_or_lt_of_le hb2v with heq2 | hlt2
            · have hvB : min beta (EInt.ofInt (abBest best s false)) ≤ EInt.ofInt w := by
                rw [heq2]
                exact min_le_right _ _
              have hvM' := ihB hvB
              refine le_antisymm (le_trans hvM' hMM) ?_
              rcases hcase with ⟨hseq, _⟩ | ⟨hsb, hms⟩
              · rw [hMcons, hseq, heq2]
                exact minSeed_le_seed _ _
              · cases best with
                | none =>
                  exfalso
                  rw [heq2] at hvb
                  exact absurd hsb (not_le.mpr hvb)
                | some b1 =>
                  have hvlts : w < s :=
                    EInt.ofInt_lt_ofInt.mp (lt_of_lt_of_le hvb hsb)
                  have hvb1 : w = b1 := by
                    rcases le_total b1 s with hbs | hsb2
                    · rw [heq2]
                      exact min_eq_left hbs
                    · exfalso
                      have hws : w = s := by
                        rw [heq2]
                        exact min_eq_right hsb2
                      rw [hws] at hvlts
                      exact lt_irrefl s hvlts
                  rw [hMcons]
                  refine le_minSeed_iff.mpr (Or.inl ?_)
                  rw [hvb1]
                  exact min_le_left b1 _
            · have hB2v : EInt.ofInt w < min beta (EInt.ofInt (abBest best s false)) :=
                lt_min hvb (EInt.ofInt_lt_ofInt.mpr hlt2)
              have hveqM' := ihC hav hB2v
              rcases hcase with ⟨_, heqM⟩ | ⟨hsb, hms⟩
              · rw [heqM]
                exact hveqM'
              · refine le_antisymm (by rw [hveqM']; exact hMM) ?_
                rcases le_minSeed_iff.mp (le_of_eq hveqM'.symm) with hvb2 | ⟨y, hy, hvy⟩
                · exact absurd hvb2 (not_le.mpr hlt2)
                · rw [hMcons]
                  exact le_minSeed_iff.mpr (Or.inr ⟨y, hy, hvy⟩)

/-- Node-level alpha-beta fail-soft soundness, by induction on the tree size: for a window alpha < beta, when no timeout fires the returned value is stored at the root, minimax values are unchanged, and the value satisfies the fail-soft trichotomy against the minimax value of the tree. -/
theorem ab_sound_all : ∀ (N : Nat) (t : Node), Node.size t ≤ N →
    ∀ (alpha beta : EInt) (m : Bool) (clk : Option Clock) (t' : Node) (w : Int)
        (clk' : Option Clock), alpha < beta →
      Node.alphabeta_propagate_values_up t alpha beta m clk = (t', Except.ok w, clk') →
      t'.value = some w ∧ (∀ b, Node.minimaxValue t' b = Node.minimaxValue t b) ∧
        (EInt.ofInt w ≤ alpha → Node.minimaxValue t m ≤ w) ∧
        (beta ≤ EInt.ofInt w → w ≤ Node.minimaxValue t m) ∧
        (alpha < EInt.ofInt w → EInt.ofInt w < beta → w = Node.minimaxValue t m) := by
  intro N
  induction N with
  | zero =>
    intro t hsz
    cases t with
    | mk s v a cs =>
      exfalso
      have : Node.size (Node.mk s v a cs) = 1 + Node.sizeList cs := rfl
      omega
  | succ n ih =>
    intro t hsz alpha beta m clk t' w clk' hab h
    cases t with
    | mk s v a cs =>
      rcases htick : tick clk with ⟨tc, clk2⟩
      cases cs with
      | nil =>
        cases tc with
        | expired =>
          simp only [Node.alphabeta_propagate_values_up, htick, Prod.mk.injEq] at h
          cases h.2.1
        | fine =>
          cases v with
          | none =>
            simp only [Node.alphabeta_propagate_values_up, htick, Prod.mk.injEq,
              Except.ok.injEq] at h
            obtain ⟨ht, hw, _⟩ := h
            subst ht; subst hw
            exact ⟨rfl, fun b => rfl, fun _ => le_rfl, fun _ => le_rfl, fun _ _ => rfl⟩
          | some v0 =>
            simp only [Node.alphabeta_propagate_values_up, htick, Prod.mk.injEq,
              Except.ok.injEq] at h
            obtain ⟨ht, hw, _⟩ := h
            subst ht; subst hw
            exact ⟨rfl, fun b => rfl, fun _ => le_rfl, fun _ => le_rfl, fun _ _ => rfl⟩
        | cutoff =>
          cases v with
          | none =>
            simp only [Node.alphabeta_propagate_values_up, htick, Prod.mk.injEq,
              Except.ok.injEq] at h
            obtain ⟨ht, hw, _⟩ := h
            subst ht; subst hw
            exact ⟨rfl, fun b => rfl, fun _ => le_rfl, fun _ => le_rfl, fun _ _ => rfl⟩
          | some v0 =>
            simp only [Node.alphabeta_propagate_values_up, htick, Prod.mk.injEq,
              Except.ok.injEq] at h
            obtain ⟨ht, hw, _⟩ := h
            subst ht; subst hw
            exact ⟨rfl, fun b => rfl, fun _ => le_rfl, fun _ => le_rfl, fun _ _ => rfl⟩
      | cons c cs' =>
        have hIH : ∀ d ∈ c :: cs', ∀ (alpha2 beta2 : EInt) (m2 : Bool) (clk0 : Option Clock)
            (d' : Node) (s2 : Int) (clk0' : Option Clock), alpha2 < beta2 →
            Node.alphabeta_propagate_values_up d alpha2 beta2 m2 clk0 =
              (d', Except.ok s2, clk0') →
            d'.value = some s2 ∧ (∀ b, Node.minimaxValue d' b = Node.minimaxValue d b) ∧
              (EInt.ofInt s2 ≤ alpha2 → Node.minimaxValue d m2 ≤ s2) ∧
              (beta2 ≤ EInt.ofInt s2 → s2 ≤ Node.minimaxValue d m2) ∧
              (alpha2 < EInt.ofInt s2 → EInt.ofInt s2 < beta2 →
                s2 = Node.minimaxValue d m2) := by
          intro d hd
          have hlt := @size_lt_of_mem d s v a (c :: cs') hd
          exact ih d (by omega)
        have hmainMax : ∀ (cs2 : List Node) (bv : Int) (clk3 : Option Clock),
            Node.alphabeta_fold_max (c :: cs') alpha beta false clk2 none =
              (cs2, Except.ok bv, clk3) →
            t' = Node.mk s (some bv) a cs2 → w = bv →
            t'.value = some w ∧
              (∀ b, Node.minimaxValue t' b = Node.minimaxValue (Node.mk s v a (c :: cs')) b) ∧
              (EInt.ofInt w ≤ alpha → Node.minimaxValue (Node.mk s v a (c :: cs')) true ≤ w) ∧
              (beta ≤ EInt.ofInt w → w ≤ Node.minimaxValue (Node.mk s v a (c :: cs')) true) ∧
              (alpha < EInt.ofInt w → EInt.ofInt w < beta →
                w = Node.minimaxValue (Node.mk s v a (c :: cs')) true) := by
          intro cs2 bv clk3 hfold ht hw
          obtain ⟨flen, fpres, _, fA, fB, fC⟩ :=
            ab_fold_max_sound (c :: cs') hIH alpha beta false clk2 none cs2 bv clk3 hab
              (fun _ => List.cons_ne_nil c cs') hfold
          have hMv : mmaxOf none (Node.minimaxValueList (c :: cs') false) =
              Node.minimaxValue (Node.mk s v a (c :: cs')) true := rfl
          subst hw
          refine ⟨by rw [ht]; rfl, ?_, ?_, ?_, ?_⟩
          · intro b
            cases cs2 with
            | nil => simp at flen
            | cons d ds =>
              rw [ht]
              show (if b then listMax (Node.minimaxValueList (d :: ds) !b)
                  else listMin (Node.minimaxValueList (d :: ds) !b)) = _
              rw [fpres (!b)]
              cases b <;> simp [Node.minimaxValue]
          · intro h1
            rw [← hMv]
            exact fA h1
          · intro h1
            rw [← hMv]
            exact fB h1
          · intro h1 h2
            rw [← hMv]
            exact fC h1 h2
        have hmainMin : ∀ (cs2 : List Node) (bv : Int) (clk3 : Option Clock),
            Node.alphabeta_fold_min (c :: cs') alpha beta true clk2 none =
              (cs2, Except.ok bv, clk3) →
            t' = Node.mk s (some bv) a cs2 → w = bv →
            t'.value = some w ∧
              (∀ b, Node.minimaxValue t' b = Node.minimaxValue (Node.mk s v a (c :: cs')) b) ∧
              (EInt.ofInt w ≤ alpha → Node.minimaxValue (Node.mk s v a (c :: cs')) false ≤ w) ∧
              (beta ≤ EInt.ofInt w → w ≤ Node.minimaxValue (Node.mk s v a (c :: cs')) false) ∧
              (alpha < EInt.ofInt w → EInt.ofInt w < beta →
                w = Node.minimaxValue (Node.mk s v a (c :: cs')) false) := by
          intro cs2 bv clk3 hfold ht hw
          obtain ⟨flen, fpres, _, fA, fB, fC⟩ :=
            ab_fold_min_sound (c :: cs') hIH alpha beta true clk2 none cs2 bv clk3 hab
              (fun _ => List.cons_ne_nil c cs') hfold
          have hMv : mminOf none (Node.minimaxValueList (c :: cs') true) =
              Node.minimaxValue (Node.mk s v a (c :: cs')) false := rfl
          subst hw
          refine ⟨by rw [ht]; rfl, ?_, ?_, ?_, ?_⟩
          · intro b
            cases cs2 with
            | nil => simp at flen
            | cons d ds =>
              rw [ht]
              show (if b then listMax (Node.minimaxValueList (d :: ds) !b)
                  else listMin (Node.minimaxValueList (d :: ds) !b)) = _
              rw [fpres (!b)]
              cases b <;> simp [Node.minimaxValue]
          · intro h1
            rw [← hMv]
            exact fA h1
          · intro h1
            rw [← hMv]
            exact fB h1
          · intro h1 h2
            rw [← hMv]
            exact fC h1 h2
        cases tc with
        | expired =>
          simp only [Node.alphabeta_propagate_values_up, htick, Prod.mk.injEq] at h
          cases h.2.1
        | fine =>
          cases m with
          | true =>
            rcases hfold : Node.alphabeta_fold_max (c :: cs') alpha beta false clk2 none
              with ⟨cs2, res, clk3⟩
            cases res with
            | error e =>
              simp only [Node.alphabeta_propagate_values_up, htick, Bool.not_true, hfold,
                if_true, Prod.mk.injEq] at h
              cases h.2.1
            | ok bv =>
              simp only [Node.alphabeta_propagate_values_up, htick, Bool.not_true, hfold,
                if_true, Prod.mk.injEq, Except.ok.injEq] at h
              exact hmainMax cs2 bv clk3 hfold h.1.symm h.2.1.symm
          | false =>
            rcases hfold : Node.alphabeta_fold_min (c :: cs') alpha beta true clk2 none
              with ⟨cs2, res, clk3⟩
            cases res with
            | error e =>
              simp only [Node.alphabeta_propagate_values_up, htick, Bool.not_false, hfold,
                Bool.false_eq_true, if_false, Prod.mk.injEq] at h
              cases h.2.1
            | ok bv =>
              simp only [Node.alphabeta_propagate_values_up, htick, Bool.not_false, hfold,
                Bool.false_eq_true, if_false, Prod.mk.injEq, Except.ok.injEq] at h
              exact hmainMin cs2 bv clk3 hfold h.1.symm h.2.1.symm
        | cutoff =>
          cases m with
          | true =>
            rcases hfold : Node.alphabeta_fold_max (c :: cs') alpha beta false clk2 none
              with ⟨cs2, res, clk3⟩
            cases res with
            | error e =>
              simp only [Node.alphabeta_propagate_values_up, htick, Bool.not_true, hfold,
                if_true, Prod.mk.injEq] at h
              cases h.2.1
            | ok bv =>
              simp only [Node.alphabeta_propagate_values_up, htick, Bool.not_true, hfold,
                if_true, Prod.mk.injEq, Except.ok.injEq] at h
              exact hmainMax cs2 bv clk3 hfold h.1.symm h.2.1.symm
          | false =>
            rcases hfold : Node.alphabeta_fold_min (c :: cs') alpha beta true clk2 none
              with ⟨cs2, res, clk3⟩
            cases res with
            | error e =>
              simp only [Node.alphabeta_propagate_values_up, htick, Bool.not_false, hfold,
                Bool.false_eq_true, if_false, Prod.mk.injEq] at h
              cases h.2.1
            | ok bv =>
              simp only [Node.alphabeta_propagate_values_up, htick, Bool.not_false, hfold,
                Bool.false_eq_true, if_false, Prod.mk.injEq, Except.ok.injEq] at h
              exact hmainMin cs2 bv clk3 hfold h.1.symm h.2.1.symm

/-- Wrapper for ab_sound_all at the exact size. -/
theorem ab_sound {t : Node} {alpha beta : EInt} {m : Bool} {clk : Option Clock} {t' : Node}
    {w : Int} {clk' : Option Clock} (hab : alpha < beta)
    (h : Node.alphabeta_propagate_values_up t alpha beta m clk = (t', Except.ok w, clk')) :
    t'.value = some w ∧ (∀ b, Node.minimaxValue t' b = Node.minimaxValue t b) ∧
      (EInt.ofInt w ≤ alpha → Node.minimaxValue t m ≤ w) ∧
      (beta ≤ EInt.ofInt w → w ≤ Node.minimaxValue t m) ∧
      (alpha < EInt.ofInt w → EInt.ofInt w < beta → w = Node.minimaxValue t m) :=
  ab_sound_all (Node.size t) t le_rfl alpha beta m clk t' w clk' hab h

/-- The bounds of the extended integers are distinct. -/
theorem bot_lt_top_eint : (⊥ : EInt) < (⊤ : EInt) :=
  lt_trans (EInt.bot_lt_ofInt 0) (EInt.ofInt_lt_top 0)

/-- The maximizing alpha-beta loop under an infinite beta (the root window): no prune break ever fires, and the get_max_node fold over the updated siblings, started from an accumulator coherent with the running best, lands on a node that stores the loop result and whose minimax value equals it. The key step: the first child attaining the running maximum was evaluated with alpha strictly below its score, so its score is exact. -/
theorem ab_fold_max_root (L : List Node)
    (IH : ∀ c ∈ L, ∀ (alpha beta : EInt) (m : Bool) (clk : Option Clock) (c' : Node) (s : Int)
        (clk' : Option Clock), alpha < beta →
      Node.alphabeta_propagate_values_up c alpha beta m clk = (c', Except.ok s, clk') →
      c'.value = some s ∧ (∀ b, Node.minimaxValue c' b = Node.minimaxValue c b) ∧
        (EInt.ofInt s ≤ alpha → Node.minimaxValue c m ≤ s) ∧
        (beta ≤ EInt.ofInt s → s ≤ Node.minimaxValue c m) ∧
        (alpha < EInt.ofInt s → EInt.ofInt s < beta → s = Node.minimaxValue c m)) :
    ∀ (alpha : EInt) (m : Bool) (clk : Option Clock) (best : Option Int) (L' : List Node)
        (v : Int) (clk' : Option Clock),
      ((best = none ∧ alpha = ⊥) ∨ ∃ b0, best = some b0 ∧ alpha = EInt.ofInt b0) →
      (best = none → L ≠ []) →
      Node.alphabeta_fold_max L alpha ⊤ m clk best = (L', Except.ok v, clk') →
      ∀ (acc : Option (Int × Node)),
        ((best = none ∧ acc = none) ∨
          ∃ b0 nd, best = some b0 ∧ acc = some (b0, nd) ∧ nd.value = some b0 ∧
            Node.minimaxValue nd m = b0) →
        ∃ nd, L'.foldl gmaxStep acc = some (v, nd) ∧ nd.value = some v ∧
          Node.minimaxValue nd m = v := by
  induction L with
  | nil =>
    intro alpha m clk best L' v clk' hinv hseed h acc hacc
    rcases hacc with ⟨hbn, _⟩ | ⟨b0, nd, hbs, has, hv, hm⟩
    · exact absurd rfl (hseed hbn)
    · subst hbs
      simp only [Node.alphabeta_fold_max, Option.getD_some, Prod.mk.injEq,
        Except.ok.injEq] at h
      obtain ⟨hL, hveq, _⟩ := h
      subst hL; subst hveq
      refine ⟨nd, ?_, hv, hm⟩
      rw [has]
      rfl
  | cons c cs ihl =>
    intro alpha m clk best L' v clk' hinv hseed h acc hacc
    rcases hres : Node.alphabeta_propagate_values_up c alpha ⊤ m clk with ⟨c2, res, clk2⟩
    cases res with
    | error e =>
      simp only [Node.alphabeta_fold_max, hres, Prod.mk.injEq] at h
      cases h.2.1
    | ok s =>
      have halphat : alpha < ⊤ := by
        rcases hinv with ⟨_, ha⟩ | ⟨b0, _, ha⟩
        · rw [ha]; exact bot_lt_top_eint
        · rw [ha]; exact EInt.ofInt_lt_top b0
      obtain ⟨hval, hpres, _, _, htriC⟩ :=
        IH c (List.mem_cons_self c cs) alpha ⊤ m clk c2 s clk2 halphat hres
      have hnocut : ¬ ((⊤ : EInt) ≤ max alpha (EInt.ofInt (abBest best s true))) :=
        not_le.mpr (max_lt halphat (EInt.ofInt_lt_top _))
      rcases hrec : Node.alphabeta_fold_max cs (max alpha (EInt.ofInt (abBest best s true))) ⊤
          m clk2 (some (abBest best s true)) with ⟨cs2, res2, clk3⟩
      simp only [Node.alphabeta_fold_max, hres, if_neg hnocut, hrec, Prod.mk.injEq] at h
      cases res2 with
      | error e => cases h.2.1
      | ok w =>
        obtain ⟨hL, hveq, _⟩ := h
        injection hveq with hveq
        subst hL; subst hveq
        have hinv2 : (some (abBest best s true) = none ∧
              max alpha (EInt.ofInt (abBest best s true)) = ⊥) ∨
            ∃ b0, some (abBest best s true) = some b0 ∧
              max alpha (EInt.ofInt (abBest best s true)) = EInt.ofInt b0 := by
          right
          refine ⟨abBest best s true, rfl, ?_⟩
          rcases hinv with ⟨_, ha⟩ | ⟨b0, hbs, ha⟩
          · rw [ha]; exact max_eq_right bot_le
          · rw [ha, ← EInt.ofInt_max, max_eq_right (abBest_seed_le_true hbs s)]
        have hstep : (some (abBest best s true) = none ∧ gmaxStep acc c2 = none) ∨
            ∃ b0 nd, some (abBest best s true) = some b0 ∧ gmaxStep acc c2 = some (b0, nd) ∧
              nd.value = some b0 ∧ Node.minimaxValue nd m = b0 := by
          right
          rcases hacc with ⟨hbn, han⟩ | ⟨b0, nd, hbs, has, hv, hm⟩
          · subst hbn
            refine ⟨s, c2, rfl, ?_, hval, ?_⟩
            · rw [han]
              simp [gmaxStep, hval]
            · show Node.minimaxValue c2 m = s
              rcases hinv with ⟨_, ha⟩ | ⟨b0, hbs, _⟩
              · have hs := htriC (by rw [ha]; exact EInt.bot_lt_ofInt s) (EInt.ofInt_lt_top s)
                rw [hpres m]
                exact hs.symm
              · cases hbs
          · subst hbs
            by_cases hgt : s > b0
            · have habs : abBest (some b0) s true = s := max_eq_right (le_of_lt hgt)
              refine ⟨abBest (some b0) s true, c2, rfl, ?_, ?_, ?_⟩
              · rw [habs, has]
                simp [gmaxStep, hval, hgt]
              · rw [habs]; exact hval
              · rw [habs]
                rcases hinv with ⟨hc, _⟩ | ⟨b1, hb1, ha⟩
                · cases hc
                · injection hb1 with hb1
                  subst hb1
                  have hs := htriC (by rw [ha]; exact EInt.ofInt_lt_ofInt.mpr hgt)
                    (EInt.ofInt_lt_top s)
                  rw [hpres m]
                  exact hs.symm
            · have habs : abBest (some b0) s true = b0 := max_eq_left (not_lt.mp hgt)
              refine ⟨abBest (some b0) s true, nd, rfl, ?_, ?_, ?_⟩
              · rw [habs, has]
                simp [gmaxStep, hval, hgt]
              · rw [habs]; exact hv
              · rw [habs]; exact hm
        obtain ⟨ndf, hfold2, hvf, hmf⟩ :=
          ihl (fun d hd => IH d (List.mem_cons_of_mem c hd))
            (max alpha (EInt.ofInt (abBest best s true))) m clk2 (some (abBest best s true))
            cs2 w clk3 hinv2 (fun hc => absurd hc (by simp)) hrec (gmaxStep acc c2) hstep
        refine ⟨ndf, ?_, hvf, hmf⟩
        show (c2 :: cs2).foldl gmaxStep acc = _
        rw [List.foldl_cons]
        exact hfold2

/-- The minimizing alpha-beta loop under an infinite alpha (the root window), dual to the maximizing one. -/
theorem ab_fold_min_root (L : List Node)
    (IH : ∀ c ∈ L, ∀ (alpha beta : EInt) (m : Bool) (clk : Option Clock) (c' : Node) (s : Int)
        (clk' : Option Clock), alpha < beta →
      Node.alphabeta_propagate_values_up c alpha beta m clk = (c', Except.ok s, clk') →
      c'.value = some s ∧ (∀ b, Node.minimaxValue c' b = Node.minimaxValue c b) ∧
        (EInt.ofInt s ≤ alpha → Node.minimaxValue c m ≤ s) ∧
        (beta ≤ EInt.ofInt s → s ≤ Node.minimaxValue c m) ∧
        (alpha < EInt.ofInt s → EInt.ofInt s < beta → s = Node.minimaxValue c m)) :
    ∀ (beta : EInt) (m : Bool) (clk : Option Clock) (best : Option Int) (L' : List Node)
        (v : Int) (clk' : Option Clock),
      ((best = none ∧ beta = ⊤) ∨ ∃ b0, best = some b0 ∧ beta = EInt.ofInt b0) →
      (best = none → L ≠ []) →
      Node.alphabeta_fold_min L ⊥ beta m clk best = (L', Except.ok v, clk') →
      ∀ (acc : Option (Int × Node)),
        ((best = none ∧ acc = none) ∨
          ∃ b0 nd, best = some b0 ∧ acc = some (b0, nd) ∧ nd.value = some b0 ∧
            Node.minimaxValue nd m = b0) →
        ∃ nd, L'.foldl gminStep acc = some (v, nd) ∧ nd.value = some v ∧
          Node.minimaxValue nd m = v := by
  induction L with
  | nil =>
    intro beta m clk best L' v clk' hinv hseed h acc hacc
    rcases hacc with ⟨hbn, _⟩ | ⟨b0, nd, hbs, has, hv, hm⟩
    · exact absurd rfl (hseed hbn)
    · subst hbs
      simp only [Node.alphabeta_fold_min, Option.getD_some, Prod.mk.injEq,
        Except.ok.injEq] at h
      obtain ⟨hL, hveq, _⟩ := h
      subst hL; subst hveq
      refine ⟨nd, ?_, hv, hm⟩
      rw [has]
      rfl
  | cons c cs ihl =>
    intro beta m clk best L' v clk' hinv hseed h acc hacc
    rcases hres : Node.alphabeta_propagate_values_up c ⊥ beta m clk with ⟨c2, res, clk2⟩
    cases res with
    | error e =>
      simp only [Node.alphabeta_fold_min, hres, Prod.mk.injEq] at h
      cases h.2.1
    | ok s =>
      have hbetab : (⊥ : EInt) < beta := by
        rcases hinv with ⟨_, hb⟩ | ⟨b0, _, hb⟩
        · rw [hb]; exact bot_lt_top_eint
        · rw [hb]; exact EInt.bot_lt_ofInt b0
      obtain ⟨hval, hpres, _, _, htriC⟩ :=
        IH c (List.mem_cons_self c cs) ⊥ beta m clk c2 s clk2 hbetab hres
      have hnocut : ¬ (min beta (EInt.ofInt (abBest best s false)) ≤ (⊥ : EInt)) :=
        not_le.mpr (lt_min hbetab (EInt.bot_lt_ofInt _))
      rcases hrec : Node.alphabeta_fold_min cs ⊥ (min beta (EInt.ofInt (abBest best s false)))
          m clk2 (some (abBest best s false)) with ⟨cs2, res2, clk3⟩
      simp only [Node.alphabeta_fold_min, hres, if_neg hnocut, hrec, Prod.mk.injEq] at h
      cases res2 with
      | error e => cases h.2.1
      | ok w =>
        obtain ⟨hL, hveq, _⟩ := h
        injection hveq with hveq
        subst hL; subst hveq
        have hinv2 : (some (abBest best s false) = none ∧
              min beta (EInt.ofInt (abBest best s false)) = ⊤) ∨
            ∃ b0, some (abBest best s false) = some b0 ∧
              min beta (EInt.ofInt (abBest best s false)) = EInt.ofInt b0 := by
          right
          refine ⟨abBest best s false, rfl, ?_⟩
          rcases hinv with ⟨_, hb⟩ | ⟨b0, hbs, hb⟩
          · rw [hb]; exact min_eq_right le_top
          · rw [hb, ← EInt.ofInt_min, min_eq_right (abBest_le_seed_false hbs s)]
        have hstep : (some (abBest best s false) = none ∧ gminStep acc c2 = none) ∨
            ∃ b0 nd, some (abBest best s false) = some b0 ∧ gminStep acc c2 = some (b0, nd) ∧
              nd.value = some b0 ∧ Node.minimaxValue nd m = b0 := by
          right
          rcases hacc with ⟨hbn, han⟩ | ⟨b0, nd, hbs, has, hv, hm⟩
          · subst hbn
            refine ⟨s, c2, rfl, ?_, hval, ?_⟩
            · rw [han]
              simp [gminStep, hval]
            · show Node.minimaxValue c2 m = s
              rcases hinv with ⟨_, hb⟩ | ⟨b0, hbs, _⟩
              · have hs := htriC (EInt.bot_lt_ofInt s) (by rw [hb]; exact EInt.ofInt_lt_top s)
                rw [hpres m]
                exact hs.symm
              · cases hbs
          · subst hbs
            by_cases hlt2 : s < b0
            · have habs : abBest (some b0) s false = s := min_eq_right (le_of_lt hlt2)
              refine ⟨abBest (some b0) s false, c2, rfl, ?_, ?_, ?_⟩
              · rw [habs, has]
                simp [gminStep, hval, hlt2]
              · rw [habs]; exact hval
              · rw [habs]
                rcases hinv with ⟨hc, _⟩ | ⟨b1, hb1, hb⟩
                · cases hc
                · injection hb1 with hb1
                  subst hb1
                  have hs := htriC (EInt.bot_lt_ofInt s)
                    (by rw [hb]; exact EInt.ofInt_lt_ofInt.mpr hlt2)
                  rw [hpres m]
                  exact hs.symm
            · have habs : abBest (some b0) s false = b0 := min_eq_left (not_lt.mp hlt2)
              refine ⟨abBest (some b0) s false, nd, rfl, ?_, ?_, ?_⟩
              · rw [habs, has]
                simp [gminStep, hval, hlt2]
              · rw [habs]; exact hv
              · rw [habs]; exact hm
        obtain ⟨ndf, hfold2, hvf, hmf⟩ :=
          ihl (fun d hd => IH d (List.mem_cons_of_mem c hd))
            (min beta (EInt.ofInt (abBest best s false))) m clk2 (some (abBest best s false))
            cs2 w clk3 hinv2 (fun hc => absurd hc (by simp)) hrec (gminStep acc c2) hstep
        refine ⟨ndf, ?_, hvf, hmf⟩
        show (c2 :: cs2).foldl gminStep acc = _
        rw [List.foldl_cons]
        exact hfold2

/-- The get_max_node fold over siblings that store exactly their minimax values, from a coherent accumulator, lands on a node storing the running maximum. -/
theorem gmax_fold_stored (m : Bool) : ∀ (L : List Node) (b0 : Int) (nd : Node),
    (∀ ch ∈ L, ch.value = some (Node.minimaxValue ch m)) →
    nd.value = some b0 → Node.minimaxValue nd m = b0 →
    ∃ nd2, L.foldl gmaxStep (some (b0, nd)) =
        some (maxSeed b0 (Node.minimaxValueList L m), nd2) ∧
      nd2.value = some (maxSeed b0 (Node.minimaxValueList L m)) ∧
      Node.minimaxValue nd2 m = maxSeed b0 (Node.minimaxValueList L m) := by
  intro L
  induction L with
  | nil =>
    intro b0 nd _ hv hm
    exact ⟨nd, rfl, hv, hm⟩
  | cons c cs ih =>
    intro b0 nd hst hv hm
    have hc := hst c (List.mem_cons_self c cs)
    have htail := fun d hd => hst d (List.mem_cons_of_mem c hd)
    rw [List.foldl_cons]
    by_cases hgt : Node.minimaxValue c m > b0
    · have hstep : gmaxStep (some (b0, nd)) c = some (Node.minimaxValue c m, c) := by
        simp [gmaxStep, hc, hgt]
      have hms : maxSeed b0 (Node.minimaxValueList (c :: cs) m) =
          maxSeed (Node.minimaxValue c m) (Node.minimaxValueList cs m) := by
        show maxSeed (max b0 (Node.minimaxValue c m)) (Node.minimaxValueList cs m) = _
        rw [max_eq_right (le_of_lt hgt)]
      rw [hstep, hms]
      exact ih (Node.minimaxValue c m) c htail hc rfl
    · have hstep : gmaxStep (some (b0, nd)) c = some (b0, nd) := by
        simp [gmaxStep, hc, hgt]
      have hms : maxSeed b0 (Node.minimaxValueList (c :: cs) m) =
          maxSeed b0 (Node.minimaxValueList cs m) := by
        show maxSeed (max b0 (Node.minimaxValue c m)) (Node.minimaxValueList cs m) = _
        rw [max_eq_left (not_lt.mp hgt)]
      rw [hstep, hms]
      exact ih b0 nd htail hv hm

/-- The get_min_node fold over exactly-valued siblings, dual. -/
theorem gmin_fold_stored (m : Bool) : ∀ (L : List Node) (b0 : Int) (nd : Node),
    (∀ ch ∈ L, ch.value = some (Node.minimaxValue ch m)) →
    nd.value = some b0 → Node.minimaxValue nd m = b0 →
    ∃ nd2, L.foldl gminStep (some (b0, nd)) =
        some (minSeed b0 (Node.minimaxValueList L m), nd2) ∧
      nd2.value = some (minSeed b0 (Node.minimaxValueList L m)) ∧
      Node.minimaxValue nd2 m = minSeed b0 (Node.minimaxValueList L m) := by
  intro L
  induction L with
  | nil =>
    intro b0 nd _ hv hm
    exact ⟨nd, rfl, hv, hm⟩
  | cons c cs ih =>
    intro b0 nd hst hv hm
    have hc := hst c (List.mem_cons_self c cs)
    have htail := fun d hd => hst d (List.mem_cons_of_mem c hd)
    rw [List.foldl_cons]
    by_cases hlt2 : Node.minimaxValue c m < b0
    · have hstep : gminStep (some (b0, nd)) c = some (Node.minimaxValue c m, c) := by
        simp [gminStep, hc, hlt2]
      have hms : minSeed b0 (Node.minimaxValueList (c :: cs) m) =
          minSeed (Node.minimaxValue c m) (Node.minimaxValueList cs m) := by
        show minSeed (min b0 (Node.minimaxValue c m)) (Node.minimaxValueList cs m) = _
        rw [min_eq_right (le_of_lt hlt2)]
      rw [hstep, hms]
      exact ih (Node.minimaxValue c m) c htail hc rfl
    · have hstep : gminStep (some (b0, nd)) c = some (b0, nd) := by
        simp [gminStep, hc, hlt2]
      have hms : minSeed b0 (Node.minimaxValueList (c :: cs) m) =
          minSeed b0 (Node.minimaxValueList cs m) := by
        show minSeed (min b0 (Node.minimaxValue c m)) (Node.minimaxValueList cs m) = _
        rw [min_eq_left (not_lt.mp hlt2)]
      rw [hstep, hms]
      exact ih b0 nd htail hv hm

/-- get_max_node over a nonempty list of siblings that store exactly their minimax values returns a node whose stored and minimax value are the maximum. -/
theorem gmax_stored (m : Bool) (L : List Node) (hne : L ≠ [])
    (hst : ∀ ch ∈ L, ch.value = some (Node.minimaxValue ch m)) :
    ∃ nd, Node.get_max_node L = some nd ∧
      nd.value = some (listMax (Node.minimaxValueList L m)) ∧
      Node.minimaxValue nd m = listMax (Node.minimaxValueList L m) := by
  cases L with
  | nil => exact absurd rfl hne
  | cons c cs =>
    have hc := hst c (List.mem_cons_self c cs)
    have hstep : gmaxStep none c = some (Node.minimaxValue c m, c) := by
      simp [gmaxStep, hc]
    obtain ⟨nd2, hfold, hv, hm⟩ := gmax_fold_stored m cs (Node.minimaxValue c m) c
      (fun d hd => hst d (List.mem_cons_of_mem c hd)) hc rfl
    refine ⟨nd2, ?_, hv, hm⟩
    unfold Node.get_max_node
    rw [List.foldl_cons, hstep, hfold]
    rfl

/-- get_min_node over exactly-valued siblings, dual. -/
theorem gmin_stored (m : Bool) (L : List Node) (hne : L ≠ [])
    (hst : ∀ ch ∈ L, ch.value = some (Node.minimaxValue ch m)) :
    ∃ nd, Node.get_min_node L = some nd ∧
      nd.value = some (listMin (Node.minimaxValueList L m)) ∧
      Node.minimaxValue nd m = listMin (Node.minimaxValueList L m) := by
  cases L with
  | nil => exact absurd rfl hne
  | cons c cs =>
    have hc := hst c (List.mem_cons_self c cs)
    have hstep : gminStep none c = some (Node.minimaxValue c m, c) := by
      simp [gminStep, hc]
    obtain ⟨nd2, hfold, hv, hm⟩ := gmin_fold_stored m cs (Node.minimaxValue c m) c
      (fun d hd => hst d (List.mem_cons_of_mem c hd)) hc rfl
    refine ⟨nd2, ?_, hv, hm⟩
    unfold Node.get_min_node
    rw [List.foldl_cons, hstep, hfold]
    rfl

/-- Minimax propagation at a root with children: when no timeout fires the root value is the minimax value of the tree and the best-child selector picks a child that stores it and whose own minimax value equals it. -/
theorem mm_root_choice {t t1 : Node} {maxi : Bool} {clk : Option Clock} {v1 : Int}
    {r1 : Option Clock} (hne : t.children ≠ [])
    (hmm : Node.minimax_propagate_values_up t maxi clk = (t1, Except.ok v1, r1)) :
    v1 = Node.minimaxValue t maxi ∧
    ∃ nd, (if maxi then Node.get_max_node t1.children else Node.get_min_node t1.children) =
        some nd ∧ nd.value = some v1 ∧ Node.minimaxValue nd (!maxi) = v1 := by
  cases t with
  | mk s v a cs =>
    cases cs with
    | nil => exact absurd rfl hne
    | cons c cs' =>
      rcases htick : tick clk with ⟨tc, clk2⟩
      have hmain : ∀ (cs2 : List Node) (vals : List Int) (clk3 : Option Clock),
          Node.minimax_list (c :: cs') (!maxi) clk2 = (cs2, Except.ok vals, clk3) →
          t1 = Node.mk s (some (if maxi then listMax vals else listMin vals)) a cs2 →
          v1 = (if maxi then listMax vals else listMin vals) →
          v1 = Node.minimaxValue (Node.mk s v a (c :: cs')) maxi ∧
          ∃ nd, (if maxi then Node.get_max_node t1.children
              else Node.get_min_node t1.children) = some nd ∧
            nd.value = some v1 ∧ Node.minimaxValue nd (!maxi) = v1 := by
        intro cs2 vals clk3 hlist ht hv
        obtain ⟨hvals, hlen, hpres, hstore⟩ :=
          mm_list_sound (c :: cs')
            (fun d _ m2 clk0 d' w2 clk0' h2 => mm_sound h2) (!maxi) clk2 cs2 vals clk3 hlist
        have hne2 : cs2 ≠ [] := by
          cases cs2 with
          | nil => simp at hlen
          | cons d ds => exact List.cons_ne_nil d ds
        have hch : t1.children = cs2 := by rw [ht]; rfl
        have hwv : v1 = Node.minimaxValue (Node.mk s v a (c :: cs')) maxi := by
          rw [hv, hvals]
          cases maxi <;> simp [Node.minimaxValue]
        refine ⟨hwv, ?_⟩
        cases maxi with
        | true =>
          obtain ⟨nd, hgm, hvnd, hmnd⟩ := gmax_stored false cs2 hne2 hstore
          have hlink : listMax (Node.minimaxValueList cs2 false) = v1 := by
            rw [hpres false, hv]
            have hf : Node.minimaxValueList (c :: cs') false =
                Node.minimaxValueList (c :: cs') (!true) := rfl
            rw [hf, ← hvals]
            rfl
          refine ⟨nd, ?_, ?_, ?_⟩
          · show Node.get_max_node t1.children = some nd
            rw [hch]
            exact hgm
          · rw [← hlink]; exact hvnd
          · show Node.minimaxValue nd false = v1
            rw [← hlink]; exact hmnd
        | false =>
          obtain ⟨nd, hgm, hvnd, hmnd⟩ := gmin_stored true cs2 hne2 hstore
          have hlink : listMin (Node.minimaxValueList cs2 true) = v1 := by
            rw [hpres true, hv]
            have hf : Node.minimaxValueList (c :: cs') true =
                Node.minimaxValueList (c :: cs') (!false) := rfl
            rw [hf, ← hvals]
            rfl
          refine ⟨nd, ?_, ?_, ?_⟩
          · show Node.get_min_node t1.children = some nd
            rw [hch]
            exact hgm
          · rw [← hlink]; exact hvnd
          · show Node.minimaxValue nd true = v1
            rw [← hlink]; exact hmnd
      cases tc with
      | expired =>
        simp only [Node.minimax_propagate_values_up, htick, Prod.mk.injEq] at hmm
        cases hmm.2.1
      | fine =>
        rcases hlist : Node.minimax_list (c :: cs') (!maxi) clk2 with ⟨cs2, res, clk3⟩
        cases res with
        | error e =>
          simp only [Node.minimax_propagate_values_up, htick, hlist, Prod.mk.injEq] at hmm
          cases hmm.2.1
        | ok vals =>
          simp only [Node.minimax_propagate_values_up, htick, hlist, Prod.mk.injEq,
            Except.ok.injEq] at hmm
          exact hmain cs2 vals clk3 hlist hmm.1.symm hmm.2.1.symm
      | cutoff =>
        rcases hlist : Node.minimax_list (c :: cs') (!maxi) clk2 with ⟨cs2, res, clk3⟩
        cases res with
        | error e =>
          simp only [Node.minimax_propagate_values_up, htick, hlist, Prod.mk.injEq] at hmm
          cases hmm.2.1
        | ok vals =>
          simp only [Node.minimax_propagate_values_up, htick, hlist, Prod.mk.injEq,
            Except.ok.injEq] at hmm
          exact hmain cs2 vals clk3 hlist hmm.1.symm hmm.2.1.symm

/-- Alpha-beta propagation at a root with children under the infinite initial window: when no timeout fires the root value is the minimax value of the tree and the best-child selector picks a child that stores it and whose own minimax value equals it. -/
theorem ab_root_choice {t t2 : Node} {maxi : Bool} {clk : Option Clock} {v2 : Int}
    {r2 : Option Clock} (hne : t.children ≠ [])
    (hab : Node.alphabeta_propagate_values_up t ⊥ ⊤ maxi clk = (t2, Except.ok v2, r2)) :
    v2 = Node.minimaxValue t maxi ∧
    ∃ nd, (if maxi then Node.get_max_node t2.children else Node.get_min_node t2.children) =
        some nd ∧ nd.value = some v2 ∧ Node.minimaxValue nd (!maxi) = v2 := by
  have hval2 : v2 = Node.minimaxValue t maxi := by
    obtain ⟨_, _, _, _, htriC⟩ := ab_sound bot_lt_top_eint hab
    exact htriC (EInt.bot_lt_ofInt v2) (EInt.ofInt_lt_top v2)
  refine ⟨hval2, ?_⟩
  cases t with
  | mk s v a cs =>
    cases cs with
    | nil => exact absurd rfl hne
    | cons c cs' =>
      rcases htick : tick clk with ⟨tc, clk2⟩
      have hIH : ∀ d ∈ c :: cs', ∀ (alpha2 beta2 : EInt) (m2 : Bool) (clk0 : Option Clock)
          (d' : Node) (s2 : Int) (clk0' : Option Clock), alpha2 < beta2 →
          Node.alphabeta_propagate_values_up d alpha2 beta2 m2 clk0 =
            (d', Except.ok s2, clk0') →
          d'.value = some s2 ∧ (∀ b, Node.minimaxValue d' b = Node.minimaxValue d b) ∧
            (EInt.ofInt s2 ≤ alpha2 → Node.minimaxValue d m2 ≤ s2) ∧
            (beta2 ≤ EInt.ofInt s2 → s2 ≤ Node.minimaxValue d m2) ∧
            (alpha2 < EInt.ofInt s2 → EInt.ofInt s2 < beta2 →
              s2 = Node.minimaxValue d m2) :=
        fun d _ alpha2 beta2 m2 clk0 d' s2 clk0' hlt h2 => ab_sound hlt h2
      have hmainMax : maxi = true →
          ∀ (cs2 : List Node) (clk3 : Option Clock),
          Node.alphabeta_fold_max (c :: cs') ⊥ ⊤ false clk2 none =
            (cs2, Except.ok v2, clk3) →
          t2 = Node.mk s (some v2) a cs2 →
          ∃ nd, (if maxi then Node.get_max_node t2.children
              else Node.get_min_node t2.children) = some nd ∧
            nd.value = some v2 ∧ Node.minimaxValue nd (!maxi) = v2 := by
        intro hmx cs2 clk3 hfold ht
        subst hmx
        obtain ⟨nd, hfold2, hvnd, hmnd⟩ :=
          ab_fold_max_root (c :: cs') hIH ⊥ false clk2 none cs2 v2 clk3
            (Or.inl ⟨rfl, rfl⟩) (fun _ => List.cons_ne_nil c cs') hfold none
            (Or.inl ⟨rfl, rfl⟩)
        refine ⟨nd, ?_, hvnd, hmnd⟩
        show Node.get_max_node t2.children = some nd
        rw [ht]
        show (cs2.foldl gmaxStep none).map Prod.snd = some nd
        rw [hfold2]
        rfl
      have hmainMin : maxi = false →
          ∀ (cs2 : List Node) (clk3 : Option Clock),
          Node.alphabeta_fold_min (c :: cs') ⊥ ⊤ true clk2 none =
            (cs2, Except.ok v2, clk3) →
          t2 = Node.mk s (some v2) a cs2 →
          ∃ nd, (if maxi then Node.get_max_node t2.children
              else Node.get_min_node t2.children) = some nd ∧
            nd.value = some v2 ∧ Node.minimaxValue nd (!maxi) = v2 := by
        intro hmx cs2 clk3 hfold ht
        subst hmx
        obtain ⟨nd, hfold2, hvnd, hmnd⟩ :=
          ab_fold_min_root (c :: cs') hIH ⊤ true clk2 none cs2 v2 clk3
            (Or.inl ⟨rfl, rfl⟩) (fun _ => List.cons_ne_nil c cs') hfold none
            (Or.inl ⟨rfl, rfl⟩)
        refine ⟨nd, ?_, hvnd, hmnd⟩
        show Node.get_min_node t2.children = some nd
        rw [ht]
        show (cs2.foldl gminStep none).map Prod.snd = some nd
        rw [hfold2]
        rfl
      cases tc with
      | expired =>
        simp only [Node.alphabeta_propagate_values_up, htick, Prod.mk.injEq] at hab
        cases hab.2.1
      | fine =>
        cases maxi with
        | true =>
          rcases hfold : Node.alphabeta_fold_max (c :: cs') ⊥ ⊤ false clk2 none
            with ⟨cs2, res, clk3⟩
          cases res with
          | error e =>
            simp only [Node.alphabeta_propagate_values_up, htick, Bool.not_true, hfold,
              if_true, Prod.mk.injEq] at hab
            cases hab.2.1
          | ok bv =>
            simp only [Node.alphabeta_propagate_values_up, htick, Bool.not_true, hfold,
              if_true, Prod.mk.injEq, Except.ok.injEq] at hab
            obtain ⟨ht, hbv, _⟩ := hab
            subst hbv
            exact hmainMax rfl cs2 clk3 hfold ht.symm
        | false =>
          rcases hfold : Node.alphabeta_fold_min (c :: cs') ⊥ ⊤ true clk2 none
            with ⟨cs2, res, clk3⟩
          cases res with
          | error e =>
            simp only [Node.alphabeta_propagate_values_up, htick, Bool.not_false, hfold,
              Bool.false_eq_true, if_false, Prod.mk.injEq] at hab
            cases hab.2.1
          | ok bv =>
            simp only [Node.alphabeta_propagate_values_up, htick, Bool.not_false, hfold,
              Bool.false_eq_true, if_false, Prod.mk.injEq, Except.ok.injEq] at hab
            obtain ⟨ht, hbv, _⟩ := hab
            subst hbv
            exact hmainMin rfl cs2 clk3 hfold ht.symm
      | cutoff =>
        cases maxi with
        | true =>
          rcases hfold : Node.alphabeta_fold_max (c :: cs') ⊥ ⊤ false clk2 none
            with ⟨cs2, res, clk3⟩
          cases res with
          | error e =>
            simp only [Node.alphabeta_propagate_values_up, htick, Bool.not_true, hfold,
              if_true, Prod.mk.injEq] at hab
            cases hab.2.1
          | ok bv =>
            simp only [Node.alphabeta_propagate_values_up, htick, Bool.not_true, hfold,
              if_true, Prod.mk.injEq, Except.ok.injEq] at hab
            obtain ⟨ht, hbv, _⟩ := hab
            subst hbv
            exact hmainMax rfl cs2 clk3 hfold ht.symm
        | false =>
          rcases hfold : Node.alphabeta_fold_min (c :: cs') ⊥ ⊤ true clk2 none
            with ⟨cs2, res, clk3⟩
          cases res with
          | error e =>
            simp only [Node.alphabeta_propagate_values_up, htick, Bool.not_false, hfold,
              Bool.false_eq_true, if_false, Prod.mk.injEq] at hab
            cases hab.2.1
          | ok bv =>
            simp only [Node.alphabeta_propagate_values_up, htick, Bool.not_false, hfold,
              Bool.false_eq_true, if_false, Prod.mk.injEq, Except.ok.injEq] at hab
            obtain ⟨ht, hbv, _⟩ := hab
            subst hbv
            exact hmainMin rfl cs2 clk3 hfold ht.symm

/-- Helper: when the best-child selector finds a valued child, take_best_next_state
returns exactly that child with no warning logged. -/
theorem take_best_of_some {root : Node} {maxi : Bool} {k : Nat} {es : String} {nd : Node}
    (h : (if maxi then Node.get_max_node root.children else Node.get_min_node root.children) =
      some nd) :
    Node.take_best_next_state root maxi k es = Except.ok (nd, none) := by
  unfold Node.take_best_next_state
  rw [h]

/-- C1: for every node tree with all leaves at equal depth whose root has
children, when neither propagation raises a timeout (both return ok),
run_alphabeta with the infinite initial window and run_minimax assign the same
value to the root, and the root children they pick both store that value and
have equal heuristic (minimax) value - they need not be the same child when
several optima tie. -/
theorem c1_alphabeta_minimax_agree
    (t t1 t2 b1 b2 : Node) (maxi : Bool) (c1 c2 : Clock) (k1 k2 : Nat)
    (v1 v2 : Int) (r1 r2 : Option Clock) (lg1 lg2 : Option String)
    ( _hu : Node.uniformDepth t)
    (hne : t.children ≠ [])
    (hmm : Node.minimax_propagate_values_up t maxi (some c1) = (t1, Except.ok v1, r1))
    (hab : Node.alphabeta_propagate_values_up t ⊥ ⊤ maxi (some c2) = (t2, Except.ok v2, r2))
    (hrun1 : Node.run_minimax t maxi c1 k1 = (t1, Except.ok (b1, lg1)))
    (hrun2 : Node.run_alphabeta t maxi c2 k2 = (t2, Except.ok (b2, lg2))) :
    v1 = v2 ∧ b1.value = some v1 ∧ b2.value = some v2 ∧
      Node.minimaxValue b1 (!maxi) = Node.minimaxValue b2 (!maxi) := by
  obtain ⟨hv1, nd1, hg1, hval1, hm1⟩ := mm_root_choice hne hmm
  obtain ⟨hv2, nd2, hg2, hval2, hm2⟩ := ab_root_choice hne hab
  unfold Node.run_minimax at hrun1
  rw [hmm] at hrun1
  dsimp only at hrun1
  unfold Node.run_alphabeta at hrun2
  rw [hab] at hrun2
  dsimp only at hrun2
  have htb1 := congrArg Prod.snd hrun1
  have htb2 := congrArg Prod.snd hrun2
  dsimp only at htb1 htb2
  rw [take_best_of_some hg1] at htb1
  rw [take_best_of_some hg2] at htb2
  injection htb1 with htb1
  injection htb2 with htb2
  injection htb1 with hb1 hlg1
  injection htb2 with hb2 hlg2
  subst hb1
  subst hb2
  refine ⟨?_, hval1, hval2, ?_⟩
  · rw [hv1, hv2]
  · rw [hm1, hm2, hv1, hv2]

/-- Witness for C1: a two-leaf tree with cached leaf values 7 and 3, the
maximizing side to move and ample clocks; both searches value the root at 7
and pick the first leaf. -/
theorem c1_alphabeta_minimax_agree_witness :
    (7 : Int) = 7 ∧ wLeafA.value = some 7 ∧ wLeafA.value = some 7 ∧
      Node.minimaxValue wLeafA (!true) = Node.minimaxValue wLeafA (!true) :=
  c1_alphabeta_minimax_agree wRoot wT1 wT1 wLeafA wLeafA true ⟨10, 0⟩ ⟨10, 0⟩ 0 0 7 7
    (some ⟨7, 0⟩) (some ⟨7, 0⟩) none none ⟨1, by decide⟩
    (List.cons_ne_nil wLeafA [wLeafB]) rfl rfl rfl rfl

/-- A getD result is the default or a member of the list. -/
theorem getD_mem_or_eq {α : Type} (l : List α) (n : Nat) (d : α) :
    l.getD n d = d ∨ l.getD n d ∈ l := by
  rw [List.getD_eq_getD_get?]
  cases hq : l.get? n with
  | none => left; rfl
  | some x => right; exact List.get?_mem hq

/-- An object id read from a cell is among the ids the board references. -/
theorem GameH.cell_mem {g : GameH} {c : Coord} {i : Nat} (h : g.cell c = some i) :
    i ∈ g.boardIds := by
  unfold GameH.cell at h
  by_cases hv : g.is_coord_valid c = true
  · rw [if_pos hv] at h
    rcases getD_mem_or_eq (g.board.getD c.row.toNat []) c.col.toNat none with hd | hm
    · rw [hd] at h; cases h
    · rcases getD_mem_or_eq g.board c.row.toNat [] with hd2 | hm2
      · rw [hd2] at hm; cases hm
      · rw [h] at hm
        refine List.mem_flatMap.mpr ⟨g.board.getD c.row.toNat [], hm2, ?_⟩
        exact List.mem_filterMap.mpr ⟨some i, hm, rfl⟩
  · rw [if_neg hv] at h; cases h

/-- setCell can only add the id it writes: any referenced id was referenced before or is the written one. -/
theorem GameH.setCell_refs {g : GameH} {c : Coord} {v : Option Nat} {j : Nat}
    (h : j ∈ (g.setCell c v).boardIds) : j ∈ g.boardIds ∨ v = some j := by
  unfold GameH.setCell at h
  by_cases hv2 : g.is_coord_valid c = true
  · rw [if_pos hv2] at h
    obtain ⟨row2, hrow2, hj⟩ := List.mem_flatMap.mp h
    rcases List.mem_or_eq_of_mem_set hrow2 with hro | hre
    · exact Or.inl (List.mem_flatMap.mpr ⟨row2, hro, hj⟩)
    · subst hre
      obtain ⟨oc, hoc, hid⟩ := List.mem_filterMap.mp hj
      rcases List.mem_or_eq_of_mem_set hoc with hoc2 | hoc3
      · rcases getD_mem_or_eq g.board c.row.toNat [] with hd2 | hm2
        · rw [hd2] at hoc2; cases hoc2
        · exact Or.inl (List.mem_flatMap.mpr ⟨g.board.getD c.row.toNat [],
            hm2, List.mem_filterMap.mpr ⟨oc, hoc2, hid⟩⟩)
      · subst hoc3
        exact Or.inr hid
  · rw [if_neg hv2] at h
    exact Or.inl h

/-- remove_dead only clears a cell, so it cannot add references. -/
theorem GameH.remove_dead_refs {store : List Unit} {g : GameH} {c : Coord} {j : Nat}
    (h : j ∈ (GameH.remove_dead store g c).boardIds) : j ∈ g.boardIds := by
  have hsub : ∀ {j2 : Nat} {g3 : GameH}, j2 ∈ (g3.setCell c none).boardIds →
      j2 ∈ g3.boardIds := by
    intro j2 g3 hj
    rcases GameH.setCell_refs hj with h1 | h2
    · exact h1
    · cases h2
  unfold GameH.remove_dead at h
  cases hgu : GameH.getU store g c with
  | none => rw [hgu] at h; exact h
  | some u =>
    rw [hgu] at h
    dsimp only at h
    by_cases ha : u.is_alive = false
    · rw [if_pos ha] at h
      by_cases ht : u.type = UnitType.AI
      · rw [if_pos ht] at h
        by_cases hp : u.player = PlayerTeam.Attacker
        · rw [if_pos hp] at h
          exact hsub h
        · rw [if_neg hp] at h
          exact hsub h
      · rw [if_neg ht] at h
        exact hsub h
    · rw [if_neg ha] at h
      exact h

/-- Frame property of the heap mod_health: the store keeps its length, only entries referenced by the state are mutated, and no new ids become referenced. -/
theorem GameH.mod_health_frame {store : List Unit} {g : GameH} {c : Coord} {d : Int}
    {store2 : List Unit} {g2 : GameH}
    (h : GameH.mod_health store g c d = (store2, g2)) :
    store2.length = store.length ∧
    (∀ i, i ∉ g.boardIds → store2.get? i = store.get? i) ∧
    (∀ j ∈ g2.boardIds, j ∈ g.boardIds) := by
  unfold GameH.mod_health at h
  cases hc : g.cell c with
  | none =>
    rw [hc] at h
    cases h
    exact ⟨rfl, fun _ _ => rfl, fun j hj => hj⟩
  | some i =>
    rw [hc] at h
    dsimp only at h
    cases hsi : store.get? i with
    | none =>
      rw [hsi] at h
      cases h
      exact ⟨rfl, fun _ _ => rfl, fun j hj => hj⟩
    | some u =>
      rw [hsi] at h
      dsimp only at h
      cases h
      refine ⟨List.length_set store i _, ?_, fun j hj => GameH.remove_dead_refs hj⟩
      intro i' hi'
      have hne : i ≠ i' := fun he => hi' (he ▸ GameH.cell_mem hc)
      exact List.get?_set_ne _ _ hne

/-- Frame property of the heap destroy, as for mod_health. -/
theorem GameH.destroy_frame {store : List Unit} {g : GameH} {c : Coord}
    {store2 : List Unit} {g2 : GameH}
    (h : GameH.destroy store g c = (store2, g2)) :
    store2.length = store.length ∧
    (∀ i, i ∉ g.boardIds → store2.get? i = store.get? i) ∧
    (∀ j ∈ g2.boardIds, j ∈ g.boardIds) := by
  unfold GameH.destroy at h
  cases hc : g.cell c with
  | none =>
    rw [hc] at h
    cases h
    exact ⟨rfl, fun _ _ => rfl, fun j hj => hj⟩
  | some i =>
    rw [hc] at h
    dsimp only at h
    cases hsi : store.get? i with
    | none =>
      rw [hsi] at h
      cases h
      exact ⟨rfl, fun _ _ => rfl, fun j hj => hj⟩
    | some u =>
      rw [hsi] at h
      dsimp only at h
      cases h
      refine ⟨List.length_set store i _, ?_, fun j hj => GameH.remove_dead_refs hj⟩
      intro i' hi'
      have hne : i ≠ i' := fun he => hi' (he ▸ GameH.cell_mem hc)
      exact List.get?_set_ne _ _ hne

/-- The 3x3 heap explosion as a fold over the nine blast coordinates. -/
theorem GameH.explode_as_foldl (store : List Unit) (g : GameH) (c : Coord) :
    GameH.explode store g c =
      (explodeList c).foldl (fun acc e => GameH.mod_health acc.1 acc.2 e (-2)) (store, g) := by
  have hr : List.range 3 = [0, 1, 2] := rfl
  have e0 : ∀ x : Int, x - 1 + ((0 : Nat) : Int) = x - 1 := by
    intro x
    simp
  have e1 : ∀ x : Int, x - 1 + ((1 : Nat) : Int) = x := by
    intro x
    simp
  have e2 : ∀ x : Int, x - 1 + ((2 : Nat) : Int) = x + 1 := by
    intro x
    push_cast
    ring
  simp only [GameH.explode, explodeList, hr, List.foldl_cons, List.foldl_nil, e0, e1, e2]

/-- Frame property of a fold of heap mod_health steps over a coordinate list. -/
theorem GameH.foldl_mod_frame (L : List Coord) : ∀ (store : List Unit) (g : GameH)
    (store2 : List Unit) (g2 : GameH),
    L.foldl (fun acc e => GameH.mod_health acc.1 acc.2 e (-2)) (store, g) = (store2, g2) →
    store2.length = store.length ∧
    (∀ i, i ∉ g.boardIds → store2.get? i = store.get? i) ∧
    (∀ j ∈ g2.boardIds, j ∈ g.boardIds) := by
  induction L with
  | nil =>
    intro store g store2 g2 h
    cases h
    exact ⟨rfl, fun _ _ => rfl, fun j hj => hj⟩
  | cons a L ih =>
    intro store g store2 g2 h
    rw [List.foldl_cons] at h
    rcases hm : GameH.mod_health store g a (-2) with ⟨store1, g1⟩
    rw [hm] at h
    obtain ⟨hlen1, hpres1, hrefs1⟩ := GameH.mod_health_frame hm
    obtain ⟨hlen2, hpres2, hrefs2⟩ := ih store1 g1 store2 g2 h
    refine ⟨hlen2.trans hlen1, ?_, fun j hj => hrefs1 j (hrefs2 j hj)⟩
    intro i hi
    have hi1 : i ∉ g1.boardIds := fun hmem => hi (hrefs1 i hmem)
    exact (hpres2 i hi1).trans (hpres1 i hi)

/-- Frame property of the heap explode. -/
theorem GameH.explode_frame {store : List Unit} {g : GameH} {c : Coord}
    {store2 : List Unit} {g2 : GameH}
    (h : GameH.explode store g c = (store2, g2)) :
    store2.length = store.length ∧
    (∀ i, i ∉ g.boardIds → store2.get? i = store.get? i) ∧
    (∀ j ∈ g2.boardIds, j ∈ g.boardIds) := by
  rw [GameH.explode_as_foldl] at h
  exact GameH.foldl_mod_frame (explodeList c) store g store2 g2 h

/-- Frame property of the heap perform_move: every action mutates only store entries referenced by the state it acts on, preserves the store length, and references no new ids. -/
theorem GameH.perform_move_frame {store : List Unit} {g : GameH} {coords : CoordPair}
    {action : UnitAction} {store2 : List Unit} {g2 : GameH}
    (h : GameH.perform_move store g coords action = (store2, g2)) :
    store2.length = store.length ∧
    (∀ i, i ∉ g.boardIds → store2.get? i = store.get? i) ∧
    (∀ j ∈ g2.boardIds, j ∈ g.boardIds) := by
  unfold GameH.perform_move at h
  by_cases hmv : action = UnitAction.Move
  · rw [if_pos hmv] at h
    dsimp only at h
    cases h
    refine ⟨rfl, fun _ _ => rfl, ?_⟩
    intro j hj
    rcases GameH.setCell_refs hj with h1 | h2
    · rcases GameH.setCell_refs h1 with h3 | h4
      · exact h3
      · exact GameH.cell_mem h4
    · cases h2
  · rw [if_neg hmv] at h
    by_cases hkb : action = UnitAction.Kaboom
    · rw [if_pos hkb] at h
      dsimp only at h
      rcases hd : GameH.destroy store g coords.dst with ⟨store1, g1⟩
      rw [hd] at h
      obtain ⟨hlen1, hpres1, hrefs1⟩ := GameH.destroy_frame hd
      obtain ⟨hlen2, hpres2, hrefs2⟩ := GameH.explode_frame h
      refine ⟨hlen2.trans hlen1, ?_, fun j hj => hrefs1 j (hrefs2 j hj)⟩
      intro i hi
      have hi1 : i ∉ g1.boardIds := fun hmem => hi (hrefs1 i hmem)
      exact (hpres2 i hi1).trans (hpres1 i hi)
    · rw [if_neg hkb] at h
      by_cases hat : action = UnitAction.Attack
      · rw [if_pos hat] at h
        cases hgs : GameH.getU store g coords.src with
        | none =>
          rw [hgs] at h
          cases hgd : GameH.getU store g coords.dst with
          | none =>
            rw [hgd] at h
            cases h
            exact ⟨rfl, fun _ _ => rfl, fun j hj => hj⟩
          | some ou =>
            rw [hgd] at h
            cases h
            exact ⟨rfl, fun _ _ => rfl, fun j hj => hj⟩
        | some au =>
          rw [hgs] at h
          cases hgd : GameH.getU store g coords.dst with
          | none =>
            rw [hgd] at h
            cases h
            exact ⟨rfl, fun _ _ => rfl, fun j hj => hj⟩
          | some ou =>
            rw [hgd] at h
            dsimp only at h
            rcases hm1 : GameH.mod_health store g coords.dst (-(Unit.damage_amount au ou))
              with ⟨store1, g1⟩
            rw [hm1] at h
            obtain ⟨hlen1, hpres1, hrefs1⟩ := GameH.mod_health_frame hm1
            obtain ⟨hlen2, hpres2, hrefs2⟩ := GameH.mod_health_frame h
            refine ⟨hlen2.trans hlen1, ?_, fun j hj => hrefs1 j (hrefs2 j hj)⟩
            intro i hi
            have hi1 : i ∉ g1.boardIds := fun hmem => hi (hrefs1 i hmem)
            exact (hpres2 i hi1).trans (hpres1 i hi)
      · rw [if_neg hat] at h
        by_cases hrp : action = UnitAction.Repair
        · rw [if_pos hrp] at h
          cases hgs : GameH.getU store g coords.src with
          | none =>
            rw [hgs] at h
            cases hgd : g.cell coords.dst with
            | none =>
              rw [hgd] at h
              cases h
              exact ⟨rfl, fun _ _ => rfl, fun j hj => hj⟩
            | some i =>
              rw [hgd] at h
              cases h
              exact ⟨rfl, fun _ _ => rfl, fun j hj => hj⟩
          | some au =>
            rw [hgs] at h
            cases hgd : g.cell coords.dst with
            | none =>
              rw [hgd] at h
              cases h
              exact ⟨rfl, fun _ _ => rfl, fun j hj => hj⟩
            | some i =>
              rw [hgd] at h
              dsimp only at h
              cases hsi : store.get? i with
              | none =>
                rw [hsi] at h
                cases h
                exact ⟨rfl, fun _ _ => rfl, fun j hj => hj⟩
              | some ou =>
                rw [hsi] at h
                cases h
                refine ⟨List.length_set store i _, ?_, fun j hj => hj⟩
                intro i' hi'
                have hne : i ≠ i' := fun he => hi' (he ▸ GameH.cell_mem hgd)
                exact List.get?_set_ne _ _ hne
        · rw [if_neg hrp] at h
          cases h
          exact ⟨rfl, fun _ _ => rfl, fun j hj => hj⟩

/-- The observable game state depends only on the store entries the board references: stores that agree there dereference to the same Game. -/
theorem GameH.toGame_agree {store1 store2 : List Unit} {g : GameH}
    (h : ∀ i ∈ g.boardIds, store1.get? i = store2.get? i) :
    GameH.toGame store1 g = GameH.toGame store2 g := by
  unfold GameH.toGame
  congr 1
  refine List.map_congr_left ?_
  intro row hrow
  refine List.map_congr_left ?_
  intro oc hoc
  cases hc : oc with
  | none => rfl
  | some i =>
    have hi : i ∈ g.boardIds := by
      refine List.mem_flatMap.mpr ⟨row, hrow, ?_⟩
      refine List.mem_filterMap.mpr ⟨oc, hoc, ?_⟩
      rw [hc]
      rfl
    show store1.get? i = store2.get? i
    exact h i hi

/-- Deep-copying a row only appends to the store: old entries are preserved, and every id in the copied row is fresh (at least the old length and below the new one). -/
theorem deep_copy_row_spec : ∀ (row : List (Option Nat)) (store : List Unit)
    (store2 : List Unit) (row2 : List (Option Nat)),
    deep_copy_row store row = (store2, row2) →
    store.length ≤ store2.length ∧
    (∀ i, i < store.length → store2.get? i = store.get? i) ∧
    (∀ j ∈ row2.filterMap id, store.length ≤ j ∧ j < store2.length) := by
  intro row
  induction row with
  | nil =>
    intro store store2 row2 h
    cases h
    exact ⟨le_rfl, fun _ _ => rfl, by simp⟩
  | cons oc rest ih =>
    intro store store2 row2 h
    unfold deep_copy_row at h
    cases oc with
    | none =>
      dsimp only at h
      rcases hr : deep_copy_row store rest with ⟨s3, r3⟩
      rw [hr] at h
      dsimp only at h
      cases h
      obtain ⟨hle, hpres, hrefs⟩ := ih store store2 r3 hr
      refine ⟨hle, hpres, ?_⟩
      intro j hj
      simp only [List.filterMap_cons] at hj
      exact hrefs j hj
    | some i =>
      dsimp only at h
      cases hsi : store.get? i with
      | none =>
        rw [hsi] at h
        dsimp only at h
        rcases hr : deep_copy_row store rest with ⟨s3, r3⟩
        rw [hr] at h
        dsimp only at h
        cases h
        obtain ⟨hle, hpres, hrefs⟩ := ih store store2 r3 hr
        refine ⟨hle, hpres, ?_⟩
        intro j hj
        simp only [List.filterMap_cons] at hj
        exact hrefs j hj
      | some u =>
        rw [hsi] at h
        dsimp only at h
        rcases hr : deep_copy_row (store ++ [u]) rest with ⟨s3, r3⟩
        rw [hr] at h
        dsimp only at h
        cases h
        obtain ⟨hle, hpres, hrefs⟩ := ih (store ++ [u]) store2 r3 hr
        have hlen1 : (store ++ [u]).length = store.length + 1 := by simp
        refine ⟨?_, ?_, ?_⟩
        · omega
        · intro i2 hi2
          have h1 : store2.get? i2 = (store ++ [u]).get? i2 := hpres i2 (by omega)
          rw [h1]
          exact List.get?_append hi2
        · intro j hj
          simp only [List.filterMap_cons, id] at hj
          rcases List.mem_cons.mp hj with hj1 | hj2
          · subst hj1
            constructor
            · exact le_rfl
            · omega
          · obtain ⟨hj3, hj4⟩ := hrefs j hj2
            constructor
            · omega
            · exact hj4

/-- Deep-copying a board: old store entries preserved, all ids of the copy fresh. -/
theorem deep_copy_rows_spec : ∀ (b : List (List (Option Nat))) (store : List Unit)
    (store2 : List Unit) (b2 : List (List (Option Nat))),
    deep_copy_rows store b = (store2, b2) →
    store.length ≤ store2.length ∧
    (∀ i, i < store.length → store2.get? i = store.get? i) ∧
    (∀ j ∈ boardIdsOf b2, store.length ≤ j ∧ j < store2.length) := by
  intro b
  induction b with
  | nil =>
    intro store store2 b2 h
    cases h
    exact ⟨le_rfl, fun _ _ => rfl, by simp [boardIdsOf]⟩
  | cons row rest ih =>
    intro store store2 b2 h
    unfold deep_copy_rows at h
    dsimp only at h
    rcases hr : deep_copy_row store row with ⟨s1, row2⟩
    rw [hr] at h
    rcases hrr : deep_copy_rows s1 rest with ⟨s2f, rest2⟩
    rw [hrr] at h
    dsimp only at h
    cases h
    obtain ⟨hle1, hpres1, hrefs1⟩ := deep_copy_row_spec row store s1 row2 hr
    obtain ⟨hle2, hpres2, hrefs2⟩ := ih s1 store2 rest2 hrr
    refine ⟨le_trans hle1 hle2, ?_, ?_⟩
    · intro i hi
      have h1 : store2.get? i = s1.get? i := hpres2 i (by omega)
      rw [h1]
      exact hpres1 i hi
    · intro j hj
      rcases List.mem_flatMap.mp hj with ⟨r2, hr2, hjr⟩
      rcases List.mem_cons.mp hr2 with h1 | h2
      · subst h1
        obtain ⟨h3, h4⟩ := hrefs1 j hjr
        exact ⟨h3, by omega⟩
      · obtain ⟨h3, h4⟩ := hrefs2 j (List.mem_flatMap.mpr ⟨r2, h2, hjr⟩)
        exact ⟨by omega, h4⟩

/-- Heap clone: the original store entries are untouched and the clone references only freshly allocated objects. -/
theorem GameH.clone_spec {store : List Unit} {g : GameH} {store2 : List Unit} {g2 : GameH}
    (h : GameH.clone store g = (store2, g2)) :
    store.length ≤ store2.length ∧
    (∀ i, i < store.length → store2.get? i = store.get? i) ∧
    (∀ j ∈ g2.boardIds, store.length ≤ j ∧ j < store2.length) := by
  unfold GameH.clone at h
  dsimp only at h
  rcases hr : deep_copy_rows store g.board with ⟨s1, b2⟩
  rw [hr] at h
  dsimp only at h
  cases h
  exact deep_copy_rows_spec g.board store store2 b2 hr

/-- The candidate-building loop: the incoming store entries are preserved, every candidate references only objects allocated at or after the incoming store end, and the reference sets of distinct candidates are pairwise disjoint. -/
theorem GameH.candList_spec : ∀ (mas : List (CoordPair × UnitAction)) (store : List Unit)
    (g : GameH) (store2 : List Unit) (cands : List (GameH × CoordPair)),
    GameH.candList store g mas = (store2, cands) →
    store.length ≤ store2.length ∧
    (∀ i, i < store.length → store2.get? i = store.get? i) ∧
    (∀ p ∈ cands, ∀ j ∈ p.1.boardIds, store.length ≤ j ∧ j < store2.length) ∧
    List.Pairwise (fun p q => ∀ j ∈ p.1.boardIds, j ∉ q.1.boardIds) cands := by
  intro mas
  induction mas with
  | nil =>
    intro store g store2 cands h
    cases h
    exact ⟨le_rfl, fun _ _ => rfl, fun p hp => absurd hp (List.not_mem_nil p), List.Pairwise.nil⟩
  | cons ma rest ih =>
    intro store g store2 cands h
    unfold GameH.candList at h
    dsimp only at h
    rcases hcl : GameH.clone store g with ⟨s1, gcl⟩
    rw [hcl] at h
    dsimp only at h
    rcases hpm : GameH.perform_move s1 { gcl with next_player := g.next_player.next } ma.1 ma.2
      with ⟨s2, gc⟩
    rw [hpm] at h
    dsimp only at h
    rcases hr : GameH.candList s2 g rest with ⟨s3, cands3⟩
    rw [hr] at h
    dsimp only at h
    cases h
    obtain ⟨hle1, hpres1, hrefs1⟩ := GameH.clone_spec hcl
    obtain ⟨hlen2, hpres2, hrefs2⟩ := GameH.perform_move_frame hpm
    obtain ⟨hle3, hpres3, hrefs3, hpw3⟩ := ih s2 g store2 cands3 hr
    have hrefs_gc : ∀ j ∈ gc.boardIds, store.length ≤ j ∧ j < s2.length := by
      intro j hj
      have hj2 := hrefs2 j hj
      obtain ⟨h3, h4⟩ := hrefs1 j hj2
      omega
    refine ⟨by omega, ?_, ?_, ?_⟩
    · intro i hi
      have h1 : store2.get? i = s2.get? i := hpres3 i (by omega)
      have h2 : s2.get? i = s1.get? i := by
        refine hpres2 i ?_
        intro hmem
        have := (hrefs1 i hmem).1
        omega
      rw [h1, h2]
      exact hpres1 i hi
    · intro p hp j hj
      rcases List.mem_cons.mp hp with h1 | h2
      · subst h1
        obtain ⟨h3, h4⟩ := hrefs_gc j hj
        exact ⟨h3, by omega⟩
      · obtain ⟨h3, h4⟩ := hrefs3 p h2 j hj
        exact ⟨by omega, h4⟩
    · refine List.pairwise_cons.mpr ⟨?_, hpw3⟩
      intro q hq j hj hjq
      have h4 := (hrefs_gc j hj).2
      have h5 := (hrefs3 q hq j hjq).1
      omega

/-- C9: every candidate produced by next_state_candidates holds a deep-copied
board fully independent of the original state and of every other candidate:
applying any move to one candidate (over the well-formed original store)
changes neither the original state-s observable board nor any other
candidate-s observable board; building the candidates also leaves the
original observable board unchanged. -/
theorem c9_candidate_clone_independence
    (store : List Unit) (g : GameH)
    (hwf : ∀ i ∈ g.boardIds, i < store.length)
    (store1 : List Unit) (cands : List (GameH × CoordPair))
    (hc : GameH.next_state_candidates store g = (store1, cands))
    (k : Nat) (candk : GameH × CoordPair) (hk : cands.get? k = some candk)
    (coords : CoordPair) (action : UnitAction)
    (store2 : List Unit) (gk2 : GameH)
    (hpm : GameH.perform_move store1 candk.1 coords action = (store2, gk2)) :
    GameH.toGame store1 g = GameH.toGame store g ∧
    GameH.toGame store2 g = GameH.toGame store1 g ∧
    ∀ j candj, cands.get? j = some candj → j ≠ k →
      GameH.toGame store2 candj.1 = GameH.toGame store1 candj.1 := by
  unfold GameH.next_state_candidates at hc
  obtain ⟨hle, hpres, hrefs, hpw⟩ := GameH.candList_spec _ store g store1 cands hc
  obtain ⟨hlen2, hpres2, hrefs2⟩ := GameH.perform_move_frame hpm
  have hmemk : candk ∈ cands := List.get?_mem hk
  refine ⟨?_, ?_, ?_⟩
  · exact GameH.toGame_agree (fun i hi => hpres i (hwf i hi))
  · refine GameH.toGame_agree (fun i hi => hpres2 i ?_)
    intro hik
    have hge := (hrefs candk hmemk i hik).1
    exact absurd (hwf i hi) (not_lt.mpr hge)
  · intro j candj hj hjk
    refine GameH.toGame_agree (fun i hi => hpres2 i ?_)
    intro hik
    obtain ⟨hklt, hkget⟩ := List.get?_eq_some.mp hk
    obtain ⟨hjlt, hjget⟩ := List.get?_eq_some.mp hj
    have hpg := List.pairwise_iff_get.mp hpw
    rcases lt_or_gt_of_ne hjk with hlt | hgt
    · have hR := hpg ⟨j, hjlt⟩ ⟨k, hklt⟩ hlt
      rw [hjget, hkget] at hR
      exact hR i hi hik
    · have hR := hpg ⟨k, hklt⟩ ⟨j, hjlt⟩ hgt
      rw [hkget, hjget] at hR
      exact hR i hik hi

/-- Witness for C9: the two-Defender fixture; candidate 0 is blasted with a
self-destruct at its own corner, and neither the original state nor candidate
1 observes any change. -/
theorem c9_candidate_clone_independence_witness :
    GameH.toGame w9NSC.1 fixtureGameH = GameH.toGame fixtureStoreH fixtureGameH ∧
    GameH.toGame w9Apply.1 fixtureGameH = GameH.toGame w9NSC.1 fixtureGameH ∧
    GameH.toGame w9Apply.1 w9CandB.1 = GameH.toGame w9NSC.1 w9CandB.1 := by
  have h := c9_candidate_clone_independence fixtureStoreH fixtureGameH (by decide)
    w9NSC.1 w9NSC.2 rfl 0 w9CandA rfl
    (CoordPair.mk (Coord.mk 0 0) (Coord.mk 0 0)) UnitAction.Kaboom
    w9Apply.1 w9Apply.2 rfl
  exact ⟨h.1, h.2.1, h.2.2 1 w9CandB rfl (by decide)⟩

end Wargame
